import Mathlib

/-!
# A fixed-capacity string-keyed hash map with linear probing (`hashmap.c`)

Shallow embedding of `src/hashmap.c` and theorems about it.

Modelling conventions.

* A C string is the list of its characters before the terminating NUL, each
  character given as the `int` it promotes to (`Key`).  `strcmp(a, b) == 0` is
  equality of these lists.
* `int` values are `Int`; array indices and loop counters that the code keeps
  non-negative are `Nat`.  `OK`/`NG`/`INVALID_CORD` keep their C values.
* The hash table is the list of its `tblsz` slots.  A value buffer is a list
  of bytes.  A pointer to the value buffer of slot `i` is `VoidPtr.container i`.
* The process-wide handle counter (`handle_num` in `map_get_handle_id_base`)
  is passed explicitly as the first argument of every public function.
* `Option` results: `none` stands for behaviour that C leaves undefined
  (reading `hash_table[index]` outside the table, `strcpy` of a key that does
  not fit `key[KEY_MAX_LEN]`, `memcpy` from a buffer shorter than `cellsz`,
  the `int` sum of `HashMap_optimum` exceeding `INT_MAX`).
* `malloc` is taken to succeed, and to hand out zero-filled buffers.
-/

namespace HashMapC

/-- Characters of a C string (without the terminating NUL). -/
abbrev Key := List Int

/-- The `#define KEY_MAX_LEN (32)` of the source. -/
def KEY_MAX_LEN : Nat := 32

/-- The `#define INIT_KEY ("")` of the source: the empty-slot sentinel. -/
def INIT_KEY : Key := []

/-- The `#define HANDLE_START_ID (55)` of the source. -/
def HANDLE_START_ID : Int := 55

/-- The `#define INVALID_CORD (-1)` of the source. -/
def INVALID_CORD : Int := -1

/-- The `#define OK (1)` of `hashmap.h`. -/
def OK : Int := 1

/-- The `#define NG (0)` of `hashmap.h`. -/
def NG : Int := 0

/-- The `struct tag_map_data` of the source: one slot of the table. -/
structure HashData where
  key : Key
  container : List Nat
deriving DecidableEq

/-- The `struct tag_map_handle` of the source. -/
structure HashMapHandle where
  hdl_id : Int
  hash : Key → Int → Int
  cellsz : Nat
  tblsz : Nat
  iterator_pos : Nat
  hash_table : List HashData

/-- A `void *` result: `NULL`, or the address of the value buffer of slot `i`. -/
inductive VoidPtr where
  | NULL : VoidPtr
  | container (i : Nat) : VoidPtr
deriving DecidableEq

/-- The key stored in slot `i` (`handle->hash_table[i].key`). -/
def key_at (handle : HashMapHandle) (i : Nat) : Key :=
  (handle.hash_table.getD i ⟨INIT_KEY, []⟩).key

/-- The value buffer of slot `i` (`handle->hash_table[i].container`). -/
def container_at (handle : HashMapHandle) (i : Nat) : List Nat :=
  (handle.hash_table.getD i ⟨INIT_KEY, []⟩).container

/-- The bytes behind a `void *` result, `none` for `NULL`. -/
def deref (handle : HashMapHandle) : VoidPtr → Option (List Nat)
  | VoidPtr.NULL => none
  | VoidPtr.container i => some (container_at handle i)

/-- The `strcpy(slot.key, src)` into `char key[KEY_MAX_LEN]`: the stored string,
or `none` when `src` and its terminator do not fit. -/
def strcpy (src : Key) : Option Key :=
  if src.length < KEY_MAX_LEN then some src else none

/-- The `memcpy(dst, src, n)`: the new contents of `dst`, or `none` when `src`
holds fewer than `n` bytes. -/
def memcpy (dst src : List Nat) (n : Nat) : Option (List Nat) :=
  if n ≤ src.length then some (src.take n ++ dst.drop n) else none

/-- The `hash_func_default` of the source; `%` of C truncates towards zero, and
`key[0]`, `key[len/2]` read the terminating NUL when the key is empty. -/
def hash_func_default (key : Key) (tblsz : Int) : Int :=
  let len : Int := key.length
  (len + (4 * (key.getD 0 0 + (4 * key.getD (key.length / 2) 0)))).tmod tblsz

/-- The `map_get_handle_id` of the source: returns the counter and increments it. -/
def map_get_handle_id (handle_num : Int) : Int × Int :=
  (handle_num, handle_num + 1)

/-- The `map_is_init` of the source, for a non-NULL handle below `CRASH_ADDRESS`. -/
def map_is_init (handle_num : Int) (handle : HashMapHandle) : Bool :=
  if HANDLE_START_ID > handle.hdl_id then false
  else if handle_num ≤ handle.hdl_id then false
  else true

/-- The `for (i=index; ; i=(i+1)%tblsz)` loop of `map_find`: `fuel` bounds the
number of iterations, `e` is `end`, the result is `(ret, *misshit)`. -/
def map_find_loop (tbl : List HashData) (tblsz : Nat) (key : Key) (e : Nat) :
    Nat → Nat → Nat → Option (Int × Nat)
  | 0, _, _ => none
  | fuel + 1, i, misshit =>
    match tbl[i]? with
    | none => none
    | some d =>
      if d.key = key then some ((i : Int), misshit)
      else if e = i then some (INVALID_CORD, misshit + 1)
      else map_find_loop tbl tblsz key e fuel ((i + 1) % tblsz) (misshit + 1)

/-- The `map_find` of the source.  `misshit` is the value of the counter on
entry (0 for the callers that pass `NULL`); the result is `(ret, *misshit)`.
The loop runs at most `tblsz` times (`map_find_loop_fuel`), which is the fuel. -/
def map_find (handle : HashMapHandle) (key : Key) (index : Int) (misshit : Nat) :
    Option (Int × Nat) :=
  if index < 0 then none
  else
    let e : Nat := if index = 0 then handle.tblsz - 1 else index.toNat - 1
    map_find_loop handle.hash_table handle.tblsz key e handle.tblsz index.toNat misshit

/-- The `HashMap_make` of the source, with every `malloc` succeeding: the new
handle (`none` is `NULL`) and the new value of the handle counter. -/
def HashMap_make (handle_num : Int) (cellsz : Nat) (tblsz : Int)
    (hash_fook : Option (Key → Int → Int)) : Option HashMapHandle × Int :=
  if cellsz ≤ 0 then (none, handle_num)
  else if tblsz ≤ 0 then (none, handle_num)
  else
    (some { hdl_id := (map_get_handle_id handle_num).1
            hash := match hash_fook with
              | none => hash_func_default
              | some f => f
            cellsz := cellsz
            tblsz := tblsz.toNat
            iterator_pos := 0
            hash_table := List.replicate tblsz.toNat ⟨INIT_KEY, List.replicate cellsz 0⟩ },
     (map_get_handle_id handle_num).2)

/-- The `HashMap_insert` of the source: the return code and the table afterwards. -/
def HashMap_insert (handle_num : Int) (handle : HashMapHandle) (key : Key)
    (data : List Nat) : Option (Int × HashMapHandle) :=
  if map_is_init handle_num handle = false then some (NG, handle)
  else if key = INIT_KEY then some (NG, handle)
  else
    let hash_value := handle.hash key handle.tblsz
    match map_find handle key hash_value 0 with
    | none => none
    | some (found, _) =>
      if INVALID_CORD < found then some (NG, handle)
      else
        match map_find handle INIT_KEY hash_value 0 with
        | none => none
        | some (index, _) =>
          if index = INVALID_CORD then some (NG, handle)
          else
            match strcpy key, memcpy (container_at handle index.toNat) data handle.cellsz with
            | some k, some c =>
              some (OK, { handle with
                hash_table := handle.hash_table.set index.toNat ⟨k, c⟩ })
            | _, _ => none

/-- The `HashMap_get` of the source. -/
def HashMap_get (handle_num : Int) (handle : HashMapHandle) (key : Key) :
    Option VoidPtr :=
  if map_is_init handle_num handle = false then some VoidPtr.NULL
  else if key = INIT_KEY then some VoidPtr.NULL
  else
    let hash_value := handle.hash key handle.tblsz
    match map_find handle key hash_value 0 with
    | none => none
    | some (index, _) =>
      if index = INVALID_CORD then some VoidPtr.NULL
      else some (VoidPtr.container index.toNat)

/-- The `HashMap_erase` of the source: the return code and the table afterwards. -/
def HashMap_erase (handle_num : Int) (handle : HashMapHandle) (key : Key) :
    Option (Int × HashMapHandle) :=
  if map_is_init handle_num handle = false then some (NG, handle)
  else if key = INIT_KEY then some (NG, handle)
  else
    let hash_value := handle.hash key handle.tblsz
    match map_find handle key hash_value 0 with
    | none => none
    | some (index, _) =>
      if index = INVALID_CORD then some (NG, handle)
      else
        some (OK, { handle with
          hash_table := handle.hash_table.set index.toNat
            ⟨INIT_KEY, container_at handle index.toNat⟩ })

/-- The table after the first `n` iterations of the loop of `HashMap_clear`. -/
def clear_upto (tbl : List HashData) : Nat → List HashData
  | 0 => tbl
  | n + 1 =>
    let t := clear_upto tbl n
    t.set n ⟨INIT_KEY, (t.getD n ⟨INIT_KEY, []⟩).container⟩

/-- The `HashMap_clear` of the source. -/
def HashMap_clear (handle_num : Int) (handle : HashMapHandle) : Int × HashMapHandle :=
  if map_is_init handle_num handle = false then (NG, handle)
  else (OK, { handle with hash_table := clear_upto handle.hash_table handle.tblsz })

/-- The forward scan shared by `HashMap_empty`, `HashMap_next` and
`HashMap_hasNext`: `for (; i<tblsz; i++) if (occupied) break;` with `fuel`
the number of indices left below `tblsz`.  Returns whether the loop left by
`break`, and the final value of `i`. -/
def scan_occupied (handle : HashMapHandle) : Nat → Nat → Bool × Nat
  | 0, i => (false, i)
  | fuel + 1, i =>
    if key_at handle i ≠ INIT_KEY then (true, i)
    else scan_occupied handle fuel (i + 1)

/-- The `HashMap_empty` of the source. -/
def HashMap_empty (handle_num : Int) (handle : HashMapHandle) : Bool :=
  if map_is_init handle_num handle = false then false
  else !(scan_occupied handle handle.tblsz 0).1

/-- The `HashMap_maxsize` of the source. -/
def HashMap_maxsize (handle_num : Int) (handle : HashMapHandle) : Int :=
  if map_is_init handle_num handle = false then NG
  else handle.tblsz

/-- The value of `size` after the first `n` iterations of the loop of `HashMap_size`. -/
def size_upto (handle : HashMapHandle) : Nat → Int
  | 0 => 0
  | n + 1 =>
    if key_at handle n ≠ INIT_KEY then size_upto handle n + 1 else size_upto handle n

/-- The `HashMap_size` of the source. -/
def HashMap_size (handle_num : Int) (handle : HashMapHandle) : Int :=
  if map_is_init handle_num handle = false then NG
  else size_upto handle handle.tblsz

/-- The `HashMap_next` of the source: the returned pointer and the table afterwards. -/
def HashMap_next (handle_num : Int) (handle : HashMapHandle) : VoidPtr × HashMapHandle :=
  if map_is_init handle_num handle = false then (VoidPtr.NULL, handle)
  else if handle.tblsz > handle.iterator_pos then
    let r := scan_occupied handle (handle.tblsz - handle.iterator_pos) handle.iterator_pos
    (if r.1 then VoidPtr.container r.2 else VoidPtr.NULL,
     { handle with iterator_pos := r.2 + 1 })
  else (VoidPtr.NULL, handle)

/-- The `HashMap_begin` of the source. -/
def HashMap_begin (handle_num : Int) (handle : HashMapHandle) : HashMapHandle :=
  if map_is_init handle_num handle = false then handle
  else { handle with iterator_pos := 0 }

/-- The `HashMap_hasNext` of the source. -/
def HashMap_hasNext (handle_num : Int) (handle : HashMapHandle) : Bool :=
  if map_is_init handle_num handle = false then false
  else if handle.tblsz > handle.iterator_pos then
    (scan_occupied handle (handle.tblsz - handle.iterator_pos) handle.iterator_pos).1
  else false

/-- The largest `int`, for the 32-bit `int` of the usual platforms. -/
def INT_MAX : Int := 2147483647

/-- The value of `optimum_index` after the first `n` iterations of the loop of
`HashMap_optimum`.  `optimum_index += miss_hit` is an addition of `int`s: it
has no defined result when the sum exceeds `INT_MAX`. -/
def optimum_upto (handle : HashMapHandle) : Nat → Option Int
  | 0 => some 0
  | n + 1 =>
    match optimum_upto handle n with
    | none => none
    | some optimum_index =>
      let search_key := key_at handle n
      let hash_value := handle.hash search_key handle.tblsz
      if search_key = INIT_KEY then some optimum_index
      else
        match map_find handle search_key hash_value 0 with
        | none => none
        | some (_, miss_hit) =>
          if optimum_index + miss_hit ≤ INT_MAX then some (optimum_index + miss_hit)
          else none

/-- The `HashMap_optimum` of the source. -/
def HashMap_optimum (handle_num : Int) (handle : HashMapHandle) : Option Int :=
  if map_is_init handle_num handle = false then some INVALID_CORD
  else optimum_upto handle handle.tblsz

/-! ## Predicates on tables and the drivers used to state the properties -/

/-- The table has `tblsz > 0` slots: what `HashMap_make` establishes. -/
def WellFormed (handle : HashMapHandle) : Prop :=
  0 < handle.tblsz ∧ handle.hash_table.length = handle.tblsz

/-- A valid table: the handle passes `map_is_init` and the table is well formed. -/
def Valid (handle_num : Int) (handle : HashMapHandle) : Prop :=
  map_is_init handle_num handle = true ∧ WellFormed handle

/-- The hash function of the table sends `key` to an index in `[0, tblsz)`. -/
def IndexInRange (handle : HashMapHandle) (key : Key) : Prop :=
  0 ≤ handle.hash key handle.tblsz ∧ handle.hash key handle.tblsz < handle.tblsz

/-- Slot `i` is occupied: its key is not the empty sentinel. -/
def Occupied (handle : HashMapHandle) (i : Nat) : Prop :=
  key_at handle i ≠ INIT_KEY

/-- The key `key` is held by some slot of the table. -/
def Stored (handle : HashMapHandle) (key : Key) : Prop :=
  ∃ i, i < handle.tblsz ∧ key_at handle i = key

/-- No two distinct slots hold the same non-empty key. -/
def NoDuplicates (handle : HashMapHandle) : Prop :=
  ∀ i, i < handle.tblsz → ∀ j, j < handle.tblsz → key_at handle i ≠ INIT_KEY →
    key_at handle i = key_at handle j → i = j

/-- Well-formedness of a table can be computed. -/
instance decidableWellFormed (handle : HashMapHandle) : Decidable (WellFormed handle) :=
  instDecidableAnd

/-- Validity of a table can be computed. -/
instance decidableValid (handle_num : Int) (handle : HashMapHandle) :
    Decidable (Valid handle_num handle) :=
  instDecidableAnd

/-- Whether a key hashes to an index in range can be computed. -/
instance decidableIndexInRange (handle : HashMapHandle) (key : Key) :
    Decidable (IndexInRange handle key) :=
  instDecidableAnd

/-- Whether a slot is occupied can be computed. -/
instance decidableOccupied (handle : HashMapHandle) (i : Nat) :
    Decidable (Occupied handle i) :=
  instDecidableNot

/-- Whether some slot holds a key can be computed: the quantifier is bounded by `tblsz`. -/
instance decidableStored (handle : HashMapHandle) (key : Key) :
    Decidable (Stored handle key) :=
  Nat.decidableExistsLT handle.tblsz

/-- Whether no key is held twice can be computed: both quantifiers are bounded by `tblsz`. -/
instance decidableNoDuplicates (handle : HashMapHandle) :
    Decidable (NoDuplicates handle) :=
  Nat.decidableBallLT _ _

/-- The index `(s + d) mod c`: the `d`-th slot of the circular order
`s, s+1, ..., c-1, 0, ..., s-1`. -/
def circ (c s d : Nat) : Nat := (s + d) % c

/-- Tables reached from `HashMap_make` by `HashMap_insert`, `HashMap_erase` and
`HashMap_clear` (with any return code), while other tables may be made in
between; the index is the current value of the handle counter.  A call whose
behaviour C leaves undefined (result `none`) leads to no table. -/
inductive Reachable : Int → HashMapHandle → Prop
  | make (n : Int) (cellsz : Nat) (tblsz : Int) (hash_fook : Option (Key → Int → Int))
      (h : HashMapHandle) (n' : Int) :
      HANDLE_START_ID ≤ n → HashMap_make n cellsz tblsz hash_fook = (some h, n') →
      Reachable n' h
  | other_make (n : Int) (h : HashMapHandle) (cellsz : Nat) (tblsz : Int)
      (hash_fook : Option (Key → Int → Int)) (r : Option HashMapHandle) (n' : Int) :
      Reachable n h → HashMap_make n cellsz tblsz hash_fook = (r, n') → Reachable n' h
  | insert (n : Int) (h : HashMapHandle) (key : Key) (data : List Nat) (ret : Int)
      (h' : HashMapHandle) :
      Reachable n h → HashMap_insert n h key data = some (ret, h') → Reachable n h'
  | erase (n : Int) (h : HashMapHandle) (key : Key) (ret : Int) (h' : HashMapHandle) :
      Reachable n h → HashMap_erase n h key = some (ret, h') → Reachable n h'
  | clear (n : Int) (h : HashMapHandle) (ret : Int) (h' : HashMapHandle) :
      Reachable n h → HashMap_clear n h = (ret, h') → Reachable n h'

/-- What every reachable table satisfies: it is valid, holds no key twice, and
every key it holds hashes to an index in range. -/
def Inv (handle_num : Int) (handle : HashMapHandle) : Prop :=
  Valid handle_num handle ∧ NoDuplicates handle ∧
    ∀ i, i < handle.tblsz → key_at handle i ≠ INIT_KEY →
      IndexInRange handle (key_at handle i)

/-! ## Concrete tables used to instantiate the theorems -/

/-- The table made by `HashMap_make(4, 4, NULL)` when the handle counter is 55. -/
def demo_fresh : HashMapHandle :=
  { hdl_id := 55
    hash := hash_func_default
    cellsz := 4
    tblsz := 4
    iterator_pos := 0
    hash_table := List.replicate 4 ⟨INIT_KEY, [0, 0, 0, 0]⟩ }

/-- The table `demo_fresh` after `HashMap_insert("a", 1)`: "a" hashes to 1. -/
def demo_a : HashMapHandle :=
  { demo_fresh with
    hash_table := [⟨INIT_KEY, [0, 0, 0, 0]⟩, ⟨[97], [1, 0, 0, 0]⟩,
      ⟨INIT_KEY, [0, 0, 0, 0]⟩, ⟨INIT_KEY, [0, 0, 0, 0]⟩] }

/-- A client calling `HashMap_insert` for each key/value pair of a list in
turn: the return codes in order, and the table afterwards. -/
def insert_all (handle_num : Int) :
    HashMapHandle → List (Key × List Nat) → Option (List Int × HashMapHandle)
  | h, [] => some ([], h)
  | h, (key, data) :: rest =>
    match HashMap_insert handle_num h key data with
    | none => none
    | some (ret, h') =>
      match insert_all handle_num h' rest with
      | none => none
      | some (rets, h'') => some (ret :: rets, h'')

/-- Four distinct one-character keys "a", "b", "c", "d" with 4-byte values. -/
def demo_pairs : List (Key × List Nat) :=
  [([97], [1, 0, 0, 0]), ([98], [2, 0, 0, 0]), ([99], [3, 0, 0, 0]), ([100], [4, 0, 0, 0])]

/-- The client loop `while (HashMap_hasNext(h)) p = HashMap_next(h);`: the
pointers returned by the calls of `HashMap_next` in order, and the table when
`HashMap_hasNext` turns false.  `fuel` bounds the number of calls of
`HashMap_next`; `none` when it does not suffice. -/
def drain (handle_num : Int) : Nat → HashMapHandle → Option (List VoidPtr × HashMapHandle)
  | 0, h => if HashMap_hasNext handle_num h then none else some ([], h)
  | fuel + 1, h =>
    if HashMap_hasNext handle_num h then
      match drain handle_num fuel (HashMap_next handle_num h).2 with
      | none => none
      | some (ps, h') => some ((HashMap_next handle_num h).1 :: ps, h')
    else some ([], h)

/-- The client loop `for (HashMap_begin(h); HashMap_hasNext(h); ) p = HashMap_next(h);`. -/
def iterate (handle_num : Int) (fuel : Nat) (h : HashMapHandle) :
    Option (List VoidPtr × HashMapHandle) :=
  drain handle_num fuel (HashMap_begin handle_num h)

/-- The occupied slot indices among `i, i+1, ..., i+f-1`, in increasing order. -/
def occupied_from (handle : HashMapHandle) (f i : Nat) : List Nat :=
  (List.range' i f).filter (fun t => decide (key_at handle t ≠ INIT_KEY))

/-- The indices of the occupied slots of the table, in increasing order. -/
def occupied_slots (handle : HashMapHandle) : List Nat :=
  occupied_from handle handle.tblsz 0

/-- The table `demo_a` after `HashMap_insert("b", 2)`: "b" also hashes to 1 and
lands in slot 2. -/
def demo_ab : HashMapHandle :=
  { demo_fresh with
    hash_table := [⟨INIT_KEY, [0, 0, 0, 0]⟩, ⟨[97], [1, 0, 0, 0]⟩,
      ⟨[98], [2, 0, 0, 0]⟩, ⟨INIT_KEY, [0, 0, 0, 0]⟩] }

/-- The table `demo_ab` after `HashMap_erase("a")`: "b" stays in slot 2. -/
def demo_b : HashMapHandle :=
  { demo_fresh with
    hash_table := [⟨INIT_KEY, [0, 0, 0, 0]⟩, ⟨INIT_KEY, [1, 0, 0, 0]⟩,
      ⟨[98], [2, 0, 0, 0]⟩, ⟨INIT_KEY, [0, 0, 0, 0]⟩] }

/-- Tables reached from `HashMap_make` by any sequence of the public operations
that write to the table: `HashMap_insert`, `HashMap_erase`, `HashMap_clear`,
`HashMap_begin` and `HashMap_next` (`HashMap_hasNext`, `HashMap_size` and the
other queries write nothing, so calling them adds no table). -/
inductive ReachableIter : Int → HashMapHandle → Prop
  | make (n : Int) (cellsz : Nat) (tblsz : Int) (hash_fook : Option (Key → Int → Int))
      (h : HashMapHandle) (n' : Int) :
      HANDLE_START_ID ≤ n → HashMap_make n cellsz tblsz hash_fook = (some h, n') →
      ReachableIter n' h
  | other_make (n : Int) (h : HashMapHandle) (cellsz : Nat) (tblsz : Int)
      (hash_fook : Option (Key → Int → Int)) (r : Option HashMapHandle) (n' : Int) :
      ReachableIter n h → HashMap_make n cellsz tblsz hash_fook = (r, n') →
      ReachableIter n' h
  | insert (n : Int) (h : HashMapHandle) (key : Key) (data : List Nat) (ret : Int)
      (h' : HashMapHandle) :
      ReachableIter n h → HashMap_insert n h key data = some (ret, h') → ReachableIter n h'
  | erase (n : Int) (h : HashMapHandle) (key : Key) (ret : Int) (h' : HashMapHandle) :
      ReachableIter n h → HashMap_erase n h key = some (ret, h') → ReachableIter n h'
  | clear (n : Int) (h : HashMapHandle) (ret : Int) (h' : HashMapHandle) :
      ReachableIter n h → HashMap_clear n h = (ret, h') → ReachableIter n h'
  | begin (n : Int) (h : HashMapHandle) :
      ReachableIter n h → ReachableIter n (HashMap_begin n h)
  | next (n : Int) (h : HashMapHandle) (p : VoidPtr) (h' : HashMapHandle) :
      ReachableIter n h → HashMap_next n h = (p, h') → ReachableIter n h'

/-- The hash indices of the keys of the occupied slots are pairwise distinct. -/
def DistinctHashes (handle : HashMapHandle) : Prop :=
  ∀ i, i < handle.tblsz → ∀ j, j < handle.tblsz →
    key_at handle i ≠ INIT_KEY → key_at handle j ≠ INIT_KEY →
    handle.hash (key_at handle i) handle.tblsz = handle.hash (key_at handle j) handle.tblsz →
    i = j

/-- Every occupied slot holds a key whose hash index is the index of the slot. -/
def AllHome (handle : HashMapHandle) : Prop :=
  ∀ i, i < handle.tblsz → key_at handle i ≠ INIT_KEY →
    handle.hash (key_at handle i) handle.tblsz = (i : Int)

/-- Whether every key sits in its home slot can be computed. -/
instance decidableAllHome (handle : HashMapHandle) : Decidable (AllHome handle) :=
  Nat.decidableBallLT _ _

/-- Tables reached from `HashMap_make` by `HashMap_insert` and `HashMap_clear`
only (with any outcome), while other tables may be made in between. -/
inductive ReachableNoErase : Int → HashMapHandle → Prop
  | make (n : Int) (cellsz : Nat) (tblsz : Int) (hash_fook : Option (Key → Int → Int))
      (h : HashMapHandle) (n' : Int) :
      HANDLE_START_ID ≤ n → HashMap_make n cellsz tblsz hash_fook = (some h, n') →
      ReachableNoErase n' h
  | other_make (n : Int) (h : HashMapHandle) (cellsz : Nat) (tblsz : Int)
      (hash_fook : Option (Key → Int → Int)) (r : Option HashMapHandle) (n' : Int) :
      ReachableNoErase n h → HashMap_make n cellsz tblsz hash_fook = (r, n') →
      ReachableNoErase n' h
  | insert (n : Int) (h : HashMapHandle) (key : Key) (data : List Nat) (ret : Int)
      (h' : HashMapHandle) :
      ReachableNoErase n h → HashMap_insert n h key data = some (ret, h') →
      ReachableNoErase n h'
  | clear (n : Int) (h : HashMapHandle) (ret : Int) (h' : HashMapHandle) :
      ReachableNoErase n h → HashMap_clear n h = (ret, h') → ReachableNoErase n h'

/-- Whether the hash indices of the occupied slots are pairwise distinct can be
computed: both quantifiers are bounded by `tblsz`. -/
instance decidableDistinctHashes (handle : HashMapHandle) :
    Decidable (DistinctHashes handle) :=
  Nat.decidableBallLT _ _

/-- The table `demo_b` after `HashMap_insert("c", 3)`: "c" reuses the emptied slot 1. -/
def demo_bc : HashMapHandle :=
  { demo_fresh with
    hash_table := [⟨INIT_KEY, [0, 0, 0, 0]⟩, ⟨[99], [3, 0, 0, 0]⟩,
      ⟨[98], [2, 0, 0, 0]⟩, ⟨INIT_KEY, [0, 0, 0, 0]⟩] }

/-- The table `demo_bc` after `HashMap_insert("d", 4)`: "d" probes to slot 3. -/
def demo_bcd : HashMapHandle :=
  { demo_fresh with
    hash_table := [⟨INIT_KEY, [0, 0, 0, 0]⟩, ⟨[99], [3, 0, 0, 0]⟩,
      ⟨[98], [2, 0, 0, 0]⟩, ⟨[100], [4, 0, 0, 0]⟩] }

/-- The table `demo_bcd` after `HashMap_insert("e", 5)`: "e" wraps around to slot 0. -/
def demo_bcde : HashMapHandle :=
  { demo_fresh with
    hash_table := [⟨[101], [5, 0, 0, 0]⟩, ⟨[99], [3, 0, 0, 0]⟩,
      ⟨[98], [2, 0, 0, 0]⟩, ⟨[100], [4, 0, 0, 0]⟩] }

/-- The `ECleanUpLevel` of the source. -/
inductive ECleanUpLevel where
  | LITTLE_CLEANUP : ECleanUpLevel
  | MIDDLE_CLEANUP : ECleanUpLevel
  | FULL_CLEANUP : ECleanUpLevel
deriving DecidableEq

/-- The `map_cleanup` of the source: the handle record as the switch leaves it
when it reaches `free(handle)`.  The cases fall through: `FULL_CLEANUP` resets
every key (and frees every value buffer), then does what `MIDDLE_CLEANUP`
does, which frees the slot array and sets `hdl_id = INVALID_CORD`, then does
what `LITTLE_CLEANUP` does, which frees the record.  Freed storage keeps the
bytes last written to it in this model. -/
def map_cleanup (handle : HashMapHandle) (level : ECleanUpLevel) : HashMapHandle :=
  let little (h : HashMapHandle) : HashMapHandle := h
  let middle (h : HashMapHandle) : HashMapHandle :=
    little { h with hdl_id := INVALID_CORD }
  let full (h : HashMapHandle) : HashMapHandle :=
    middle { h with hash_table := clear_upto h.hash_table h.tblsz }
  match level with
  | ECleanUpLevel.FULL_CLEANUP => full handle
  | ECleanUpLevel.MIDDLE_CLEANUP => middle handle
  | ECleanUpLevel.LITTLE_CLEANUP => little handle

/-- The `HashMap_free` of the source: the return code and the handle record as
teardown leaves it. -/
def HashMap_free (handle_num : Int) (handle : HashMapHandle) : Int × HashMapHandle :=
  if map_is_init handle_num handle = false then (NG, handle)
  else (OK, map_cleanup handle ECleanUpLevel.FULL_CLEANUP)

/-! ## The bounded finite map that the table refines -/

/-- An operation of a client on one table. -/
inductive Op where
  | insert (key : Key) (data : List Nat) : Op
  | erase (key : Key) : Op
  | clear : Op

/-- The abstract map `M`: its entries, key and value, the newest first. -/
abbrev AbstractMap := List (Key × List Nat)

/-- The value of `key` in `M`, if `key` is in `M`. -/
def abstract_get : AbstractMap → Key → Option (List Nat)
  | [], _ => none
  | (k, v) :: rest, key => if key = k then some v else abstract_get rest key

/-- The number `|M|` of entries of `M`. -/
def abstract_size (M : AbstractMap) : Nat := M.length

/-- One operation on the abstract map of at most `c` entries with values of
`cellsz` bytes, in the words of the refinement: insert returns `OK` iff the
key is non-empty, not in `M` and `|M| < c`, and then `M` gains the entry;
erase returns `OK` iff the key is in `M`, and then `M` loses it; clear empties `M`. -/
def abstract_step (c cellsz : Nat) (M : AbstractMap) : Op → Int × AbstractMap
  | Op.insert key data =>
    if key ≠ INIT_KEY ∧ abstract_get M key = none ∧ abstract_size M < c
    then (OK, (key, data.take cellsz) :: M)
    else (NG, M)
  | Op.erase key =>
    if abstract_get M key ≠ none
    then (OK, M.filter (fun e => decide (e.1 ≠ key)))
    else (NG, M)
  | Op.clear => (OK, [])

/-- A sequence of operations on the abstract map: the return codes and the map afterwards. -/
def abstract_run (c cellsz : Nat) : AbstractMap → List Op → List Int × AbstractMap
  | M, [] => ([], M)
  | M, op :: rest =>
    ((abstract_step c cellsz M op).1 :: (abstract_run c cellsz (abstract_step c cellsz M op).2 rest).1,
     (abstract_run c cellsz (abstract_step c cellsz M op).2 rest).2)

/-- One operation on the table: the call of the public function it names. -/
def concrete_step (handle_num : Int) (h : HashMapHandle) : Op → Option (Int × HashMapHandle)
  | Op.insert key data => HashMap_insert handle_num h key data
  | Op.erase key => HashMap_erase handle_num h key
  | Op.clear => some (HashMap_clear handle_num h)

/-- A sequence of operations on the table: the return codes and the table afterwards. -/
def concrete_run (handle_num : Int) :
    HashMapHandle → List Op → Option (List Int × HashMapHandle)
  | h, [] => some ([], h)
  | h, op :: rest =>
    match concrete_step handle_num h op with
    | none => none
    | some (ret, h') =>
      match concrete_run handle_num h' rest with
      | none => none
      | some (rets, h'') => some (ret :: rets, h'')

/-- What the interface asks of the arguments of an operation: the hash index of
the key is in range, and for an insert the key is shorter than `KEY_MAX_LEN`
and the data holds at least `cellsz` bytes. -/
def op_ok (h : HashMapHandle) : Op → Prop
  | Op.insert key data =>
    IndexInRange h key ∧ key.length < KEY_MAX_LEN ∧ h.cellsz ≤ data.length
  | Op.erase key => IndexInRange h key
  | Op.clear => True

/-- The `cellsz` bytes that `HashMap_get` gives access to: `none` when the call
has no defined result, `some none` when it returns `NULL`. -/
def get_bytes (handle_num : Int) (h : HashMapHandle) (key : Key) :
    Option (Option (List Nat)) :=
  (HashMap_get handle_num h key).map (fun p => (deref h p).map (List.take h.cellsz))

/-- The table `h` holds exactly the entries of the abstract map `M`. -/
def Refines (handle_num : Int) (h : HashMapHandle) (M : AbstractMap) : Prop :=
  Inv handle_num h ∧
  (∀ i, i < h.tblsz → key_at h i ≠ INIT_KEY →
    abstract_get M (key_at h i) = some ((container_at h i).take h.cellsz)) ∧
  (∀ key, abstract_get M key ≠ none → key ≠ INIT_KEY ∧ Stored h key) ∧
  size_upto h h.tblsz = (abstract_size M : Int) ∧
  (M.map Prod.fst).Nodup

/-- A run of the three operations used to instantiate the refinement. -/
def demo_ops : List Op :=
  [Op.insert [97] [1, 0, 0, 0], Op.insert [98] [2, 0, 0, 0], Op.insert [97] [9, 9, 9, 9],
   Op.erase [97], Op.insert [99] [3, 0, 0, 0], Op.erase [120], Op.clear,
   Op.insert [100] [4, 0, 0, 0]]

/-- Whether the arguments of an operation meet what the interface asks can be computed. -/
instance decidableOpOk (h : HashMapHandle) (op : Op) : Decidable (op_ok h op) :=
  match op with
  | Op.insert key data =>
    inferInstanceAs
      (Decidable (IndexInRange h key ∧ key.length < KEY_MAX_LEN ∧ h.cellsz ≤ data.length))
  | Op.erase key => inferInstanceAs (Decidable (IndexInRange h key))
  | Op.clear => inferInstanceAs (Decidable True)

/-- The initial value of the static counter kept by `map_get_handle_id_base`
(`static int handle_num = HANDLE_START_ID`). -/
def map_get_handle_id_base : Int := HANDLE_START_ID

/-! ## The displacement of the keys, for `HashMap_optimum` -/

/-- The circular displacement `(i - hash(k_i)) mod tblsz` of the key of slot `i`. -/
def displacement (handle : HashMapHandle) (i : Nat) : Int :=
  ((i : Int) - handle.hash (key_at handle i) handle.tblsz) % (handle.tblsz : Int)

/-- The sum of the displacements of the occupied slots among the first `n` slots. -/
def displacement_sum (handle : HashMapHandle) : Nat → Int
  | 0 => 0
  | n + 1 =>
    if key_at handle n = INIT_KEY then displacement_sum handle n
    else displacement_sum handle n + displacement handle n

/-- The `i`-th of 65537 distinct three-character keys: the digits of `i` in
base 127, each plus one, so that every character is in `1..127`. -/
def big_key (i : Nat) : Key :=
  [((i % 127 + 1 : Nat) : Int), ((i / 127 % 127 + 1 : Nat) : Int), ((i / 16129 + 1 : Nat) : Int)]

/-- The slots of `big_table`: slot `i` holds `big_key i` and a one-byte value. -/
@[irreducible]
def big_slots : List HashData :=
  (List.range 65537).map (fun i => ⟨big_key i, [0]⟩)

/-- A table of 65537 one-byte cells with a hash function that sends every key
to index 0, after the keys `big_key 0`, ..., `big_key 65536` were inserted in
this order: each insert probes to the first empty slot, so `big_key i` is in
slot `i`. -/
def big_table : HashMapHandle :=
  { hdl_id := 55
    hash := fun _ _ => 0
    cellsz := 1
    tblsz := 65537
    iterator_pos := 0
    hash_table := big_slots }

/-- The slots of `big_table` when only the first `m` keys were inserted. -/
@[irreducible]
def big_first_slots (m : Nat) : List HashData :=
  (List.range 65537).map (fun i => if i < m then ⟨big_key i, [0]⟩ else ⟨INIT_KEY, [0]⟩)

/-- The table made by `HashMap_make(1, 65537, hash)`, `hash` sending every key
to index 0, after the inserts of `big_key 0`, ..., `big_key (m-1)` with the
one-byte value 0. -/
def big_first (m : Nat) : HashMapHandle :=
  { hdl_id := 55
    hash := fun _ _ => 0
    cellsz := 1
    tblsz := 65537
    iterator_pos := 0
    hash_table := big_first_slots m }

end HashMapC

/-! ## Arithmetic of the circular order -/

namespace HashMapC

theorem mod_wrap (a c : Nat) (h : a < c + c) : a % c = if a < c then a else a - c := by
  split
  · exact Nat.mod_eq_of_lt (by assumption)
  · rw [Nat.mod_eq_sub_mod (by omega)]
    exact Nat.mod_eq_of_lt (by omega)

theorem circ_lt (c s d : Nat) (hc : 0 < c) : circ c s d < c :=
  Nat.mod_lt _ hc

theorem circ_zero (c s : Nat) (hs : s < c) : circ c s 0 = s := by
  simp [circ, Nat.mod_eq_of_lt hs]

theorem circ_succ (c s d : Nat) : (circ c s d + 1) % c = circ c s (d + 1) := by
  unfold circ
  rw [Nat.mod_add_mod, Nat.add_assoc]

/-- Every index below `c` is met by the circular order started at `s`. -/
theorem circ_surj (c s i : Nat) (hs : s < c) (hi : i < c) :
    ∃ d, d < c ∧ circ c s d = i := by
  by_cases h : s ≤ i
  · refine ⟨i - s, by omega, ?_⟩
    unfold circ
    rw [mod_wrap _ _ (by omega)]
    split <;> omega
  · refine ⟨i + c - s, by omega, ?_⟩
    unfold circ
    rw [mod_wrap _ _ (by omega)]
    split <;> omega

/-- The slot before `s` in the circular order is reached after exactly `c - 1` steps. -/
theorem circ_eq_end (c s d : Nat) (hs : s < c) (hd : d < c) :
    (if s = 0 then c - 1 else s - 1) = circ c s d ↔ d + 1 = c := by
  unfold circ
  rw [mod_wrap _ _ (by omega)]
  split <;> split <;> omega

/-! ## Reading slots -/

theorem key_at_of_getElem? (h : HashMapHandle) (i : Nat) (d : HashData)
    (hd : h.hash_table[i]? = some d) : key_at h i = d.key := by
  simp [key_at, List.getD, hd]

theorem getElem?_of_lt (h : HashMapHandle) (i : Nat) (hi : i < h.hash_table.length) :
    ∃ d, h.hash_table[i]? = some d ∧ key_at h i = d.key ∧ container_at h i = d.container := by
  refine ⟨h.hash_table[i], List.getElem?_eq_getElem hi, ?_, ?_⟩ <;>
    simp [key_at, container_at, List.getD, List.getElem?_eq_getElem hi]

end HashMapC

namespace HashMapC

/-- More fuel does not change a result of the loop of `map_find`. -/
theorem map_find_loop_fuel (tbl : List HashData) (tblsz : Nat) (key : Key) (e : Nat) :
    ∀ (fuel i m : Nat) (x : Int × Nat),
      map_find_loop tbl tblsz key e fuel i m = some x →
      ∀ k, map_find_loop tbl tblsz key e (fuel + k) i m = some x := by
  intro fuel
  induction fuel with
  | zero => intro i m x hx; simp [map_find_loop] at hx
  | succ f ih =>
    intro i m x hx k
    rw [show f + 1 + k = (f + k) + 1 by omega]
    unfold map_find_loop at hx ⊢
    cases hd : tbl[i]? with
    | none => simp [hd] at hx
    | some d =>
      simp only [hd] at hx ⊢
      by_cases h1 : d.key = key
      · simpa [h1] using hx
      · by_cases h2 : e = i
        · simpa [h1, h2] using hx
        · simp only [h1, h2, if_false] at hx ⊢
          exact ih _ _ _ hx k

/-- The loop of `map_find` after `j` misses, `r = tblsz - j` slots left: it
stops within `r` iterations, at the first matching slot of the circular order
or after the last slot. -/
theorem map_find_loop_spec (h : HashMapHandle) (key : Key) (s : Nat)
    (hlen : h.hash_table.length = h.tblsz) (hs : s < h.tblsz) :
    ∀ (r j m fuel : Nat), j + r = h.tblsz → 0 < r → r ≤ fuel →
      ((∀ d, j ≤ d → d < h.tblsz → key_at h (circ h.tblsz s d) ≠ key) ∧
        map_find_loop h.hash_table h.tblsz key (if s = 0 then h.tblsz - 1 else s - 1)
          fuel (circ h.tblsz s j) m = some (INVALID_CORD, m + r)) ∨
      (∃ d, j ≤ d ∧ d < h.tblsz ∧ key_at h (circ h.tblsz s d) = key ∧
        (∀ d', j ≤ d' → d' < d → key_at h (circ h.tblsz s d') ≠ key) ∧
        map_find_loop h.hash_table h.tblsz key (if s = 0 then h.tblsz - 1 else s - 1)
          fuel (circ h.tblsz s j) m = some (((circ h.tblsz s d : Nat) : Int), m + (d - j))) := by
  intro r
  induction r with
  | zero => intro j m fuel _ h0; omega
  | succ r ih =>
    intro j m fuel hj _ hfuel
    obtain ⟨f, rfl⟩ : ∃ f, fuel = f + 1 := ⟨fuel - 1, by omega⟩
    have hc : 0 < h.tblsz := by omega
    have hi : circ h.tblsz s j < h.hash_table.length := by
      rw [hlen]; exact circ_lt _ _ _ hc
    obtain ⟨d0, hd0, hk0, _⟩ := getElem?_of_lt h _ hi
    unfold map_find_loop
    simp only [hd0]
    by_cases h1 : d0.key = key
    · right
      refine ⟨j, le_refl _, by omega, by rw [hk0]; exact h1, ?_, ?_⟩
      · intro d' h1' h2'; omega
      · simp [h1]
    · have hne : key_at h (circ h.tblsz s j) ≠ key := by rw [hk0]; exact h1
      by_cases h2 : (if s = 0 then h.tblsz - 1 else s - 1) = circ h.tblsz s j
      · have hr : j + 1 = h.tblsz := (circ_eq_end _ _ _ hs (by omega)).1 h2
        left
        refine ⟨?_, ?_⟩
        · intro d hd1 hd2
          have : d = j := by omega
          subst this; exact hne
        · simp only [h1, h2, if_true, if_false]
          have : r = 0 := by omega
          subst this; rfl
      · have hr : ¬ (j + 1 = h.tblsz) := fun hh => h2 ((circ_eq_end _ _ _ hs (by omega)).2 hh)
        simp only [h1, h2, if_false]
        rw [circ_succ]
        rcases ih (j + 1) (m + 1) f (by omega) (by omega) (by omega) with ⟨hall, hres⟩ | ⟨d, hd1, hd2, hd3, hd4, hres⟩
        · left
          refine ⟨?_, ?_⟩
          · intro d hd1 hd2
            by_cases hdj : d = j
            · subst hdj; exact hne
            · exact hall d (by omega) hd2
          · rw [hres]; congr 2; omega
        · right
          refine ⟨d, by omega, hd2, hd3, ?_, ?_⟩
          · intro d' h1' h2'
            by_cases hdj : d' = j
            · subst hdj; exact hne
            · exact hd4 d' (by omega) h2'
          · rw [hres]; congr 2; omega

end HashMapC

namespace HashMapC

/-- On a well-formed table and a start index in range, `map_find` returns:
not-found after `tblsz` misses when no slot holds `key`, else the first slot of
the circular order that holds it, after as many misses as slots before it. -/
theorem map_find_spec (h : HashMapHandle) (key : Key) (index : Int) (m : Nat)
    (hw : WellFormed h) (h0 : 0 ≤ index) (h1 : index < h.tblsz) :
    ((∀ i, i < h.tblsz → key_at h i ≠ key) ∧
      map_find h key index m = some (INVALID_CORD, m + h.tblsz)) ∨
    (∃ d, d < h.tblsz ∧ key_at h (circ h.tblsz index.toNat d) = key ∧
      (∀ d', d' < d → key_at h (circ h.tblsz index.toNat d') ≠ key) ∧
      map_find h key index m = some (((circ h.tblsz index.toNat d : Nat) : Int), m + d)) := by
  obtain ⟨hc, hlen⟩ := hw
  have hs : index.toNat < h.tblsz := by omega
  have he : (if index = 0 then h.tblsz - 1 else index.toNat - 1)
      = (if index.toNat = 0 then h.tblsz - 1 else index.toNat - 1) := by
    by_cases hz : index = 0
    · subst hz; simp
    · have : index.toNat ≠ 0 := by omega
      simp [hz, this]
  have hunf : ∀ mm, map_find h key index mm =
      map_find_loop h.hash_table h.tblsz key
        (if index.toNat = 0 then h.tblsz - 1 else index.toNat - 1) h.tblsz
        (circ h.tblsz index.toNat 0) mm := by
    intro mm
    unfold map_find
    rw [if_neg (by omega), circ_zero _ _ hs]
    simp only [he]
  rcases map_find_loop_spec h key index.toNat hlen hs h.tblsz 0 m h.tblsz (by omega) hc
      (le_refl _) with ⟨hall, hres⟩ | ⟨d, _, hd2, hd3, hd4, hres⟩
  · left
    refine ⟨?_, by rw [hunf]; exact hres⟩
    intro i hi
    obtain ⟨d, hd, hdi⟩ := circ_surj h.tblsz index.toNat i hs hi
    rw [← hdi]
    exact hall d (Nat.zero_le _) hd
  · right
    refine ⟨d, hd2, hd3, fun d' hd' => hd4 d' (Nat.zero_le _) hd', ?_⟩
    rw [hunf, hres]; simp

/-- A result of `map_find` on a well-formed table means the start index was in range. -/
theorem map_find_defined (h : HashMapHandle) (key : Key) (index : Int) (m : Nat)
    (x : Int × Nat) (hw : WellFormed h) (hx : map_find h key index m = some x) :
    0 ≤ index ∧ index < h.tblsz := by
  obtain ⟨hc, hlen⟩ := hw
  unfold map_find at hx
  by_cases hneg : index < 0
  · simp [hneg] at hx
  · refine ⟨by omega, ?_⟩
    by_contra hge
    rw [if_neg hneg] at hx
    obtain ⟨f, hf⟩ : ∃ f, h.tblsz = f + 1 := ⟨h.tblsz - 1, by omega⟩
    have hnone : h.hash_table[index.toNat]? = none := by
      apply List.getElem?_eq_none
      omega
    simp only [] at hx
    rw [hf] at hx
    unfold map_find_loop at hx
    rw [← hf] at hx
    simp [hnone] at hx

/-- What a result `(ret, miss)` of `map_find` says about the table. -/
theorem map_find_cases (h : HashMapHandle) (key : Key) (index : Int) (m : Nat)
    (ret : Int) (miss : Nat) (hw : WellFormed h)
    (hx : map_find h key index m = some (ret, miss)) :
    (ret = INVALID_CORD ∧ miss = m + h.tblsz ∧ ∀ i, i < h.tblsz → key_at h i ≠ key) ∨
    (∃ d, d < h.tblsz ∧ ret = ((circ h.tblsz index.toNat d : Nat) : Int) ∧ miss = m + d ∧
      key_at h (circ h.tblsz index.toNat d) = key ∧
      (∀ d', d' < d → key_at h (circ h.tblsz index.toNat d') ≠ key)) := by
  obtain ⟨h0, h1⟩ := map_find_defined h key index m _ hw hx
  rcases map_find_spec h key index m hw h0 h1 with ⟨hall, hres⟩ | ⟨d, hd, hk, hfirst, hres⟩
  · left
    rw [hres] at hx
    simp only [Option.some.injEq, Prod.mk.injEq] at hx
    exact ⟨hx.1.symm, hx.2.symm, hall⟩
  · right
    rw [hres] at hx
    simp only [Option.some.injEq, Prod.mk.injEq] at hx
    exact ⟨d, hd, hx.1.symm, hx.2.symm, hk, hfirst⟩

/-- A hit of `map_find` is a slot index below `tblsz` that holds the key. -/
theorem map_find_hit (h : HashMapHandle) (key : Key) (index : Int) (m : Nat)
    (ret : Int) (miss : Nat) (hw : WellFormed h)
    (hx : map_find h key index m = some (ret, miss)) (hr : ret ≠ INVALID_CORD) :
    INVALID_CORD < ret ∧ ret.toNat < h.tblsz ∧ key_at h ret.toNat = key := by
  rcases map_find_cases h key index m ret miss hw hx with ⟨h1, _⟩ | ⟨d, hd, hret, _, hk, _⟩
  · exact absurd h1 hr
  · have hlt := circ_lt h.tblsz index.toNat d hw.1
    subst hret
    refine ⟨by unfold INVALID_CORD; omega, by simpa using hlt, by simpa using hk⟩

/-- Not-found is returned exactly when no slot holds the key. -/
theorem map_find_miss_iff (h : HashMapHandle) (key : Key) (index : Int) (m : Nat)
    (ret : Int) (miss : Nat) (hw : WellFormed h)
    (hx : map_find h key index m = some (ret, miss)) :
    ret = INVALID_CORD ↔ ∀ i, i < h.tblsz → key_at h i ≠ key := by
  constructor
  · intro hr
    rcases map_find_cases h key index m ret miss hw hx with ⟨_, _, hall⟩ | ⟨d, hd, hret, _, hk, _⟩
    · exact hall
    · rw [hret] at hr; unfold INVALID_CORD at hr; omega
  · intro hall
    by_contra hr
    obtain ⟨_, hlt, hk⟩ := map_find_hit h key index m ret miss hw hx hr
    exact hall _ hlt hk

end HashMapC

namespace HashMapC

/-! ## Writing one slot -/

theorem key_at_set_self (h h' : HashMapHandle) (idx : Nat) (x : HashData)
    (ht : h'.hash_table = h.hash_table.set idx x) (hi : idx < h.hash_table.length) :
    key_at h' idx = x.key := by
  simp [key_at, ht, List.getD, List.getElem?_set, hi]

theorem key_at_set_other (h h' : HashMapHandle) (idx i : Nat) (x : HashData)
    (ht : h'.hash_table = h.hash_table.set idx x) (hi : i ≠ idx) :
    key_at h' i = key_at h i := by
  simp [key_at, ht, List.getD, List.getElem?_set, Ne.symm hi]

theorem container_at_set_self (h h' : HashMapHandle) (idx : Nat) (x : HashData)
    (ht : h'.hash_table = h.hash_table.set idx x) (hi : idx < h.hash_table.length) :
    container_at h' idx = x.container := by
  simp [container_at, ht, List.getD, List.getElem?_set, hi]

theorem container_at_set_other (h h' : HashMapHandle) (idx i : Nat) (x : HashData)
    (ht : h'.hash_table = h.hash_table.set idx x) (hi : i ≠ idx) :
    container_at h' i = container_at h i := by
  simp [container_at, ht, List.getD, List.getElem?_set, Ne.symm hi]

/-! ## `HashMap_insert` case by case -/

/-- The table after a successful insert of `key`, `data` into slot `idx`. -/
theorem insert_cases (n : Int) (h : HashMapHandle) (key : Key) (data : List Nat)
    (ret : Int) (h' : HashMapHandle) (hw : WellFormed h)
    (hx : HashMap_insert n h key data = some (ret, h')) :
    (ret = NG ∧ h' = h) ∨
    (ret = OK ∧ map_is_init n h = true ∧ key ≠ INIT_KEY ∧ key.length < KEY_MAX_LEN ∧
      h.cellsz ≤ data.length ∧ IndexInRange h key ∧
      (∀ i, i < h.tblsz → key_at h i ≠ key) ∧
      ∃ d, d < h.tblsz ∧
        key_at h (circ h.tblsz (h.hash key h.tblsz).toNat d) = INIT_KEY ∧
        (∀ d', d' < d → key_at h (circ h.tblsz (h.hash key h.tblsz).toNat d') ≠ INIT_KEY) ∧
        h' = { h with hash_table := (h.hash_table.set (circ h.tblsz (h.hash key h.tblsz).toNat d)
                ⟨key, data.take h.cellsz ++
                  (container_at h (circ h.tblsz (h.hash key h.tblsz).toNat d)).drop h.cellsz⟩) }) := by
  unfold HashMap_insert at hx
  by_cases hinit : map_is_init n h = false
  · rw [if_pos hinit] at hx
    simp only [Option.some.injEq, Prod.mk.injEq] at hx
    exact Or.inl ⟨hx.1.symm, hx.2.symm⟩
  rw [if_neg hinit] at hx
  by_cases hkey : key = INIT_KEY
  · rw [if_pos hkey] at hx
    simp only [Option.some.injEq, Prod.mk.injEq] at hx
    exact Or.inl ⟨hx.1.symm, hx.2.symm⟩
  rw [if_neg hkey] at hx
  simp only [] at hx
  cases hf1 : map_find h key (h.hash key h.tblsz) 0 with
  | none => simp [hf1] at hx
  | some r1 =>
    obtain ⟨found, m1⟩ := r1
    simp only [hf1] at hx
    by_cases hfound : INVALID_CORD < found
    · rw [if_pos hfound] at hx
      simp only [Option.some.injEq, Prod.mk.injEq] at hx
      exact Or.inl ⟨hx.1.symm, hx.2.symm⟩
    rw [if_neg hfound] at hx
    have hrange := map_find_defined h key _ 0 _ hw hf1
    have hnot : ∀ i, i < h.tblsz → key_at h i ≠ key := by
      apply (map_find_miss_iff h key _ 0 found m1 hw hf1).1
      by_contra hne
      exact hfound (map_find_hit h key _ 0 found m1 hw hf1 hne).1
    cases hf2 : map_find h INIT_KEY (h.hash key h.tblsz) 0 with
    | none => simp [hf2] at hx
    | some r2 =>
      obtain ⟨index, m2⟩ := r2
      simp only [hf2] at hx
      by_cases hidx : index = INVALID_CORD
      · rw [if_pos hidx] at hx
        simp only [Option.some.injEq, Prod.mk.injEq] at hx
        exact Or.inl ⟨hx.1.symm, hx.2.symm⟩
      rw [if_neg hidx] at hx
      rcases map_find_cases h INIT_KEY _ 0 index m2 hw hf2 with ⟨hc1, _⟩ | ⟨d, hd, hret, _, hk, hfirst⟩
      · exact absurd hc1 hidx
      right
      have htn : index.toNat = circ h.tblsz (h.hash key h.tblsz).toNat d := by
        rw [hret]; simp
      by_cases hlen : key.length < KEY_MAX_LEN
      · by_cases hdata : h.cellsz ≤ data.length
        · simp only [strcpy, memcpy, if_pos hlen, if_pos hdata, Option.some.injEq,
            Prod.mk.injEq] at hx
          have hb : map_is_init n h = true := by
            cases hb : map_is_init n h
            · exact absurd hb hinit
            · rfl
          refine ⟨hx.1.symm, hb, hkey, hlen, hdata, hrange, hnot, d, hd, hk, hfirst, ?_⟩
          rw [← hx.2, htn]
        · simp [strcpy, memcpy, hlen, hdata] at hx
      · simp [strcpy, hlen] at hx

end HashMapC

namespace HashMapC

theorem map_find_stored (h : HashMapHandle) (key : Key) (index : Int) (m : Nat)
    (hw : WellFormed h) (h0 : 0 ≤ index) (h1 : index < h.tblsz) (hs : Stored h key) :
    ∃ ret miss, map_find h key index m = some (ret, miss) ∧ INVALID_CORD < ret ∧
      ret.toNat < h.tblsz ∧ key_at h ret.toNat = key := by
  rcases map_find_spec h key index m hw h0 h1 with ⟨hall, _⟩ | ⟨d, hd, hk, _, hres⟩
  · obtain ⟨i, hi, hki⟩ := hs
    exact absurd hki (hall i hi)
  · refine ⟨_, _, hres, ?_⟩
    have hne : ((circ h.tblsz index.toNat d : Nat) : Int) ≠ INVALID_CORD := by
      unfold INVALID_CORD; omega
    exact map_find_hit h key index m _ _ hw hres hne

theorem map_find_not_stored (h : HashMapHandle) (key : Key) (index : Int) (m : Nat)
    (hw : WellFormed h) (h0 : 0 ≤ index) (h1 : index < h.tblsz) (hs : ¬ Stored h key) :
    map_find h key index m = some (INVALID_CORD, m + h.tblsz) := by
  rcases map_find_spec h key index m hw h0 h1 with ⟨_, hres⟩ | ⟨d, hd, hk, _, _⟩
  · exact hres
  · exact absurd ⟨_, circ_lt _ _ _ hw.1, hk⟩ hs

theorem map_is_init_ne_false (n : Int) (h : HashMapHandle) (hv : Valid n h) :
    ¬ (map_is_init n h = false) := by
  rw [hv.1]; simp

/-- Inserting a key that some slot already holds: `NG`, table untouched. -/
theorem insert_dup (n : Int) (h : HashMapHandle) (key : Key) (data : List Nat)
    (hv : Valid n h) (hk : key ≠ INIT_KEY) (hr : IndexInRange h key) (hs : Stored h key) :
    HashMap_insert n h key data = some (NG, h) := by
  obtain ⟨ret, miss, hres, hlt, _, _⟩ := map_find_stored h key _ 0 hv.2 hr.1 hr.2 hs
  unfold HashMap_insert
  rw [if_neg (map_is_init_ne_false n h hv), if_neg hk]
  simp only [hres, if_pos hlt]

/-- Inserting an absent key when no slot is empty: `NG`, table untouched. -/
theorem insert_full (n : Int) (h : HashMapHandle) (key : Key) (data : List Nat)
    (hv : Valid n h) (hk : key ≠ INIT_KEY) (hr : IndexInRange h key) (hs : ¬ Stored h key)
    (hfull : ¬ Stored h INIT_KEY) :
    HashMap_insert n h key data = some (NG, h) := by
  have h1 := map_find_not_stored h key _ 0 hv.2 hr.1 hr.2 hs
  have h2 := map_find_not_stored h INIT_KEY _ 0 hv.2 hr.1 hr.2 hfull
  unfold HashMap_insert
  rw [if_neg (map_is_init_ne_false n h hv), if_neg hk]
  simp only [h1, h2]
  simp [INVALID_CORD]

/-- Inserting an absent key that fits, with enough data, when some slot is empty: `OK`. -/
theorem insert_ok (n : Int) (h : HashMapHandle) (key : Key) (data : List Nat)
    (hv : Valid n h) (hk : key ≠ INIT_KEY) (hr : IndexInRange h key) (hs : ¬ Stored h key)
    (hempty : Stored h INIT_KEY) (hlen : key.length < KEY_MAX_LEN)
    (hdata : h.cellsz ≤ data.length) :
    ∃ h', HashMap_insert n h key data = some (OK, h') := by
  have h1 := map_find_not_stored h key _ 0 hv.2 hr.1 hr.2 hs
  obtain ⟨ret, miss, h2, hlt, _, _⟩ := map_find_stored h INIT_KEY _ 0 hv.2 hr.1 hr.2 hempty
  unfold HashMap_insert
  rw [if_neg (map_is_init_ne_false n h hv), if_neg hk]
  simp only [h1, h2]
  have hne : ¬ (ret = INVALID_CORD) := by omega
  simp [INVALID_CORD] at hne hlt ⊢
  simp [hne, strcpy, memcpy, hlen, hdata]

end HashMapC

namespace HashMapC

/-! ## `HashMap_get` and `HashMap_erase` case by case -/

theorem get_stored (n : Int) (h : HashMapHandle) (key : Key)
    (hv : Valid n h) (hk : key ≠ INIT_KEY) (hr : IndexInRange h key) (hs : Stored h key) :
    ∃ i, HashMap_get n h key = some (VoidPtr.container i) ∧ i < h.tblsz ∧
      key_at h i = key := by
  obtain ⟨ret, miss, hres, hlt, hi, hki⟩ := map_find_stored h key _ 0 hv.2 hr.1 hr.2 hs
  refine ⟨ret.toNat, ?_, hi, hki⟩
  unfold HashMap_get
  rw [if_neg (map_is_init_ne_false n h hv), if_neg hk]
  have hne : ¬ (ret = INVALID_CORD) := by omega
  simp only [hres, if_neg hne]

theorem get_not_stored (n : Int) (h : HashMapHandle) (key : Key)
    (hv : Valid n h) (hr : IndexInRange h key) (hs : ¬ Stored h key) :
    HashMap_get n h key = some VoidPtr.NULL := by
  have h1 := map_find_not_stored h key _ 0 hv.2 hr.1 hr.2 hs
  unfold HashMap_get
  rw [if_neg (map_is_init_ne_false n h hv)]
  by_cases hk : key = INIT_KEY
  · rw [if_pos hk]
  · rw [if_neg hk]
    simp only [h1, if_true]

theorem erase_stored (n : Int) (h : HashMapHandle) (key : Key)
    (hv : Valid n h) (hk : key ≠ INIT_KEY) (hr : IndexInRange h key) (hs : Stored h key) :
    ∃ i, i < h.tblsz ∧ key_at h i = key ∧
      HashMap_erase n h key = some (OK, { h with
        hash_table := (h.hash_table.set i ⟨INIT_KEY, container_at h i⟩) }) := by
  obtain ⟨ret, miss, hres, hlt, hi, hki⟩ := map_find_stored h key _ 0 hv.2 hr.1 hr.2 hs
  refine ⟨ret.toNat, hi, hki, ?_⟩
  unfold HashMap_erase
  rw [if_neg (map_is_init_ne_false n h hv), if_neg hk]
  have hne : ¬ (ret = INVALID_CORD) := by omega
  simp only [hres, if_neg hne]

theorem erase_not_stored (n : Int) (h : HashMapHandle) (key : Key)
    (hv : Valid n h) (hr : IndexInRange h key) (hs : ¬ Stored h key) :
    HashMap_erase n h key = some (NG, h) := by
  have h1 := map_find_not_stored h key _ 0 hv.2 hr.1 hr.2 hs
  unfold HashMap_erase
  rw [if_neg (map_is_init_ne_false n h hv)]
  by_cases hk : key = INIT_KEY
  · rw [if_pos hk]
  · rw [if_neg hk]
    simp only [h1, if_true]

theorem erase_cases (n : Int) (h : HashMapHandle) (key : Key) (ret : Int)
    (h' : HashMapHandle) (hw : WellFormed h)
    (hx : HashMap_erase n h key = some (ret, h')) :
    (ret = NG ∧ h' = h) ∨
    (ret = OK ∧ key ≠ INIT_KEY ∧ ∃ i, i < h.tblsz ∧ key_at h i = key ∧
      h' = { h with hash_table := (h.hash_table.set i ⟨INIT_KEY, container_at h i⟩) }) := by
  unfold HashMap_erase at hx
  by_cases hinit : map_is_init n h = false
  · rw [if_pos hinit] at hx
    simp only [Option.some.injEq, Prod.mk.injEq] at hx
    exact Or.inl ⟨hx.1.symm, hx.2.symm⟩
  rw [if_neg hinit] at hx
  by_cases hkey : key = INIT_KEY
  · rw [if_pos hkey] at hx
    simp only [Option.some.injEq, Prod.mk.injEq] at hx
    exact Or.inl ⟨hx.1.symm, hx.2.symm⟩
  rw [if_neg hkey] at hx
  simp only [] at hx
  cases hf1 : map_find h key (h.hash key h.tblsz) 0 with
  | none => simp [hf1] at hx
  | some r1 =>
    obtain ⟨index, m1⟩ := r1
    simp only [hf1] at hx
    by_cases hidx : index = INVALID_CORD
    · rw [if_pos hidx] at hx
      simp only [Option.some.injEq, Prod.mk.injEq] at hx
      exact Or.inl ⟨hx.1.symm, hx.2.symm⟩
    rw [if_neg hidx] at hx
    simp only [Option.some.injEq, Prod.mk.injEq] at hx
    obtain ⟨_, hi, hki⟩ := map_find_hit h key _ 0 index m1 hw hf1 hidx
    exact Or.inr ⟨hx.1.symm, hkey, index.toNat, hi, hki, hx.2.symm⟩

/-! ## `HashMap_clear` -/

theorem clear_upto_length (tbl : List HashData) (n : Nat) :
    (clear_upto tbl n).length = tbl.length := by
  induction n with
  | zero => rfl
  | succ n ih => simp [clear_upto, ih]

theorem clear_upto_getElem? (tbl : List HashData) (n : Nat) (hn : n ≤ tbl.length) (i : Nat) :
    (clear_upto tbl n)[i]? =
      if i < n then (tbl[i]?).map (fun d => ⟨INIT_KEY, d.container⟩) else tbl[i]? := by
  induction n with
  | zero => simp [clear_upto]
  | succ n ih =>
    have ih := ih (by omega)
    simp only [clear_upto, List.getElem?_set, clear_upto_length]
    by_cases hi : n = i
    · subst hi
      have hlt : n < tbl.length := by omega
      simp [hlt, List.getD, clear_upto_length, List.getElem?_eq_getElem,
        ih]
    · rw [if_neg hi, ih]
      by_cases h1 : i < n
      · simp [h1, show i < n + 1 by omega]
      · simp [h1, show ¬ (i < n + 1) by omega]

theorem key_at_clear (n : Int) (h : HashMapHandle) (hv : Valid n h) (i : Nat) :
    key_at (HashMap_clear n h).2 i = INIT_KEY := by
  unfold HashMap_clear
  rw [if_neg (map_is_init_ne_false n h hv)]
  simp only [key_at, List.getD, List.get?_eq_getElem?]
  rw [clear_upto_getElem? _ _ (by rw [hv.2.2])]
  by_cases hi : i < h.tblsz
  · rw [if_pos hi]
    cases h.hash_table[i]? <;> simp
  · rw [if_neg hi]
    have : h.hash_table[i]? = none := List.getElem?_eq_none (by rw [hv.2.2]; omega)
    simp [this]

end HashMapC

namespace HashMapC

/-! ## The invariant of reachable tables -/

theorem make_cases (n : Int) (cellsz : Nat) (tblsz : Int)
    (hash_fook : Option (Key → Int → Int)) (r : Option HashMapHandle) (n' : Int)
    (hx : HashMap_make n cellsz tblsz hash_fook = (r, n')) :
    (r = none ∧ n' = n) ∨
    (0 < cellsz ∧ 0 < tblsz ∧ n' = n + 1 ∧
      r = some { hdl_id := n
                 hash := hash_fook.getD hash_func_default
                 cellsz := cellsz
                 tblsz := tblsz.toNat
                 iterator_pos := 0
                 hash_table := List.replicate tblsz.toNat ⟨INIT_KEY, List.replicate cellsz 0⟩ }) := by
  unfold HashMap_make at hx
  by_cases h1 : cellsz ≤ 0
  · rw [if_pos h1] at hx
    simp only [Prod.mk.injEq] at hx
    exact Or.inl ⟨hx.1.symm, hx.2.symm⟩
  rw [if_neg h1] at hx
  by_cases h2 : tblsz ≤ 0
  · rw [if_pos h2] at hx
    simp only [Prod.mk.injEq] at hx
    exact Or.inl ⟨hx.1.symm, hx.2.symm⟩
  rw [if_neg h2] at hx
  simp only [map_get_handle_id, Prod.mk.injEq] at hx
  refine Or.inr ⟨by omega, by omega, hx.2.symm, ?_⟩
  rw [← hx.1]
  cases hash_fook <;> rfl

theorem map_is_init_iff (n : Int) (h : HashMapHandle) :
    map_is_init n h = true ↔ HANDLE_START_ID ≤ h.hdl_id ∧ h.hdl_id < n := by
  unfold map_is_init
  by_cases h1 : HANDLE_START_ID > h.hdl_id
  · simp [h1]
  · by_cases h2 : n ≤ h.hdl_id
    · simp [h1, h2]
    · simp [h1, h2]
      omega

theorem key_at_replicate (h : HashMapHandle) (m : Nat) (c : List Nat)
    (ht : h.hash_table = List.replicate m ⟨INIT_KEY, c⟩) (i : Nat) :
    key_at h i = INIT_KEY := by
  simp only [key_at, ht, List.getD, List.get?_eq_getElem?, List.getElem?_replicate]
  split <;> rfl

/-- A fresh table satisfies the invariant. -/
theorem inv_make (n : Int) (cellsz : Nat) (tblsz : Int)
    (hash_fook : Option (Key → Int → Int)) (h : HashMapHandle) (n' : Int)
    (hn : HANDLE_START_ID ≤ n)
    (hx : HashMap_make n cellsz tblsz hash_fook = (some h, n')) : Inv n' h := by
  rcases make_cases n cellsz tblsz hash_fook _ n' hx with ⟨hnone, _⟩ | ⟨_, ht, hn', hsome⟩
  · exact absurd hnone (by simp)
  · simp only [Option.some.injEq] at hsome
    have hkeys : ∀ i, key_at h i = INIT_KEY := by
      intro i
      exact key_at_replicate h tblsz.toNat (List.replicate cellsz 0) (by rw [hsome]) i
    refine ⟨⟨?_, ?_, ?_⟩, ?_, ?_⟩
    · rw [map_is_init_iff, hsome]; simp only; omega
    · rw [hsome]; simp only; omega
    · rw [hsome]; simp
    · intro i _ j _ hi _
      exact absurd (hkeys i) hi
    · intro i _ hi
      exact absurd (hkeys i) hi

/-- Making another table keeps the invariant of this one. -/
theorem inv_other_make (n : Int) (h : HashMapHandle) (cellsz : Nat) (tblsz : Int)
    (hash_fook : Option (Key → Int → Int)) (r : Option HashMapHandle) (n' : Int)
    (hi : Inv n h) (hx : HashMap_make n cellsz tblsz hash_fook = (r, n')) : Inv n' h := by
  have hle : n ≤ n' := by
    rcases make_cases n cellsz tblsz hash_fook _ n' hx with ⟨_, h1⟩ | ⟨_, _, h1, _⟩ <;> omega
  obtain ⟨⟨hinit, hw⟩, hnd, hrange⟩ := hi
  refine ⟨⟨?_, hw⟩, hnd, hrange⟩
  rw [map_is_init_iff] at hinit ⊢
  omega

/-- Writing a key that no slot holds into an empty slot keeps the invariant. -/
theorem inv_set_key (n : Int) (h h' : HashMapHandle) (idx : Nat) (x : HashData)
    (hi : Inv n h) (hidx : idx < h.tblsz) (hnot : ∀ i, i < h.tblsz → key_at h i ≠ x.key)
    (hr : x.key ≠ INIT_KEY → IndexInRange h x.key)
    (ht : h' = { h with hash_table := (h.hash_table.set idx x) }) : Inv n h' := by
  obtain ⟨⟨hinit, hc, hlen⟩, hnd, hrange⟩ := hi
  have htbl : h'.hash_table = h.hash_table.set idx x := by rw [ht]
  have hsz : h'.tblsz = h.tblsz := by rw [ht]
  have hhash : h'.hash = h.hash := by rw [ht]
  have hself : key_at h' idx = x.key :=
    key_at_set_self h h' idx x htbl (by omega)
  have hother : ∀ i, i ≠ idx → key_at h' i = key_at h i :=
    fun i hi => key_at_set_other h h' idx i x htbl hi
  refine ⟨⟨?_, ?_, ?_⟩, ?_, ?_⟩
  · rw [map_is_init_iff] at hinit ⊢
    rw [ht]; exact hinit
  · rw [hsz]; exact hc
  · rw [htbl, hsz, List.length_set]; exact hlen
  · intro i hi j hj hne heq
    rw [hsz] at hi hj
    by_cases h1 : i = idx
    · by_cases h2 : j = idx
      · omega
      · rw [h1, hself, hother j h2] at heq
        exact absurd heq.symm (hnot j hj)
    · by_cases h2 : j = idx
      · rw [h2, hself, hother i h1] at heq
        exact absurd heq (hnot i hi)
      · rw [hother i h1] at hne heq
        rw [hother j h2] at heq
        exact hnd i hi j hj hne heq
  · intro i hi hne
    rw [hsz] at hi
    unfold IndexInRange
    rw [hhash, hsz]
    by_cases h1 : i = idx
    · rw [h1, hself] at hne ⊢
      exact hr hne
    · rw [hother i h1] at hne ⊢
      exact hrange i hi hne

theorem inv_insert (n : Int) (h : HashMapHandle) (key : Key) (data : List Nat) (ret : Int)
    (h' : HashMapHandle) (hi : Inv n h)
    (hx : HashMap_insert n h key data = some (ret, h')) : Inv n h' := by
  rcases insert_cases n h key data ret h' hi.1.2 hx with
    ⟨_, rfl⟩ | ⟨_, _, _, _, _, hr, hnot, d, _, _, _, ht⟩
  · exact hi
  · exact inv_set_key n h h' _ _ hi (circ_lt _ _ _ hi.1.2.1) hnot (fun _ => hr) ht

theorem inv_erase (n : Int) (h : HashMapHandle) (key : Key) (ret : Int)
    (h' : HashMapHandle) (hi : Inv n h)
    (hx : HashMap_erase n h key = some (ret, h')) : Inv n h' := by
  rcases erase_cases n h key ret h' hi.1.2 hx with ⟨_, rfl⟩ | ⟨_, _, i, hlt, _, ht⟩
  · exact hi
  · obtain ⟨⟨hinit, hc, hlen⟩, hnd, hrange⟩ := hi
    have htbl : h'.hash_table = h.hash_table.set i ⟨INIT_KEY, container_at h i⟩ := by rw [ht]
    have hsz : h'.tblsz = h.tblsz := by rw [ht]
    have hhash : h'.hash = h.hash := by rw [ht]
    have hself : key_at h' i = INIT_KEY :=
      key_at_set_self h h' i _ htbl (by omega)
    have hother : ∀ j, j ≠ i → key_at h' j = key_at h j :=
      fun j hj => key_at_set_other h h' i j _ htbl hj
    refine ⟨⟨?_, ?_, ?_⟩, ?_, ?_⟩
    · rw [map_is_init_iff] at hinit ⊢
      rw [ht]; exact hinit
    · rw [hsz]; exact hc
    · rw [htbl, hsz, List.length_set]; exact hlen
    · intro a ha b hb hne heq
      rw [hsz] at ha hb
      by_cases h1 : a = i
      · rw [h1, hself] at hne; exact absurd rfl hne
      · by_cases h2 : b = i
        · rw [h2, hself] at heq; exact absurd heq hne
        · rw [hother a h1] at hne heq
          rw [hother b h2] at heq
          exact hnd a ha b hb hne heq
    · intro a ha hne
      rw [hsz] at ha
      unfold IndexInRange
      rw [hhash, hsz]
      by_cases h1 : a = i
      · rw [h1, hself] at hne; exact absurd rfl hne
      · rw [hother a h1] at hne ⊢
        exact hrange a ha hne

theorem inv_clear (n : Int) (h : HashMapHandle) (hi : Inv n h) :
    Inv n (HashMap_clear n h).2 := by
  have hkeys := key_at_clear n h hi.1
  obtain ⟨⟨hinit, hc, hlen⟩, hnd, hrange⟩ := hi
  have hneg : ¬ (map_is_init n h = false) := by rw [hinit]; simp
  refine ⟨⟨?_, ?_, ?_⟩, ?_, ?_⟩
  · rw [map_is_init_iff] at hinit ⊢
    unfold HashMap_clear; rw [if_neg hneg]; exact hinit
  · unfold HashMap_clear; rw [if_neg hneg]; exact hc
  · unfold HashMap_clear; rw [if_neg hneg]
    simp only [clear_upto_length]; exact hlen
  · intro a _ b _ hne _
    exact absurd (hkeys a) hne
  · intro a _ hne
    exact absurd (hkeys a) hne

/-- Every reachable table satisfies the invariant. -/
theorem reachable_inv (n : Int) (h : HashMapHandle) (hr : Reachable n h) : Inv n h := by
  induction hr with
  | make n cellsz tblsz hash_fook h n' hn hx => exact inv_make n cellsz tblsz hash_fook h n' hn hx
  | other_make n h cellsz tblsz hash_fook r n' _ hx ih =>
    exact inv_other_make n h cellsz tblsz hash_fook r n' ih hx
  | insert n h key data ret h' _ hx ih => exact inv_insert n h key data ret h' ih hx
  | erase n h key ret h' _ hx ih => exact inv_erase n h key ret h' ih hx
  | clear n h ret h' _ hx ih =>
    have : h' = (HashMap_clear n h).2 := by rw [hx]
    rw [this]; exact inv_clear n h ih

end HashMapC

namespace HashMapC

theorem valid_set (n : Int) (h h' : HashMapHandle) (idx : Nat) (x : HashData)
    (hv : Valid n h) (ht : h' = { h with hash_table := (h.hash_table.set idx x) }) :
    Valid n h' := by
  obtain ⟨hinit, hc, hlen⟩ := hv
  refine ⟨?_, ?_, ?_⟩
  · rw [map_is_init_iff] at hinit ⊢
    rw [ht]; exact hinit
  · rw [ht]; exact hc
  · rw [ht]; simp only [List.length_set]; exact hlen

theorem ok_ne_ng : OK ≠ NG := by decide

/-! ## C1: insert then get -/

/-- C1. On every valid table (in particular every table reached from
`HashMap_make`), for every value `data` of `cellsz` bytes: when
`HashMap_insert(key, data)` returns `OK`, the `HashMap_get(key)` that follows
returns a non-NULL pointer to a value buffer whose `cellsz` bytes are `data`.
(That `key` is non-empty, shorter than 32 characters and hashed in range
follows from the `OK`.) -/
theorem insert_then_get (n : Int) (h : HashMapHandle) (key : Key) (data : List Nat)
    (h' : HashMapHandle) (hv : Valid n h) (hd : data.length = h.cellsz)
    (hx : HashMap_insert n h key data = some (OK, h')) :
    ∃ i, HashMap_get n h' key = some (VoidPtr.container i) ∧
      (deref h' (VoidPtr.container i)).map (List.take h.cellsz) = some data := by
  rcases insert_cases n h key data OK h' hv.2 hx with
    ⟨hng, _⟩ | ⟨_, _, hk, _, _, hr, hnot, d, hdlt, _, _, ht⟩
  · exact absurd hng ok_ne_ng
  have hidx : circ h.tblsz (h.hash key h.tblsz).toNat d < h.tblsz := circ_lt _ _ _ hv.2.1
  have hv' : Valid n h' := valid_set n h h' _ _ hv ht
  have htbl : h'.hash_table = h.hash_table.set (circ h.tblsz (h.hash key h.tblsz).toNat d)
      ⟨key, data.take h.cellsz ++
        (container_at h (circ h.tblsz (h.hash key h.tblsz).toNat d)).drop h.cellsz⟩ := by
    rw [ht]
  have hsz : h'.tblsz = h.tblsz := by rw [ht]
  have hhash : h'.hash = h.hash := by rw [ht]
  have hlen : circ h.tblsz (h.hash key h.tblsz).toNat d < h.hash_table.length := by
    rw [hv.2.2]; exact hidx
  have hself := key_at_set_self h h' _ _ htbl hlen
  have hstored : Stored h' key := ⟨_, by rw [hsz]; exact hidx, hself⟩
  have hr' : IndexInRange h' key := by
    unfold IndexInRange; rw [hhash, hsz]; exact hr
  obtain ⟨i, hget, hi, hki⟩ := get_stored n h' key hv' hk hr' hstored
  refine ⟨i, hget, ?_⟩
  have hieq : i = circ h.tblsz (h.hash key h.tblsz).toNat d := by
    by_contra hne
    rw [key_at_set_other h h' _ i _ htbl hne] at hki
    exact hnot i (by rw [← hsz]; exact hi) hki
  rw [hieq]
  simp only [deref, Option.map_some', Option.some.injEq]
  rw [container_at_set_self h h' _ _ htbl hlen]
  simp only
  rw [List.take_append_of_le_length (by simp [hd]), List.take_take]
  simp [hd]

end HashMapC

namespace HashMapC

theorem demo_fresh_make : HashMap_make 55 4 4 none = (some demo_fresh, 56) := rfl

theorem demo_fresh_valid : Valid 56 demo_fresh := ⟨rfl, by decide, rfl⟩

theorem demo_fresh_insert_a :
    HashMap_insert 56 demo_fresh [97] [1, 0, 0, 0] = some (OK, demo_a) := by
  rfl

theorem insert_then_get_witness :
    Valid 56 demo_fresh ∧ [1, 0, 0, 0].length = demo_fresh.cellsz ∧
    HashMap_insert 56 demo_fresh [97] [1, 0, 0, 0] = some (OK, demo_a) ∧
    ∃ i, HashMap_get 56 demo_a [97] = some (VoidPtr.container i) ∧
      (deref demo_a (VoidPtr.container i)).map (List.take demo_fresh.cellsz)
        = some [1, 0, 0, 0] :=
  ⟨demo_fresh_valid, rfl, demo_fresh_insert_a,
    insert_then_get 56 demo_fresh [97] [1, 0, 0, 0] demo_a demo_fresh_valid rfl
      demo_fresh_insert_a⟩

end HashMapC

namespace HashMapC

/-! ## C2: inserting a key that is already stored -/

/-- C2. On every valid table, for every non-empty key that some slot already
holds (whatever the position of that slot relative to the hash index, which is
in range): `HashMap_insert` returns `NG` and hands back the very same table
(all keys, all value buffers, the cursor), and the `HashMap_get` that follows
still returns the value buffer of a slot holding the key. -/
theorem insert_duplicate_unchanged (n : Int) (h : HashMapHandle) (key : Key)
    (data : List Nat) (hv : Valid n h) (hk : key ≠ INIT_KEY) (hr : IndexInRange h key)
    (hs : Stored h key) :
    HashMap_insert n h key data = some (NG, h) ∧
    ∃ i, i < h.tblsz ∧ key_at h i = key ∧
      HashMap_get n h key = some (VoidPtr.container i) := by
  refine ⟨insert_dup n h key data hv hk hr hs, ?_⟩
  obtain ⟨i, hget, hi, hki⟩ := get_stored n h key hv hk hr hs
  exact ⟨i, hi, hki, hget⟩

theorem demo_a_valid : Valid 56 demo_a := ⟨rfl, by decide, rfl⟩

theorem demo_a_range : IndexInRange demo_a [97] := by
  unfold IndexInRange; decide

theorem demo_a_stored : Stored demo_a [97] := ⟨1, by decide, rfl⟩

theorem insert_duplicate_unchanged_witness :
    HashMap_insert 56 demo_a [97] [9, 9, 9, 9] = some (NG, demo_a) ∧
    ∃ i, i < demo_a.tblsz ∧ key_at demo_a i = [97] ∧
      HashMap_get 56 demo_a [97] = some (VoidPtr.container i) :=
  insert_duplicate_unchanged 56 demo_a [97] [9, 9, 9, 9] demo_a_valid (by decide)
    demo_a_range demo_a_stored

/-! ## C3: erase, then get, then erase again -/

/-- C3. On every table reached from `HashMap_make` by insert/erase/clear, for
every key held by an occupied slot: `HashMap_erase` returns `OK`; on the table
it leaves, `HashMap_get` of the key returns `NULL` and a second
`HashMap_erase` returns `NG`. -/
theorem erase_then_get_then_erase (n : Int) (h : HashMapHandle) (key : Key)
    (hreach : Reachable n h) (hk : key ≠ INIT_KEY) (hs : Stored h key) :
    ∃ h', HashMap_erase n h key = some (OK, h') ∧
      HashMap_get n h' key = some VoidPtr.NULL ∧
      HashMap_erase n h' key = some (NG, h') := by
  obtain ⟨hv, hnd, hrange⟩ := reachable_inv n h hreach
  have hr : IndexInRange h key := by
    obtain ⟨i, hi, hki⟩ := hs
    have := hrange i hi (by rw [hki]; exact hk)
    rw [hki] at this; exact this
  obtain ⟨i, hi, hki, hers⟩ := erase_stored n h key hv hk hr hs
  refine ⟨_, hers, ?_⟩
  have hv' := valid_set n h _ i ⟨INIT_KEY, container_at h i⟩ hv rfl
  have hr' : IndexInRange { h with hash_table :=
      (h.hash_table.set i ⟨INIT_KEY, container_at h i⟩) } key := hr
  have hns : ¬ Stored { h with hash_table :=
      (h.hash_table.set i ⟨INIT_KEY, container_at h i⟩) } key := by
    rintro ⟨j, hj, hkj⟩
    have hj' : j < h.tblsz := hj
    by_cases hji : j = i
    · rw [hji, key_at_set_self h _ i _ rfl (by rw [hv.2.2]; exact hi)] at hkj
      exact hk hkj.symm
    · rw [key_at_set_other h _ i j _ rfl hji] at hkj
      have := hnd i hi j hj' (by rw [hki]; exact hk) (by rw [hki, hkj])
      exact hji this.symm
  exact ⟨get_not_stored n _ key hv' hr' hns, erase_not_stored n _ key hv' hr' hns⟩

theorem demo_a_reachable : Reachable 56 demo_a :=
  Reachable.insert 56 demo_fresh [97] [1, 0, 0, 0] OK demo_a
    (Reachable.make 55 4 4 none demo_fresh 56 (by decide) demo_fresh_make)
    demo_fresh_insert_a

theorem erase_then_get_then_erase_witness :
    Reachable 56 demo_a ∧ Stored demo_a [97] ∧
    ∃ h', HashMap_erase 56 demo_a [97] = some (OK, h') ∧
      HashMap_get 56 h' [97] = some VoidPtr.NULL ∧
      HashMap_erase 56 h' [97] = some (NG, h') :=
  ⟨demo_a_reachable, demo_a_stored,
    erase_then_get_then_erase 56 demo_a [97] demo_a_reachable (by decide) demo_a_stored⟩

end HashMapC

namespace HashMapC

/-! ## Counting occupied slots -/

theorem size_upto_bounds (h : HashMapHandle) (n : Nat) :
    0 ≤ size_upto h n ∧ size_upto h n ≤ n := by
  induction n with
  | zero => simp [size_upto]
  | succ n ih =>
    unfold size_upto
    split <;> push_cast <;> omega

theorem size_upto_all_empty (h : HashMapHandle) (n : Nat)
    (hall : ∀ i, i < n → key_at h i = INIT_KEY) : size_upto h n = 0 := by
  induction n with
  | zero => rfl
  | succ n ih =>
    unfold size_upto
    rw [if_neg (by simp [hall n (by omega)])]
    exact ih (fun i hi => hall i (by omega))

theorem exists_empty_of_size_lt (h : HashMapHandle) (n : Nat)
    (hlt : size_upto h n < n) : ∃ i, i < n ∧ key_at h i = INIT_KEY := by
  induction n with
  | zero => simp [size_upto] at hlt
  | succ n ih =>
    unfold size_upto at hlt
    by_cases hk : key_at h n ≠ INIT_KEY
    · rw [if_pos hk] at hlt
      obtain ⟨i, hi, hki⟩ := ih (by push_cast at hlt; omega)
      exact ⟨i, by omega, hki⟩
    · exact ⟨n, by omega, by simpa using hk⟩

theorem no_empty_of_size_eq (h : HashMapHandle) (n : Nat)
    (heq : size_upto h n = n) : ∀ i, i < n → key_at h i ≠ INIT_KEY := by
  induction n with
  | zero => intro i hi; omega
  | succ n ih =>
    unfold size_upto at heq
    have hb := size_upto_bounds h n
    by_cases hk : key_at h n ≠ INIT_KEY
    · rw [if_pos hk] at heq
      intro i hi
      by_cases hin : i = n
      · rw [hin]; exact hk
      · exact ih (by push_cast at heq; omega) i (by omega)
    · rw [if_neg hk] at heq
      push_cast at heq
      omega

/-- Writing a non-empty key into an empty slot adds one to the count. -/
theorem size_upto_set_occupy (h h' : HashMapHandle) (idx : Nat) (x : HashData)
    (ht : h'.hash_table = h.hash_table.set idx x) (hidx : idx < h.hash_table.length)
    (hold : key_at h idx = INIT_KEY) (hnew : x.key ≠ INIT_KEY) (n : Nat) :
    size_upto h' n = size_upto h n + if idx < n then 1 else 0 := by
  induction n with
  | zero => simp [size_upto]
  | succ n ih =>
    unfold size_upto
    by_cases hn : n = idx
    · subst hn
      rw [key_at_set_self h h' n x ht hidx, hold, if_pos hnew, if_neg (by simp), ih]
      simp
    · rw [key_at_set_other h h' idx n x ht hn, ih]
      by_cases h1 : idx < n
      · simp only [h1, show idx < n + 1 by omega, if_true]
        split <;> omega
      · simp only [h1, show ¬ (idx < n + 1) by omega, if_false]
        split <;> omega

theorem size_eq (n : Int) (h : HashMapHandle) (hv : Valid n h) :
    HashMap_size n h = size_upto h h.tblsz := by
  unfold HashMap_size
  rw [if_neg (map_is_init_ne_false n h hv)]

theorem maxsize_eq (n : Int) (h : HashMapHandle) (hv : Valid n h) :
    HashMap_maxsize n h = h.tblsz := by
  unfold HashMap_maxsize
  rw [if_neg (map_is_init_ne_false n h hv)]

end HashMapC

namespace HashMapC

/-! ## A run of inserts of distinct keys -/

theorem stored_set (h h' : HashMapHandle) (idx : Nat) (x : HashData) (k : Key)
    (ht : h' = { h with hash_table := (h.hash_table.set idx x) }) (hs : Stored h' k) :
    k = x.key ∨ Stored h k := by
  obtain ⟨i, hi, hki⟩ := hs
  have htbl : h'.hash_table = h.hash_table.set idx x := by rw [ht]
  have hsz : h'.tblsz = h.tblsz := by rw [ht]
  by_cases hidx : i = idx
  · by_cases hlen : idx < h.hash_table.length
    · left
      rw [hidx, key_at_set_self h h' idx x htbl hlen] at hki
      exact hki.symm
    · right
      refine ⟨i, by rw [← hsz]; exact hi, ?_⟩
      rw [← hki]
      simp only [key_at, htbl]
      rw [List.set_eq_of_length_le (by omega)]
  · right
    refine ⟨i, by rw [← hsz]; exact hi, ?_⟩
    rw [← hki, key_at_set_other h h' idx i x htbl hidx]

/-- Inserting pairwise distinct, absent, well-formed keys while room is left:
every insert returns `OK` and the count of occupied slots grows by one each time. -/
theorem insert_all_spec (n : Int) :
    ∀ (kvs : List (Key × List Nat)) (h : HashMapHandle) (m : Nat),
      Valid n h → size_upto h h.tblsz = m → m + kvs.length ≤ h.tblsz →
      (kvs.map Prod.fst).Nodup →
      (∀ kv, kv ∈ kvs → kv.1 ≠ INIT_KEY ∧ kv.1.length < KEY_MAX_LEN ∧
        IndexInRange h kv.1 ∧ h.cellsz ≤ kv.2.length ∧ ¬ Stored h kv.1) →
      ∃ h1, insert_all n h kvs = some (List.replicate kvs.length OK, h1) ∧
        Valid n h1 ∧ size_upto h1 h1.tblsz = (m + kvs.length : Nat) ∧
        h1.tblsz = h.tblsz ∧ h1.hash = h.hash ∧ h1.cellsz = h.cellsz ∧
        (∀ k, Stored h1 k → k ≠ INIT_KEY → Stored h k ∨ k ∈ kvs.map Prod.fst) := by
  intro kvs
  induction kvs with
  | nil =>
    intro h m hv hsize _ _ _
    exact ⟨h, rfl, hv, by simpa using hsize, rfl, rfl, rfl, fun k hs _ => Or.inl hs⟩
  | cons kv rest ih =>
    intro h m hv hsize hroom hnodup hkeys
    obtain ⟨key, data⟩ := kv
    obtain ⟨hk, hlen, hr, hdata, hns⟩ := hkeys (key, data) (List.mem_cons_self _ _)
    simp only [List.length_cons] at hroom
    have hempty : Stored h INIT_KEY := by
      obtain ⟨i, hi, hki⟩ := exists_empty_of_size_lt h h.tblsz (by rw [hsize]; omega)
      exact ⟨i, hi, hki⟩
    obtain ⟨h', hins⟩ := insert_ok n h key data hv hk hr hns hempty hlen hdata
    rcases insert_cases n h key data OK h' hv.2 hins with
      ⟨hng, _⟩ | ⟨_, _, _, _, _, _, _, d, _, hke, _, ht⟩
    · exact absurd hng ok_ne_ng
    have hidx : circ h.tblsz (h.hash key h.tblsz).toNat d < h.tblsz := circ_lt _ _ _ hv.2.1
    have hv' : Valid n h' := valid_set n h h' _ _ hv ht
    have hsz : h'.tblsz = h.tblsz := by rw [ht]
    have hhash : h'.hash = h.hash := by rw [ht]
    have hcell : h'.cellsz = h.cellsz := by rw [ht]
    have hsize' : size_upto h' h'.tblsz = ((m + 1 : Nat) : Int) := by
      rw [hsz, size_upto_set_occupy h h' _ _ (by rw [ht]) (by rw [hv.2.2]; exact hidx) hke hk,
        if_pos hidx, hsize]
      push_cast; rfl
    simp only [List.map_cons, List.nodup_cons] at hnodup
    have hkeys' : ∀ kv, kv ∈ rest → kv.1 ≠ INIT_KEY ∧ kv.1.length < KEY_MAX_LEN ∧
        IndexInRange h' kv.1 ∧ h'.cellsz ≤ kv.2.length ∧ ¬ Stored h' kv.1 := by
      intro kv hkv
      obtain ⟨a1, a2, a3, a4, a5⟩ := hkeys kv (List.mem_cons_of_mem _ hkv)
      refine ⟨a1, a2, ?_, by rw [hcell]; exact a4, ?_⟩
      · unfold IndexInRange; rw [hhash, hsz]; exact a3
      · intro hst
        rcases stored_set h h' _ _ kv.1 ht hst with heq | hold
        · simp only at heq
          exact hnodup.1 (by rw [← heq]; exact List.mem_map_of_mem _ hkv)
        · exact a5 hold
    obtain ⟨h1, hall, hv1, hsize1, hsz1, hhash1, hcell1, hst1⟩ :=
      ih h' (m + 1) hv' hsize' (by rw [hsz]; omega) hnodup.2 hkeys'
    refine ⟨h1, ?_, hv1, ?_, by rw [hsz1, hsz], by rw [hhash1, hhash], by rw [hcell1, hcell], ?_⟩
    · simp only [insert_all, hins, hall, List.length_cons, List.replicate_succ]
    · rw [hsize1]; simp only [List.length_cons]; congr 1; omega
    · intro k hs hkne
      rcases hst1 k hs hkne with hs' | hmem
      · rcases stored_set h h' _ _ k ht hs' with heq | hold
        · right; simp only at heq; rw [heq]; simp
        · left; exact hold
      · right; simp only [List.map_cons, List.mem_cons]; right; exact hmem

end HashMapC

namespace HashMapC

theorem fresh_facts (n : Int) (cellsz : Nat) (tblsz : Int)
    (hash_fook : Option (Key → Int → Int)) (h : HashMapHandle) (n' : Int)
    (hx : HashMap_make n cellsz tblsz hash_fook = (some h, n')) :
    (h.tblsz : Int) = tblsz ∧ h.cellsz = cellsz ∧ h.iterator_pos = 0 ∧
      (∀ i, key_at h i = INIT_KEY) ∧ n' = n + 1 := by
  rcases make_cases n cellsz tblsz hash_fook _ n' hx with ⟨hnone, _⟩ | ⟨_, ht, hn', hsome⟩
  · exact absurd hnone (by simp)
  · simp only [Option.some.injEq] at hsome
    refine ⟨?_, by rw [hsome], by rw [hsome], ?_, hn'⟩
    · rw [hsome]; simp only; omega
    · intro i
      exact key_at_replicate h tblsz.toNat (List.replicate cellsz 0) (by rw [hsome]) i

/-- With an empty slot in the table, an insert of an absent key never returns `NG`. -/
theorem insert_empty_not_ng (n : Int) (h : HashMapHandle) (key : Key) (data : List Nat)
    (hv : Valid n h) (hk : key ≠ INIT_KEY) (hr : IndexInRange h key) (hs : ¬ Stored h key)
    (hempty : Stored h INIT_KEY) (h' : HashMapHandle) :
    HashMap_insert n h key data ≠ some (NG, h') := by
  have h1 := map_find_not_stored h key _ 0 hv.2 hr.1 hr.2 hs
  obtain ⟨ret, miss, h2, hlt, _, _⟩ := map_find_stored h INIT_KEY _ 0 hv.2 hr.1 hr.2 hempty
  unfold HashMap_insert
  rw [if_neg (map_is_init_ne_false n h hv), if_neg hk]
  simp only [h1, h2]
  have hne : ¬ (ret = INVALID_CORD) := by omega
  rw [if_neg (by simp), if_neg hne]
  cases strcpy key <;> cases memcpy (container_at h ret.toNat) data h.cellsz <;>
    simp [OK, NG]

/-- A run of inserts of distinct keys into a fresh table. -/
theorem insert_all_fresh (n0 : Int) (cellsz : Nat) (tblsz : Int)
    (hash_fook : Option (Key → Int → Int)) (h0 : HashMapHandle) (n : Int)
    (kvs : List (Key × List Nat))
    (hn : HANDLE_START_ID ≤ n0)
    (hmake : HashMap_make n0 cellsz tblsz hash_fook = (some h0, n))
    (hcount : (kvs.length : Int) ≤ tblsz)
    (hnodup : (kvs.map Prod.fst).Nodup)
    (hkeys : ∀ kv, kv ∈ kvs → kv.1 ≠ INIT_KEY ∧ kv.1.length < KEY_MAX_LEN ∧
      IndexInRange h0 kv.1 ∧ cellsz ≤ kv.2.length) :
    ∃ h1, insert_all n h0 kvs = some (List.replicate kvs.length OK, h1) ∧
      Valid n h1 ∧ size_upto h1 h1.tblsz = kvs.length ∧ (h1.tblsz : Int) = tblsz ∧
      h1.hash = h0.hash ∧ h1.tblsz = h0.tblsz ∧
      (∀ k, Stored h1 k → k ≠ INIT_KEY → k ∈ kvs.map Prod.fst) := by
  obtain ⟨hsz, hcell, _, hfresh, _⟩ := fresh_facts n0 cellsz tblsz hash_fook h0 n hmake
  have hv : Valid n h0 := (inv_make n0 cellsz tblsz hash_fook h0 n hn hmake).1
  have hsize : size_upto h0 h0.tblsz = ((0 : Nat) : Int) :=
    size_upto_all_empty h0 h0.tblsz (fun i _ => hfresh i)
  have hns : ∀ k, k ≠ INIT_KEY → ¬ Stored h0 k := by
    rintro k hk ⟨i, _, hki⟩
    rw [hfresh i] at hki
    exact hk hki.symm
  obtain ⟨h1, hall, hv1, hsize1, hsz1, hhash1, _, hst1⟩ :=
    insert_all_spec n kvs h0 0 hv hsize (by omega) hnodup
      (fun kv hkv => by
        obtain ⟨a1, a2, a3, a4⟩ := hkeys kv hkv
        exact ⟨a1, a2, a3, by rw [hcell]; exact a4, hns kv.1 a1⟩)
  refine ⟨h1, hall, hv1, by rw [hsize1]; simp, by rw [hsz1]; exact hsz, hhash1, hsz1, ?_⟩
  intro k hs hk
  rcases hst1 k hs hk with hold | hmem
  · exact absurd hold (hns k hk)
  · exact hmem

/-! ## C4: the table-full error -/

/-- C4. On every valid table, for every non-empty key that no slot holds and whose
hash index is in range: `HashMap_insert` returns `NG` exactly when no slot
holds the empty sentinel (whatever the hash index), and then the table is
unchanged; with an empty slot, a key shorter than 32 characters and `cellsz`
bytes of data it returns `OK`.  Consequently, after `tblsz` pairwise distinct
keys were inserted into a fresh table of `tblsz` slots (each insert returning
`OK`), the insert of one more distinct key returns `NG` and changes nothing. -/
theorem insert_full_iff (n : Int) (h : HashMapHandle) (key : Key) (data : List Nat)
    (hv : Valid n h) (hk : key ≠ INIT_KEY) (hr : IndexInRange h key)
    (hs : ¬ Stored h key) :
    (((∃ h', HashMap_insert n h key data = some (NG, h')) ↔ ¬ Stored h INIT_KEY) ∧
      (¬ Stored h INIT_KEY → HashMap_insert n h key data = some (NG, h)) ∧
      (Stored h INIT_KEY → key.length < KEY_MAX_LEN → h.cellsz ≤ data.length →
        ∃ h', HashMap_insert n h key data = some (OK, h'))) ∧
    (∀ (n0 : Int) (cellsz : Nat) (tblsz : Int) (hash_fook : Option (Key → Int → Int))
      (h0 : HashMapHandle) (n1 : Int) (kvs : List (Key × List Nat)) (key' : Key)
      (data' : List Nat),
      HANDLE_START_ID ≤ n0 → HashMap_make n0 cellsz tblsz hash_fook = (some h0, n1) →
      (kvs.length : Int) = tblsz → (kvs.map Prod.fst).Nodup →
      (∀ kv, kv ∈ kvs → kv.1 ≠ INIT_KEY ∧ kv.1.length < KEY_MAX_LEN ∧
        IndexInRange h0 kv.1 ∧ cellsz ≤ kv.2.length) →
      key' ≠ INIT_KEY → key' ∉ kvs.map Prod.fst → IndexInRange h0 key' →
      ∃ h1, insert_all n1 h0 kvs = some (List.replicate kvs.length OK, h1) ∧
        HashMap_insert n1 h1 key' data' = some (NG, h1)) := by
  refine ⟨⟨⟨?_, ?_⟩, ?_, ?_⟩, ?_⟩
  · rintro ⟨h', hins⟩ hempty
    exact insert_empty_not_ng n h key data hv hk hr hs hempty h' hins
  · intro hfull
    exact ⟨h, insert_full n h key data hv hk hr hs hfull⟩
  · intro hfull
    exact insert_full n h key data hv hk hr hs hfull
  · intro hempty hlen hdata
    exact insert_ok n h key data hv hk hr hs hempty hlen hdata
  · intro n0 cellsz tblsz hash_fook h0 n1 kvs key' data' hn hmake hcount hnodup hkeys hk'
      hnew hr'
    obtain ⟨h1, hall, hv1, hsize1, hsz1, hhash1, htb1, hst1⟩ :=
      insert_all_fresh n0 cellsz tblsz hash_fook h0 n1 kvs hn hmake (by omega) hnodup hkeys
    refine ⟨h1, hall, ?_⟩
    have hfull : ¬ Stored h1 INIT_KEY := by
      rintro ⟨i, hi, hki⟩
      have hsz : size_upto h1 h1.tblsz = (h1.tblsz : Int) := by rw [hsize1, hsz1, hcount]
      exact no_empty_of_size_eq h1 h1.tblsz hsz i hi hki
    have hns : ¬ Stored h1 key' := fun hst => hnew (hst1 key' hst hk')
    have hr1 : IndexInRange h1 key' := by
      unfold IndexInRange; rw [hhash1, htb1]; exact hr'
    exact insert_full n1 h1 key' data' hv1 hk' hr1 hns hfull

/-! ## C5: size after inserting distinct keys -/

/-- C5. Starting from a freshly made table of `tblsz` slots, for every list of
at most `tblsz` pairwise distinct non-empty keys shorter than 32 characters
with hash indices in range (and `cellsz` bytes of data each): every
`HashMap_insert` returns `OK`, and afterwards `HashMap_size` is the number of
keys, `HashMap_maxsize` is `tblsz`, and size is at most maxsize. -/
theorem insert_distinct_size (n0 : Int) (cellsz : Nat) (tblsz : Int)
    (hash_fook : Option (Key → Int → Int)) (h0 : HashMapHandle) (n : Int)
    (kvs : List (Key × List Nat))
    (hn : HANDLE_START_ID ≤ n0)
    (hmake : HashMap_make n0 cellsz tblsz hash_fook = (some h0, n))
    (hcount : (kvs.length : Int) ≤ tblsz)
    (hnodup : (kvs.map Prod.fst).Nodup)
    (hkeys : ∀ kv, kv ∈ kvs → kv.1 ≠ INIT_KEY ∧ kv.1.length < KEY_MAX_LEN ∧
      IndexInRange h0 kv.1 ∧ cellsz ≤ kv.2.length) :
    ∃ h1, insert_all n h0 kvs = some (List.replicate kvs.length OK, h1) ∧
      HashMap_size n h1 = kvs.length ∧ HashMap_maxsize n h1 = tblsz ∧
      HashMap_size n h1 ≤ HashMap_maxsize n h1 := by
  obtain ⟨h1, hall, hv1, hsize1, hsz1, _, _, _⟩ :=
    insert_all_fresh n0 cellsz tblsz hash_fook h0 n kvs hn hmake hcount hnodup hkeys
  refine ⟨h1, hall, ?_, ?_, ?_⟩
  · rw [size_eq n h1 hv1, hsize1]
  · rw [maxsize_eq n h1 hv1, hsz1]
  · rw [size_eq n h1 hv1, maxsize_eq n h1 hv1, hsize1, hsz1]; exact hcount

end HashMapC

namespace HashMapC

theorem demo_pairs_keys : ∀ kv, kv ∈ demo_pairs → kv.1 ≠ INIT_KEY ∧
    kv.1.length < KEY_MAX_LEN ∧ IndexInRange demo_fresh kv.1 ∧ 4 ≤ kv.2.length := by
  intro kv hkv
  simp only [demo_pairs, List.mem_cons, List.mem_singleton, List.not_mem_nil, or_false] at hkv
  rcases hkv with rfl | rfl | rfl | rfl <;>
    exact ⟨by decide, by decide, ⟨by decide, by decide⟩, by decide⟩

theorem demo_a_not_stored_b : ¬ Stored demo_a [98] := by
  unfold Stored; decide

theorem insert_full_iff_witness :
    ((∃ h', HashMap_insert 56 demo_a [98] [2, 0, 0, 0] = some (NG, h')) ↔
      ¬ Stored demo_a INIT_KEY) ∧
    ∃ h1, insert_all 56 demo_fresh demo_pairs = some (List.replicate demo_pairs.length OK, h1) ∧
      HashMap_insert 56 h1 [101] [5, 0, 0, 0] = some (NG, h1) :=
  ⟨(insert_full_iff 56 demo_a [98] [2, 0, 0, 0] demo_a_valid (by decide)
      ⟨by decide, by decide⟩ demo_a_not_stored_b).1.1,
    (insert_full_iff 56 demo_a [98] [2, 0, 0, 0] demo_a_valid (by decide)
      ⟨by decide, by decide⟩ demo_a_not_stored_b).2 55 4 4 none demo_fresh 56 demo_pairs
      [101] [5, 0, 0, 0] (by decide) demo_fresh_make rfl (by decide) demo_pairs_keys
      (by decide) (by decide) ⟨by decide, by decide⟩⟩

theorem insert_distinct_size_witness :
    ∃ h1, insert_all 56 demo_fresh demo_pairs = some (List.replicate demo_pairs.length OK, h1) ∧
      HashMap_size 56 h1 = demo_pairs.length ∧ HashMap_maxsize 56 h1 = 4 ∧
      HashMap_size 56 h1 ≤ HashMap_maxsize 56 h1 :=
  insert_distinct_size 55 4 4 none demo_fresh 56 demo_pairs (by decide) demo_fresh_make
    (by decide) (by decide) demo_pairs_keys

end HashMapC

namespace HashMapC

/-! ## C6: no key is held twice -/

/-- C6. In every table reached from `HashMap_make` by any sequence of
`HashMap_insert`, `HashMap_erase` and `HashMap_clear` calls, whatever they
return and whatever the hash function, no two distinct slots hold the same
non-empty key. -/
theorem reachable_no_duplicates (n : Int) (h : HashMapHandle) (hr : Reachable n h) :
    NoDuplicates h :=
  (reachable_inv n h hr).2.1

theorem reachable_no_duplicates_witness : Reachable 56 demo_a ∧ NoDuplicates demo_a :=
  ⟨demo_a_reachable, reachable_no_duplicates 56 demo_a demo_a_reachable⟩

/-! ## The forward scan of the iterator -/

theorem scan_occupied_spec (h : HashMapHandle) :
    ∀ (f i : Nat),
      ((scan_occupied h f i).1 = true ∧ i ≤ (scan_occupied h f i).2 ∧
        (scan_occupied h f i).2 < i + f ∧ key_at h (scan_occupied h f i).2 ≠ INIT_KEY ∧
        ∀ t, i ≤ t → t < (scan_occupied h f i).2 → key_at h t = INIT_KEY) ∨
      ((scan_occupied h f i).1 = false ∧ (scan_occupied h f i).2 = i + f ∧
        ∀ t, i ≤ t → t < i + f → key_at h t = INIT_KEY) := by
  intro f
  induction f with
  | zero =>
    intro i
    right
    exact ⟨rfl, rfl, fun t h1 h2 => by omega⟩
  | succ f ih =>
    intro i
    unfold scan_occupied
    by_cases hk : key_at h i ≠ INIT_KEY
    · left
      rw [if_pos hk]
      exact ⟨rfl, le_refl _, by simp, hk, fun t h1 h2 => by simp at h2; omega⟩
    · rw [if_neg hk]
      have hk' : key_at h i = INIT_KEY := by simpa using hk
      rcases ih (i + 1) with ⟨a1, a2, a3, a4, a5⟩ | ⟨b1, b2, b3⟩
      · left
        refine ⟨a1, by omega, by omega, a4, ?_⟩
        intro t h1 h2
        by_cases hti : t = i
        · rw [hti]; exact hk'
        · exact a5 t (by omega) h2
      · right
        refine ⟨b1, by omega, ?_⟩
        intro t h1 h2
        by_cases hti : t = i
        · rw [hti]; exact hk'
        · exact b3 t (by omega) (by omega)

theorem occupied_from_nil (h : HashMapHandle) :
    ∀ (f i : Nat), (∀ t, i ≤ t → t < i + f → key_at h t = INIT_KEY) →
      occupied_from h f i = [] := by
  intro f i hall
  unfold occupied_from
  rw [List.filter_eq_nil_iff]
  intro t ht
  rw [List.mem_range'_1] at ht
  simp [hall t ht.1 ht.2]

theorem occupied_from_cons (h : HashMapHandle) :
    ∀ (f i j : Nat), i ≤ j → j < i + f → key_at h j ≠ INIT_KEY →
      (∀ t, i ≤ t → t < j → key_at h t = INIT_KEY) →
      occupied_from h f i = j :: occupied_from h (i + f - (j + 1)) (j + 1) := by
  intro f
  induction f with
  | zero => intro i j h1 h2; omega
  | succ f ih =>
    intro i j h1 h2 hocc hfirst
    by_cases hij : j = i
    · subst hij
      unfold occupied_from
      rw [List.range'_succ, List.filter_cons_of_pos (by simpa using hocc)]
      rw [show j + (f + 1) - (j + 1) = f by omega]
    · have hempty := hfirst i (le_refl _) (by omega)
      have step : occupied_from h (f + 1) i = occupied_from h f (i + 1) := by
        unfold occupied_from
        rw [List.range'_succ, List.filter_cons_of_neg (by simp [hempty])]
      rw [step, ih (i + 1) j (by omega) (by omega) hocc (fun t a b => hfirst t (by omega) b)]
      rw [show i + 1 + f - (j + 1) = i + (f + 1) - (j + 1) by omega]

end HashMapC

namespace HashMapC

theorem hasNext_eq (n : Int) (g : HashMapHandle) (hv : Valid n g) :
    HashMap_hasNext n g =
      (if g.tblsz > g.iterator_pos then
        (scan_occupied g (g.tblsz - g.iterator_pos) g.iterator_pos).1 else false) := by
  unfold HashMap_hasNext
  rw [if_neg (map_is_init_ne_false n g hv)]

theorem next_eq (n : Int) (g : HashMapHandle) (hv : Valid n g)
    (hp : g.tblsz > g.iterator_pos) :
    HashMap_next n g =
      (if (scan_occupied g (g.tblsz - g.iterator_pos) g.iterator_pos).1
        then VoidPtr.container (scan_occupied g (g.tblsz - g.iterator_pos) g.iterator_pos).2
        else VoidPtr.NULL,
       { g with iterator_pos :=
          (scan_occupied g (g.tblsz - g.iterator_pos) g.iterator_pos).2 + 1 }) := by
  unfold HashMap_next
  rw [if_neg (map_is_init_ne_false n g hv), if_pos hp]

theorem valid_cursor (n : Int) (g : HashMapHandle) (p : Nat) (hv : Valid n g) :
    Valid n { g with iterator_pos := p } := by
  obtain ⟨hinit, hw⟩ := hv
  refine ⟨?_, hw⟩
  rw [map_is_init_iff] at hinit ⊢
  exact hinit

/-- The loop `while (hasNext) next` from a cursor at most `tblsz`: it makes one
call of `HashMap_next` per occupied slot at or after the cursor, in increasing
order of the slots, and stops. -/
theorem drain_spec (n : Int) :
    ∀ (fuel : Nat) (g : HashMapHandle), Valid n g → g.iterator_pos ≤ g.tblsz →
      (occupied_from g (g.tblsz - g.iterator_pos) g.iterator_pos).length ≤ fuel →
      ∃ g', drain n fuel g =
          some ((occupied_from g (g.tblsz - g.iterator_pos) g.iterator_pos).map
            VoidPtr.container, g') ∧
        g'.hash_table = g.hash_table ∧ g'.tblsz = g.tblsz ∧
        HashMap_hasNext n g' = false := by
  intro fuel
  induction fuel with
  | zero =>
    intro g hv hp hlen
    rcases scan_occupied_spec g (g.tblsz - g.iterator_pos) g.iterator_pos with
      ⟨_, a2, a3, a4, a5⟩ | ⟨b1, _, b3⟩
    · rw [occupied_from_cons g _ _ _ a2 a3 a4 a5] at hlen
      simp at hlen
    · have hno : HashMap_hasNext n g = false := by
        rw [hasNext_eq n g hv]; split
        · exact b1
        · rfl
      refine ⟨g, ?_, rfl, rfl, hno⟩
      rw [occupied_from_nil g _ _ b3]
      simp [drain, hno]
  | succ fuel ih =>
    intro g hv hp hlen
    rcases scan_occupied_spec g (g.tblsz - g.iterator_pos) g.iterator_pos with
      ⟨a1, a2, a3, a4, a5⟩ | ⟨b1, _, b3⟩
    · have hlt : g.tblsz > g.iterator_pos := by omega
      have hyes : HashMap_hasNext n g = true := by
        rw [hasNext_eq n g hv, if_pos hlt]; exact a1
      have hnext := next_eq n g hv hlt
      rw [a1] at hnext
      simp only [if_true] at hnext
      rw [occupied_from_cons g _ _ _ a2 a3 a4 a5] at hlen ⊢
      simp only [List.length_cons] at hlen
      have hv2 := valid_cursor n g
        ((scan_occupied g (g.tblsz - g.iterator_pos) g.iterator_pos).2 + 1) hv
      have hsame : g.iterator_pos + (g.tblsz - g.iterator_pos) -
          ((scan_occupied g (g.tblsz - g.iterator_pos) g.iterator_pos).2 + 1)
          = g.tblsz - ((scan_occupied g (g.tblsz - g.iterator_pos) g.iterator_pos).2 + 1) := by
        omega
      rw [hsame] at hlen ⊢
      obtain ⟨g', hdrain, hg1, hg2, hg3⟩ := ih _ hv2 (by simp only; omega)
        (Nat.le_of_succ_le_succ hlen)
      refine ⟨g', ?_, hg1, hg2, hg3⟩
      unfold drain
      rw [if_pos hyes, hnext]
      simp only
      rw [hdrain]
      rfl
    · have hno : HashMap_hasNext n g = false := by
        rw [hasNext_eq n g hv]; split
        · exact b1
        · rfl
      refine ⟨g, ?_, rfl, rfl, hno⟩
      rw [occupied_from_nil g _ _ b3]
      simp [drain, hno]

end HashMapC

namespace HashMapC

theorem size_upto_eq_length (h : HashMapHandle) (n : Nat) :
    size_upto h n = ((occupied_from h n 0).length : Int) := by
  induction n with
  | zero => rfl
  | succ n ih =>
    unfold size_upto occupied_from
    rw [List.range'_1_concat, List.filter_append, List.length_append, Nat.zero_add]
    unfold occupied_from at ih
    by_cases hk : key_at h n ≠ INIT_KEY
    · rw [if_pos hk, List.filter_cons_of_pos (by simpa using hk), ih]
      simp
    · rw [if_neg hk, List.filter_cons_of_neg (by simpa using hk), ih]
      simp

theorem mem_occupied_slots (h : HashMapHandle) (i : Nat) :
    i ∈ occupied_slots h ↔ i < h.tblsz ∧ key_at h i ≠ INIT_KEY := by
  unfold occupied_slots occupied_from
  rw [List.mem_filter, List.mem_range'_1]
  simp

theorem occupied_slots_increasing (h : HashMapHandle) :
    List.Pairwise (fun a b => a < b) (occupied_slots h) := by
  unfold occupied_slots occupied_from
  exact List.Pairwise.filter _ (List.pairwise_lt_range' 0 h.tblsz)

/-! ## C7: one full iteration -/

/-- C7. On every valid table, `HashMap_begin` followed by `HashMap_next` as long
as `HashMap_hasNext` is true (nothing else in between) makes exactly
`HashMap_size()` calls of `HashMap_next` and then stops, whatever bound at
least `HashMap_size()` is put on the number of calls; the k-th call returns the
value buffer of the k-th occupied slot in increasing slot order, so the slots
visited are exactly the occupied ones, each once; the slots are left as they were. -/
theorem iterate_visits_occupied (n : Int) (h : HashMapHandle) (fuel : Nat)
    (hv : Valid n h) (hfuel : HashMap_size n h ≤ fuel) :
    ∃ h', iterate n fuel h = some ((occupied_slots h).map VoidPtr.container, h') ∧
      (((occupied_slots h).map VoidPtr.container).length : Int) = HashMap_size n h ∧
      (∀ i, i ∈ occupied_slots h ↔ i < h.tblsz ∧ Occupied h i) ∧
      List.Pairwise (fun a b => a < b) (occupied_slots h) ∧
      h'.hash_table = h.hash_table ∧ HashMap_hasNext n h' = false := by
  have hsize : HashMap_size n h = ((occupied_slots h).length : Int) := by
    rw [size_eq n h hv, size_upto_eq_length]; rfl
  have hbegin : HashMap_begin n h = { h with iterator_pos := 0 } := by
    unfold HashMap_begin
    rw [if_neg (map_is_init_ne_false n h hv)]
  have hv0 := valid_cursor n h 0 hv
  obtain ⟨h', hdrain, hg1, _, hg3⟩ := drain_spec n fuel { h with iterator_pos := 0 } hv0
    (Nat.zero_le _) (by
      have : (occupied_slots h).length ≤ fuel := by rw [hsize] at hfuel; exact_mod_cast hfuel
      exact this)
  refine ⟨h', ?_, ?_, mem_occupied_slots h, occupied_slots_increasing h, hg1, hg3⟩
  · unfold iterate
    rw [hbegin, hdrain]
    rfl
  · rw [hsize, List.length_map]

theorem demo_ab_valid : Valid 56 demo_ab := ⟨rfl, by decide, rfl⟩

theorem iterate_visits_occupied_witness :
    ∃ h', iterate 56 2 demo_ab =
        some ((occupied_slots demo_ab).map VoidPtr.container, h') ∧
      (((occupied_slots demo_ab).map VoidPtr.container).length : Int)
        = HashMap_size 56 demo_ab ∧
      (∀ i, i ∈ occupied_slots demo_ab ↔ i < demo_ab.tblsz ∧ Occupied demo_ab i) ∧
      List.Pairwise (fun a b => a < b) (occupied_slots demo_ab) ∧
      h'.hash_table = demo_ab.hash_table ∧ HashMap_hasNext 56 h' = false :=
  iterate_visits_occupied 56 demo_ab 2 demo_ab_valid (by decide)

end HashMapC

namespace HashMapC

/-! ## C8: the range of the cursor -/

theorem wellFormed_set (h h' : HashMapHandle) (idx : Nat) (x : HashData)
    (hw : WellFormed h) (ht : h' = { h with hash_table := (h.hash_table.set idx x) }) :
    WellFormed h' ∧ h'.iterator_pos = h.iterator_pos ∧ h'.tblsz = h.tblsz := by
  obtain ⟨hc, hlen⟩ := hw
  refine ⟨⟨?_, ?_⟩, ?_, ?_⟩
  · rw [ht]; exact hc
  · rw [ht]; simp only [List.length_set]; exact hlen
  · rw [ht]
  · rw [ht]

theorem next_cursor_le (n : Int) (h : HashMapHandle)
    (hp : h.iterator_pos ≤ h.tblsz + 1) :
    (HashMap_next n h).2.iterator_pos ≤ (HashMap_next n h).2.tblsz + 1 ∧
    (HashMap_next n h).2.tblsz = h.tblsz ∧
    (HashMap_next n h).2.hash_table = h.hash_table := by
  unfold HashMap_next
  by_cases hinit : map_is_init n h = false
  · rw [if_pos hinit]; exact ⟨hp, rfl, rfl⟩
  · rw [if_neg hinit]
    by_cases hlt : h.tblsz > h.iterator_pos
    · rw [if_pos hlt]
      refine ⟨?_, rfl, rfl⟩
      simp only
      rcases scan_occupied_spec h (h.tblsz - h.iterator_pos) h.iterator_pos with
        ⟨_, _, a3, _, _⟩ | ⟨_, b2, _⟩ <;> omega
    · rw [if_neg hlt]; exact ⟨hp, rfl, rfl⟩

/-- The cursor of a table reached by the public operations never exceeds `tblsz + 1`. -/
theorem reachableIter_inv (n : Int) (h : HashMapHandle) (hr : ReachableIter n h) :
    WellFormed h ∧ h.iterator_pos ≤ h.tblsz + 1 := by
  induction hr with
  | make n cellsz tblsz hash_fook h n' hn hx =>
    refine ⟨(inv_make n cellsz tblsz hash_fook h n' hn hx).1.2, ?_⟩
    rw [(fresh_facts n cellsz tblsz hash_fook h n' hx).2.2.1]
    omega
  | other_make n h cellsz tblsz hash_fook r n' _ _ ih => exact ih
  | insert n h key data ret h' _ hx ih =>
    rcases insert_cases n h key data ret h' ih.1 hx with
      ⟨_, rfl⟩ | ⟨_, _, _, _, _, _, _, d, _, _, _, ht⟩
    · exact ih
    · obtain ⟨a, b, c⟩ := wellFormed_set h h' _ _ ih.1 ht
      exact ⟨a, by rw [b, c]; exact ih.2⟩
  | erase n h key ret h' _ hx ih =>
    rcases erase_cases n h key ret h' ih.1 hx with ⟨_, rfl⟩ | ⟨_, _, i, _, _, ht⟩
    · exact ih
    · obtain ⟨a, b, c⟩ := wellFormed_set h h' _ _ ih.1 ht
      exact ⟨a, by rw [b, c]; exact ih.2⟩
  | clear n h ret h' _ hx ih =>
    have heq : h' = (HashMap_clear n h).2 := by rw [hx]
    rw [heq]
    unfold HashMap_clear
    by_cases hinit : map_is_init n h = false
    · rw [if_pos hinit]; exact ih
    · rw [if_neg hinit]
      refine ⟨⟨ih.1.1, ?_⟩, ih.2⟩
      simp only [clear_upto_length]; exact ih.1.2
  | begin n h _ ih =>
    unfold HashMap_begin
    by_cases hinit : map_is_init n h = false
    · rw [if_pos hinit]; exact ih
    · rw [if_neg hinit]
      exact ⟨ih.1, Nat.zero_le _⟩
  | next n h p h' _ hx ih =>
    have heq : h' = (HashMap_next n h).2 := by rw [hx]
    obtain ⟨a, b, c⟩ := next_cursor_le n h ih.2
    rw [heq]
    exact ⟨⟨by rw [b]; exact ih.1.1, by rw [b, c]; exact ih.1.2⟩, a⟩

/-- C8, as the claim states it, fails: on the fresh table of 4 slots made by
`HashMap_make(4, 4, NULL)` a single `HashMap_next` finds no occupied slot,
leaves its loop with `i = tblsz` and stores `i + 1 = 5` in the cursor, which
exceeds the capacity 4. -/
theorem cursor_exceeds_capacity :
    ReachableIter 56 (HashMap_next 56 demo_fresh).2 ∧
    (HashMap_next 56 demo_fresh).2.iterator_pos = 5 ∧
    (HashMap_next 56 demo_fresh).2.tblsz = 4 ∧
    ¬ (∀ n h, ReachableIter n h → h.iterator_pos ≤ h.tblsz) := by
  have hreach : ReachableIter 56 (HashMap_next 56 demo_fresh).2 :=
    ReachableIter.next 56 demo_fresh (HashMap_next 56 demo_fresh).1 _
      (ReachableIter.make 55 4 4 none demo_fresh 56 (by decide) demo_fresh_make) rfl
  refine ⟨hreach, rfl, rfl, ?_⟩
  intro hall
  have := hall 56 _ hreach
  revert this
  decide

/-- C8, amended. In every table reached from `HashMap_make` by any sequence of
public operations (insert, erase, clear, begin, hasNext, next, with any
outcome), the cursor satisfies `0 <= iterator_pos <= tblsz + 1`. -/
theorem cursor_range (n : Int) (h : HashMapHandle) (hr : ReachableIter n h) :
    (0 : Int) ≤ (h.iterator_pos : Int) ∧ (h.iterator_pos : Int) ≤ (h.tblsz : Int) + 1 := by
  have := (reachableIter_inv n h hr).2
  exact ⟨Int.natCast_nonneg _, by exact_mod_cast this⟩

theorem cursor_range_witness :
    ReachableIter 56 (HashMap_next 56 demo_fresh).2 ∧
    (0 : Int) ≤ ((HashMap_next 56 demo_fresh).2.iterator_pos : Int) ∧
    ((HashMap_next 56 demo_fresh).2.iterator_pos : Int)
      ≤ ((HashMap_next 56 demo_fresh).2.tblsz : Int) + 1 :=
  ⟨ReachableIter.next 56 demo_fresh (HashMap_next 56 demo_fresh).1 _
      (ReachableIter.make 55 4 4 none demo_fresh 56 (by decide) demo_fresh_make) rfl,
    cursor_range 56 _
      (ReachableIter.next 56 demo_fresh (HashMap_next 56 demo_fresh).1 _
        (ReachableIter.make 55 4 4 none demo_fresh 56 (by decide) demo_fresh_make) rfl)⟩

end HashMapC

namespace HashMapC

/-! ## C9: `HashMap_optimum` and keys with distinct hash indices -/

/-- A key sitting in the slot of its hash index is found without a miss. -/
theorem map_find_home (h : HashMapHandle) (i : Nat) (hw : WellFormed h) (hi : i < h.tblsz)
    (hhome : h.hash (key_at h i) h.tblsz = (i : Int)) :
    ∃ ret, map_find h (key_at h i) (h.hash (key_at h i) h.tblsz) 0 = some (ret, 0) := by
  rw [hhome]
  rcases map_find_spec h (key_at h i) (i : Int) 0 hw (by omega) (by omega) with
    ⟨hall, _⟩ | ⟨d, _, _, hfirst, hres⟩
  · exact absurd rfl (hall i hi)
  · have hd : d = 0 := by
      by_contra hne
      have := hfirst 0 (by omega)
      rw [Int.toNat_ofNat, circ_zero _ _ hi] at this
      exact this rfl
    subst hd
    exact ⟨_, hres⟩

theorem optimum_upto_home (h : HashMapHandle) (hw : WellFormed h) (hhome : AllHome h) :
    ∀ m, m ≤ h.tblsz → optimum_upto h m = some 0 := by
  intro m
  induction m with
  | zero => intro _; rfl
  | succ m ih =>
    intro hm
    unfold optimum_upto
    rw [ih (by omega)]
    simp only
    by_cases hk : key_at h m = INIT_KEY
    · rw [if_pos hk]
    · rw [if_neg hk]
      obtain ⟨ret, hres⟩ := map_find_home h m hw (by omega) (hhome m (by omega) hk)
      rw [hres]
      simp [INT_MAX]

theorem optimum_zero_of_home (n : Int) (h : HashMapHandle) (hv : Valid n h)
    (hhome : AllHome h) : HashMap_optimum n h = some 0 := by
  unfold HashMap_optimum
  rw [if_neg (map_is_init_ne_false n h hv)]
  exact optimum_upto_home h hv.2 hhome h.tblsz (le_refl _)

/-- An insert keeps "distinct hash indices imply every key in its home slot". -/
theorem home_insert (n : Int) (h : HashMapHandle) (key : Key) (data : List Nat) (ret : Int)
    (h' : HashMapHandle) (hw : WellFormed h)
    (hx : HashMap_insert n h key data = some (ret, h'))
    (hih : DistinctHashes h → AllHome h) : DistinctHashes h' → AllHome h' := by
  rcases insert_cases n h key data ret h' hw hx with
    ⟨_, rfl⟩ | ⟨_, _, hk, _, _, hr, _, d, _, hke, hfirst, ht⟩
  · exact hih
  intro hdist
  have hc := hw.1
  have hs : (h.hash key h.tblsz).toNat < h.tblsz := by
    have := hr.1; have := hr.2; omega
  have hscast : ((h.hash key h.tblsz).toNat : Int) = h.hash key h.tblsz :=
    Int.toNat_of_nonneg hr.1
  have hidx : circ h.tblsz (h.hash key h.tblsz).toNat d < h.tblsz := circ_lt _ _ _ hc
  have htbl : h'.hash_table = h.hash_table.set (circ h.tblsz (h.hash key h.tblsz).toNat d)
      ⟨key, data.take h.cellsz ++
        (container_at h (circ h.tblsz (h.hash key h.tblsz).toNat d)).drop h.cellsz⟩ := by
    rw [ht]
  have hsz : h'.tblsz = h.tblsz := by rw [ht]
  have hhash : h'.hash = h.hash := by rw [ht]
  have hself : key_at h' (circ h.tblsz (h.hash key h.tblsz).toNat d) = key :=
    key_at_set_self h h' _ _ htbl (by rw [hw.2]; exact hidx)
  have hother : ∀ i, i ≠ circ h.tblsz (h.hash key h.tblsz).toNat d →
      key_at h' i = key_at h i := fun i hi => key_at_set_other h h' _ i _ htbl hi
  have hocc_ne : ∀ i, key_at h i ≠ INIT_KEY →
      i ≠ circ h.tblsz (h.hash key h.tblsz).toNat d := by
    intro i hi heq
    rw [heq] at hi
    exact hi hke
  have hdist_old : DistinctHashes h := by
    intro i hi j hj hki hkj heq
    apply hdist i (by rw [hsz]; exact hi) j (by rw [hsz]; exact hj)
    · rw [hother i (hocc_ne i hki)]; exact hki
    · rw [hother j (hocc_ne j hkj)]; exact hkj
    · rw [hother i (hocc_ne i hki), hother j (hocc_ne j hkj), hhash, hsz]; exact heq
  have hhome := hih hdist_old
  have hd0 : d = 0 := by
    by_contra hne
    have hocc := hfirst 0 (by omega)
    rw [circ_zero _ _ hs] at hocc
    have hne_idx := hocc_ne _ hocc
    have hh := hhome _ hs hocc
    have := hdist (h.hash key h.tblsz).toNat (by rw [hsz]; exact hs)
      (circ h.tblsz (h.hash key h.tblsz).toNat d) (by rw [hsz]; exact hidx)
      (by rw [hother _ hne_idx]; exact hocc) (by rw [hself]; exact hk)
      (by rw [hother _ hne_idx, hself, hhash, hsz, hh, hscast])
    exact hne_idx this
  subst hd0
  rw [circ_zero _ _ hs] at hself hother
  intro i hi hki
  rw [hsz] at hi
  rw [hhash, hsz]
  by_cases hieq : i = (h.hash key h.tblsz).toNat
  · rw [hieq, hself, hscast]
  · rw [hother i hieq] at hki ⊢
    exact hhome i hi hki

/-- Without erase, keys with pairwise distinct hash indices all sit in their home slot. -/
theorem reachableNoErase_inv (n : Int) (h : HashMapHandle) (hr : ReachableNoErase n h) :
    Inv n h ∧ (DistinctHashes h → AllHome h) := by
  induction hr with
  | make n cellsz tblsz hash_fook h n' hn hx =>
    refine ⟨inv_make n cellsz tblsz hash_fook h n' hn hx, ?_⟩
    intro _ i _ hki
    exact absurd ((fresh_facts n cellsz tblsz hash_fook h n' hx).2.2.2.1 i) hki
  | other_make n h cellsz tblsz hash_fook r n' _ hx ih =>
    exact ⟨inv_other_make n h cellsz tblsz hash_fook r n' ih.1 hx, ih.2⟩
  | insert n h key data ret h' _ hx ih =>
    exact ⟨inv_insert n h key data ret h' ih.1 hx,
      home_insert n h key data ret h' ih.1.1.2 hx ih.2⟩
  | clear n h ret h' _ hx ih =>
    have heq : h' = (HashMap_clear n h).2 := by rw [hx]
    rw [heq]
    refine ⟨inv_clear n h ih.1, ?_⟩
    intro _ i _ hki
    exact absurd (key_at_clear n h ih.1.1 i) hki

end HashMapC

namespace HashMapC

theorem demo_a_insert_b :
    HashMap_insert 56 demo_a [98] [2, 0, 0, 0] = some (OK, demo_ab) := rfl

theorem demo_ab_erase_a : HashMap_erase 56 demo_ab [97] = some (OK, demo_b) := rfl

theorem demo_b_reachable : Reachable 56 demo_b :=
  Reachable.erase 56 demo_ab [97] OK demo_b
    (Reachable.insert 56 demo_a [98] [2, 0, 0, 0] OK demo_ab demo_a_reachable demo_a_insert_b)
    demo_ab_erase_a

/-- C9, as the claim states it, fails: with the default hash function and 4
slots, insert "a" (hash index 1, slot 1), insert "b" (hash index 1, slot 2),
erase "a".  The one key left has no other key to collide with, yet it sits one
slot past its hash index, `map_find` counts one miss (the emptied slot 1) and
`HashMap_optimum` returns 1. -/
theorem optimum_nonzero_after_erase :
    Reachable 56 demo_b ∧ demo_b.hash = hash_func_default ∧ DistinctHashes demo_b ∧
    HashMap_optimum 56 demo_b = some 1 ∧
    ¬ (∀ n h, Reachable n h → h.hash = hash_func_default → DistinctHashes h →
        HashMap_optimum n h = some 0) := by
  have hd : DistinctHashes demo_b := by decide
  refine ⟨demo_b_reachable, rfl, hd, rfl, ?_⟩
  intro hall
  have := hall 56 demo_b demo_b_reachable rfl hd
  revert this
  decide

/-- C9, amended. For every table reached from `HashMap_make` (with the default
or a supplied hash function) by any sequence of insert and clear calls, with no
erase: if the hash indices of the keys of the occupied slots are pairwise
distinct, then `HashMap_optimum` returns 0. -/
theorem optimum_zero_without_erase (n : Int) (h : HashMapHandle)
    (hr : ReachableNoErase n h) (hd : DistinctHashes h) : HashMap_optimum n h = some 0 := by
  obtain ⟨hinv, hhome⟩ := reachableNoErase_inv n h hr
  exact optimum_zero_of_home n h hinv.1 (hhome hd)

theorem optimum_zero_without_erase_witness :
    ReachableNoErase 56 demo_a ∧ DistinctHashes demo_a ∧ HashMap_optimum 56 demo_a = some 0 :=
  ⟨ReachableNoErase.insert 56 demo_fresh [97] [1, 0, 0, 0] OK demo_a
      (ReachableNoErase.make 55 4 4 none demo_fresh 56 (by decide) demo_fresh_make)
      demo_fresh_insert_a,
    by decide,
    optimum_zero_without_erase 56 demo_a
      (ReachableNoErase.insert 56 demo_fresh [97] [1, 0, 0, 0] OK demo_a
        (ReachableNoErase.make 55 4 4 none demo_fresh 56 (by decide) demo_fresh_make)
        demo_fresh_insert_a)
      (by decide)⟩

end HashMapC

namespace HashMapC

/-! ## C10: what `map_find` returns -/

/-- C10. For every table of `tblsz > 0` slots, every target key (the empty
sentinel included), every start index in `[0, tblsz)` and every initial value
of the miss counter: `map_find` returns a result, having examined at most
`tblsz` slots (the misses, plus the hit if any), and giving the loop a larger
bound on its iterations changes nothing; the result is not-found
(`INVALID_CORD`) exactly when no slot holds the key; otherwise it is the first
index in the circular order `index, index+1, ..., tblsz-1, 0, ..., index-1`
whose slot holds the key, every slot before it in that order being a miss. -/
theorem map_find_first_match (h : HashMapHandle) (key : Key) (index : Int) (m : Nat)
    (hw : WellFormed h) (h0 : 0 ≤ index) (h1 : index < h.tblsz) :
    ∃ ret miss, map_find h key index m = some (ret, miss) ∧
      (∀ extra, map_find_loop h.hash_table h.tblsz key
          (if index = 0 then h.tblsz - 1 else index.toNat - 1) (h.tblsz + extra)
          index.toNat m = some (ret, miss)) ∧
      (miss - m) + (if ret = INVALID_CORD then 0 else 1) ≤ h.tblsz ∧
      (ret = INVALID_CORD ↔ ¬ Stored h key) ∧
      (ret ≠ INVALID_CORD →
        ∃ d, d < h.tblsz ∧ ret = ((circ h.tblsz index.toNat d : Nat) : Int) ∧ miss = m + d ∧
          key_at h (circ h.tblsz index.toNat d) = key ∧
          ∀ d', d' < d → key_at h (circ h.tblsz index.toNat d') ≠ key) := by
  have hfuel : ∀ ret miss, map_find h key index m = some (ret, miss) →
      ∀ extra, map_find_loop h.hash_table h.tblsz key
          (if index = 0 then h.tblsz - 1 else index.toNat - 1) (h.tblsz + extra)
          index.toNat m = some (ret, miss) := by
    intro ret miss hres extra
    unfold map_find at hres
    rw [if_neg (by omega)] at hres
    exact map_find_loop_fuel _ _ _ _ _ _ _ _ hres extra
  rcases map_find_spec h key index m hw h0 h1 with ⟨hall, hres⟩ | ⟨d, hd, hk, hfirst, hres⟩
  · refine ⟨_, _, hres, hfuel _ _ hres, ?_, ?_, ?_⟩
    · simp
    · constructor
      · rintro _ ⟨i, hi, hki⟩
        exact hall i hi hki
      · intro _; rfl
    · intro hne; exact absurd rfl hne
  · have hne : ((circ h.tblsz index.toNat d : Nat) : Int) ≠ INVALID_CORD := by
      unfold INVALID_CORD; omega
    refine ⟨_, _, hres, hfuel _ _ hres, ?_, ?_, ?_⟩
    · rw [if_neg hne]; omega
    · constructor
      · intro heq; exact absurd heq hne
      · intro hns
        exact absurd ⟨_, circ_lt _ _ _ hw.1, hk⟩ hns
    · intro _
      exact ⟨d, hd, rfl, rfl, hk, hfirst⟩

theorem demo_ab_wellFormed : WellFormed demo_ab := ⟨by decide, rfl⟩

theorem map_find_first_match_witness :
    ∃ ret miss, map_find demo_ab [98] 3 0 = some (ret, miss) ∧
      (∀ extra, map_find_loop demo_ab.hash_table demo_ab.tblsz [98]
          (if (3 : Int) = 0 then demo_ab.tblsz - 1 else (3 : Int).toNat - 1)
          (demo_ab.tblsz + extra) (3 : Int).toNat 0 = some (ret, miss)) ∧
      (miss - 0) + (if ret = INVALID_CORD then 0 else 1) ≤ demo_ab.tblsz ∧
      (ret = INVALID_CORD ↔ ¬ Stored demo_ab [98]) ∧
      (ret ≠ INVALID_CORD →
        ∃ d, d < demo_ab.tblsz ∧
          ret = ((circ demo_ab.tblsz (3 : Int).toNat d : Nat) : Int) ∧ miss = 0 + d ∧
          key_at demo_ab (circ demo_ab.tblsz (3 : Int).toNat d) = [98] ∧
          ∀ d', d' < d → key_at demo_ab (circ demo_ab.tblsz (3 : Int).toNat d') ≠ [98]) :=
  map_find_first_match demo_ab [98] 3 0 demo_ab_wellFormed (by decide) (by decide)

end HashMapC

namespace HashMapC

/-! ## C11: the scenario with four slots -/

/-- C11. With the default hash function, 4 slots and 4-byte values: "a" and "b"
both hash to index 1; inserting "a" -> 1 and "b" -> 2 returns `OK` twice, "a"
in slot 1 and "b" in the next slot 2; `HashMap_get` yields the buffers holding
1 and 2; `HashMap_erase("a")` returns `OK`, after which `HashMap_get("a")` is
`NULL` and `HashMap_size` is 1; inserting "c", "d", "e" returns `OK` each and
`HashMap_size` is 4; the insert of "f" then returns `NG` and changes nothing. -/
theorem scenario_four_slots :
    hash_func_default [97] 4 = 1 ∧ hash_func_default [98] 4 = 1 ∧
    HashMap_make 55 4 4 none = (some demo_fresh, 56) ∧
    HashMap_insert 56 demo_fresh [97] [1, 0, 0, 0] = some (OK, demo_a) ∧
    HashMap_insert 56 demo_a [98] [2, 0, 0, 0] = some (OK, demo_ab) ∧
    key_at demo_ab 1 = [97] ∧ key_at demo_ab 2 = [98] ∧
    HashMap_get 56 demo_ab [97] = some (VoidPtr.container 1) ∧
    deref demo_ab (VoidPtr.container 1) = some [1, 0, 0, 0] ∧
    HashMap_get 56 demo_ab [98] = some (VoidPtr.container 2) ∧
    deref demo_ab (VoidPtr.container 2) = some [2, 0, 0, 0] ∧
    HashMap_erase 56 demo_ab [97] = some (OK, demo_b) ∧
    HashMap_get 56 demo_b [97] = some VoidPtr.NULL ∧
    HashMap_size 56 demo_b = 1 ∧
    HashMap_insert 56 demo_b [99] [3, 0, 0, 0] = some (OK, demo_bc) ∧
    HashMap_insert 56 demo_bc [100] [4, 0, 0, 0] = some (OK, demo_bcd) ∧
    HashMap_insert 56 demo_bcd [101] [5, 0, 0, 0] = some (OK, demo_bcde) ∧
    HashMap_size 56 demo_bcde = 4 ∧
    HashMap_insert 56 demo_bcde [102] [6, 0, 0, 0] = some (NG, demo_bcde) := by
  refine ⟨by decide, by decide, rfl, rfl, rfl, rfl, rfl, rfl, rfl, rfl, rfl, rfl, rfl, rfl,
    rfl, rfl, rfl, rfl, rfl⟩

end HashMapC

namespace HashMapC

/-! ## Tables whose slots are all empty -/

theorem scan_occupied_all_empty (h : HashMapHandle) (f i : Nat)
    (hall : ∀ t, i ≤ t → t < i + f → key_at h t = INIT_KEY) :
    (scan_occupied h f i).1 = false := by
  rcases scan_occupied_spec h f i with ⟨_, a2, a3, a4, _⟩ | ⟨b1, _, _⟩
  · exact absurd (hall _ a2 a3) a4
  · exact b1

/-- What the queries return on a valid table with no occupied slot. -/
theorem all_empty_queries (n : Int) (h : HashMapHandle) (hv : Valid n h)
    (hall : ∀ i, i < h.tblsz → key_at h i = INIT_KEY) :
    HashMap_size n h = 0 ∧ HashMap_empty n h = true ∧
    (∀ key, key = INIT_KEY ∨ IndexInRange h key → HashMap_get n h key = some VoidPtr.NULL) ∧
    (∀ key p, HashMap_get n h key = some p → p = VoidPtr.NULL) := by
  have hns : ∀ key, key ≠ INIT_KEY → ¬ Stored h key := by
    rintro key hk ⟨i, hi, hki⟩
    rw [hall i hi] at hki
    exact hk hki.symm
  refine ⟨?_, ?_, ?_, ?_⟩
  · rw [size_eq n h hv]
    exact size_upto_all_empty h h.tblsz hall
  · unfold HashMap_empty
    rw [if_neg (map_is_init_ne_false n h hv),
      scan_occupied_all_empty h h.tblsz 0 (fun t _ ht => hall t (by omega))]
    rfl
  · intro key hkey
    by_cases hk : key = INIT_KEY
    · unfold HashMap_get
      rw [if_neg (map_is_init_ne_false n h hv), if_pos hk]
    · rcases hkey with hk' | hr
      · exact absurd hk' hk
      · exact get_not_stored n h key hv hr (hns key hk)
  · intro key p hget
    unfold HashMap_get at hget
    rw [if_neg (map_is_init_ne_false n h hv)] at hget
    by_cases hk : key = INIT_KEY
    · rw [if_pos hk] at hget
      simp only [Option.some.injEq] at hget
      exact hget.symm
    · rw [if_neg hk] at hget
      simp only [] at hget
      cases hf : map_find h key (h.hash key h.tblsz) 0 with
      | none => simp [hf] at hget
      | some r =>
        obtain ⟨index, miss⟩ := r
        simp only [hf] at hget
        have hmiss : index = INVALID_CORD :=
          (map_find_miss_iff h key _ 0 index miss hv.2 hf).2
            (fun i hi hki => hns key hk ⟨i, hi, hki⟩)
        rw [if_pos hmiss] at hget
        simp only [Option.some.injEq] at hget
        exact hget.symm

/-! ## C12: what `HashMap_make` returns -/

/-- C12. `HashMap_make(cellsz, tblsz, hash_fook)` returns `NULL` (and leaves the
handle counter alone) whenever `cellsz <= 0` or `tblsz <= 0`.  Otherwise, the
allocations succeeding and the counter being at least `HANDLE_START_ID`, it
returns a valid table of exactly `tblsz` slots, every key the empty sentinel,
every value buffer of `cellsz` bytes, cursor 0, the supplied hash function or
the default one when none is supplied; on it `HashMap_size` is 0,
`HashMap_empty` is true, `HashMap_maxsize` is `tblsz`, and `HashMap_get`
returns `NULL` for the empty key and every key whose hash index is in range,
and never returns anything but `NULL`. -/
theorem make_result (n : Int) (cellsz : Nat) (tblsz : Int)
    (hash_fook : Option (Key → Int → Int)) :
    ((cellsz ≤ 0 ∨ tblsz ≤ 0) → HashMap_make n cellsz tblsz hash_fook = (none, n)) ∧
    (0 < cellsz → 0 < tblsz → HANDLE_START_ID ≤ n →
      ∃ h, HashMap_make n cellsz tblsz hash_fook = (some h, n + 1) ∧
        Valid (n + 1) h ∧ (h.tblsz : Int) = tblsz ∧
        (h.hash_table.length : Int) = tblsz ∧
        (∀ i, i < h.tblsz → key_at h i = INIT_KEY ∧ (container_at h i).length = cellsz) ∧
        h.iterator_pos = 0 ∧ h.cellsz = cellsz ∧
        h.hash = hash_fook.getD hash_func_default ∧
        HashMap_size (n + 1) h = 0 ∧ HashMap_empty (n + 1) h = true ∧
        HashMap_maxsize (n + 1) h = tblsz ∧
        (∀ key, key = INIT_KEY ∨ IndexInRange h key →
          HashMap_get (n + 1) h key = some VoidPtr.NULL) ∧
        (∀ key p, HashMap_get (n + 1) h key = some p → p = VoidPtr.NULL)) := by
  constructor
  · intro hbad
    unfold HashMap_make
    by_cases h1 : cellsz ≤ 0
    · rw [if_pos h1]
    · rw [if_neg h1]
      rcases hbad with hb | hb
      · exact absurd hb h1
      · rw [if_pos hb]
  · intro hc ht hn
    have hmk : ∃ h, HashMap_make n cellsz tblsz hash_fook = (some h, n + 1) := by
      unfold HashMap_make
      rw [if_neg (by omega), if_neg (by omega)]
      exact ⟨_, rfl⟩
    obtain ⟨h, hmake⟩ := hmk
    have hv : Valid (n + 1) h := (inv_make n cellsz tblsz hash_fook h (n + 1) hn hmake).1
    obtain ⟨hsz, hcell, hpos, hkeys, _⟩ := fresh_facts n cellsz tblsz hash_fook h (n + 1) hmake
    obtain ⟨q1, q2, q3, q4⟩ := all_empty_queries (n + 1) h hv (fun i _ => hkeys i)
    rcases make_cases n cellsz tblsz hash_fook _ (n + 1) hmake with
      ⟨hnone, _⟩ | ⟨_, _, _, hsome⟩
    · exact absurd hnone (by simp)
    simp only [Option.some.injEq] at hsome
    refine ⟨h, hmake, hv, hsz, by rw [hv.2.2]; exact hsz, ?_, hpos, hcell, by rw [hsome],
      q1, q2, by rw [maxsize_eq (n + 1) h hv]; exact hsz, q3, q4⟩
    intro i hi
    refine ⟨hkeys i, ?_⟩
    have hi' : i < tblsz.toNat := by rw [hsome] at hi; exact hi
    rw [hsome]
    simp [container_at, List.getD, List.getElem?_replicate, hi']

end HashMapC

namespace HashMapC

theorem make_result_witness :
    ∃ h, HashMap_make 55 4 4 none = (some h, 55 + 1) ∧
      Valid (55 + 1) h ∧ (h.tblsz : Int) = 4 ∧
      (h.hash_table.length : Int) = 4 ∧
      (∀ i, i < h.tblsz → key_at h i = INIT_KEY ∧ (container_at h i).length = 4) ∧
      h.iterator_pos = 0 ∧ h.cellsz = 4 ∧
      h.hash = (none : Option (Key → Int → Int)).getD hash_func_default ∧
      HashMap_size (55 + 1) h = 0 ∧ HashMap_empty (55 + 1) h = true ∧
      HashMap_maxsize (55 + 1) h = 4 ∧
      (∀ key, key = INIT_KEY ∨ IndexInRange h key →
        HashMap_get (55 + 1) h key = some VoidPtr.NULL) ∧
      (∀ key p, HashMap_get (55 + 1) h key = some p → p = VoidPtr.NULL) :=
  (make_result 55 4 4 none).2 (by decide) (by decide) (by decide)

/-! ## C13: what `HashMap_clear` does -/

theorem container_at_clear (n : Int) (h : HashMapHandle) (hv : Valid n h) (i : Nat) :
    container_at (HashMap_clear n h).2 i = container_at h i := by
  unfold HashMap_clear
  rw [if_neg (map_is_init_ne_false n h hv)]
  simp only [container_at, List.getD, List.get?_eq_getElem?]
  rw [clear_upto_getElem? _ _ (by rw [hv.2.2])]
  by_cases hi : i < h.tblsz
  · rw [if_pos hi]
    cases h.hash_table[i]? <;> simp
  · rw [if_neg hi]

/-- C13. On every valid table `HashMap_clear` returns `OK`; afterwards every
slot's key is the empty sentinel, `HashMap_size` is 0, `HashMap_empty` is true,
`HashMap_get` returns `NULL` for the empty key and every key whose hash index
is in range and never returns anything but `NULL`; the number of slots,
`cellsz`, the hash function, the handle id, the cursor and every slot's value
bytes are unchanged. -/
theorem clear_result (n : Int) (h : HashMapHandle) (hv : Valid n h) :
    (HashMap_clear n h).1 = OK ∧
    (∀ i, key_at (HashMap_clear n h).2 i = INIT_KEY) ∧
    HashMap_size n (HashMap_clear n h).2 = 0 ∧
    HashMap_empty n (HashMap_clear n h).2 = true ∧
    (∀ key, key = INIT_KEY ∨ IndexInRange h key →
      HashMap_get n (HashMap_clear n h).2 key = some VoidPtr.NULL) ∧
    (∀ key p, HashMap_get n (HashMap_clear n h).2 key = some p → p = VoidPtr.NULL) ∧
    (HashMap_clear n h).2.tblsz = h.tblsz ∧
    (HashMap_clear n h).2.hash_table.length = h.hash_table.length ∧
    (HashMap_clear n h).2.cellsz = h.cellsz ∧
    (HashMap_clear n h).2.hash = h.hash ∧
    (HashMap_clear n h).2.hdl_id = h.hdl_id ∧
    (HashMap_clear n h).2.iterator_pos = h.iterator_pos ∧
    (∀ i, container_at (HashMap_clear n h).2 i = container_at h i) := by
  have hv' : Valid n (HashMap_clear n h).2 :=
    (show Valid n (HashMap_clear n h).2 by
      obtain ⟨hinit, hc, hlen⟩ := hv
      have hneg : ¬ (map_is_init n h = false) := by rw [hinit]; simp
      refine ⟨?_, ?_, ?_⟩
      · rw [map_is_init_iff] at hinit ⊢
        unfold HashMap_clear; rw [if_neg hneg]; exact hinit
      · unfold HashMap_clear; rw [if_neg hneg]; exact hc
      · unfold HashMap_clear; rw [if_neg hneg]
        simp only [clear_upto_length]; exact hlen)
  have hkeys := key_at_clear n h hv
  obtain ⟨q1, q2, q3, q4⟩ := all_empty_queries n _ hv' (fun i _ => hkeys i)
  have hneg := map_is_init_ne_false n h hv
  have hfields : (HashMap_clear n h).1 = OK ∧
      (HashMap_clear n h).2.tblsz = h.tblsz ∧
      (HashMap_clear n h).2.hash_table.length = h.hash_table.length ∧
      (HashMap_clear n h).2.cellsz = h.cellsz ∧
      (HashMap_clear n h).2.hash = h.hash ∧
      (HashMap_clear n h).2.hdl_id = h.hdl_id ∧
      (HashMap_clear n h).2.iterator_pos = h.iterator_pos := by
    unfold HashMap_clear
    rw [if_neg hneg]
    exact ⟨rfl, rfl, clear_upto_length _ _, rfl, rfl, rfl, rfl⟩
  obtain ⟨f1, f2, f3, f4, f5, f6, f7⟩ := hfields
  refine ⟨f1, hkeys, q1, q2, ?_, q4, f2, f3, f4, f5, f6, f7, container_at_clear n h hv⟩
  intro key hkey
  apply q3 key
  rcases hkey with hk | hr
  · exact Or.inl hk
  · right
    unfold IndexInRange
    rw [f5, f2]
    exact hr

theorem demo_bcde_valid : Valid 56 demo_bcde := ⟨rfl, by decide, rfl⟩

theorem clear_result_witness :
    (HashMap_clear 56 demo_bcde).1 = OK ∧
    (∀ i, key_at (HashMap_clear 56 demo_bcde).2 i = INIT_KEY) ∧
    HashMap_size 56 (HashMap_clear 56 demo_bcde).2 = 0 ∧
    HashMap_empty 56 (HashMap_clear 56 demo_bcde).2 = true ∧
    (∀ key, key = INIT_KEY ∨ IndexInRange demo_bcde key →
      HashMap_get 56 (HashMap_clear 56 demo_bcde).2 key = some VoidPtr.NULL) ∧
    (∀ key p, HashMap_get 56 (HashMap_clear 56 demo_bcde).2 key = some p →
      p = VoidPtr.NULL) ∧
    (HashMap_clear 56 demo_bcde).2.tblsz = demo_bcde.tblsz ∧
    (HashMap_clear 56 demo_bcde).2.hash_table.length = demo_bcde.hash_table.length ∧
    (HashMap_clear 56 demo_bcde).2.cellsz = demo_bcde.cellsz ∧
    (HashMap_clear 56 demo_bcde).2.hash = demo_bcde.hash ∧
    (HashMap_clear 56 demo_bcde).2.hdl_id = demo_bcde.hdl_id ∧
    (HashMap_clear 56 demo_bcde).2.iterator_pos = demo_bcde.iterator_pos ∧
    (∀ i, container_at (HashMap_clear 56 demo_bcde).2 i = container_at demo_bcde i) :=
  clear_result 56 demo_bcde demo_bcde_valid

end HashMapC

namespace HashMapC

/-! ## C14: the empty key is rejected -/

/-- C14. On every table (valid or not), `HashMap_insert`, `HashMap_get` and
`HashMap_erase` called with the empty-sentinel key return the error result
(`NG`, `NULL`, `NG`) and hand back the very same table, although every
unoccupied slot holds that key. -/
theorem empty_key_rejected (n : Int) (h : HashMapHandle) (data : List Nat) :
    HashMap_insert n h INIT_KEY data = some (NG, h) ∧
    HashMap_get n h INIT_KEY = some VoidPtr.NULL ∧
    HashMap_erase n h INIT_KEY = some (NG, h) := by
  refine ⟨?_, ?_, ?_⟩
  · unfold HashMap_insert
    by_cases hinit : map_is_init n h = false
    · rw [if_pos hinit]
    · rw [if_neg hinit, if_pos rfl]
  · unfold HashMap_get
    by_cases hinit : map_is_init n h = false
    · rw [if_pos hinit]
    · rw [if_neg hinit, if_pos rfl]
  · unfold HashMap_erase
    by_cases hinit : map_is_init n h = false
    · rw [if_pos hinit]
    · rw [if_neg hinit, if_pos rfl]

/-! ## C15: the validity check -/

/-- C15. A handle passes `map_is_init` exactly when
`HANDLE_START_ID <= hdl_id < handle counter`; `map_get_handle_id` hands out
the counter, `HANDLE_START_ID` the first time, and adds one to it; every table returned by `HashMap_make` (the
counter being at least `HANDLE_START_ID`) passes the check from then on; for a
handle that does not pass, every public operation returns its error result
(`NG` for free, insert, erase, clear, size and maxsize, `NULL` for get and
next, false for hasNext and empty, `INVALID_CORD` for optimum) and leaves the
handle record as it was; and `HashMap_free` of a handle that passes returns
`OK` and leaves `hdl_id = INVALID_CORD`, which never passes again. -/
theorem invalid_handle_rejected (n : Int) (h : HashMapHandle) :
    (map_is_init n h = true ↔ HANDLE_START_ID ≤ h.hdl_id ∧ h.hdl_id < n) ∧
    ((map_get_handle_id map_get_handle_id_base).1 = HANDLE_START_ID ∧
      (map_get_handle_id n).1 = n ∧ (map_get_handle_id n).2 = n + 1) ∧
    (∀ (n0 : Int) (cellsz : Nat) (tblsz : Int) (hash_fook : Option (Key → Int → Int))
      (h0 : HashMapHandle) (n1 : Int),
      HANDLE_START_ID ≤ n0 → HashMap_make n0 cellsz tblsz hash_fook = (some h0, n1) →
      h0.hdl_id = n0 ∧ n1 = n0 + 1 ∧ ∀ later, n1 ≤ later → map_is_init later h0 = true) ∧
    (map_is_init n h = false →
      HashMap_free n h = (NG, h) ∧
      (∀ key data, HashMap_insert n h key data = some (NG, h)) ∧
      (∀ key, HashMap_erase n h key = some (NG, h)) ∧
      HashMap_clear n h = (NG, h) ∧
      (∀ key, HashMap_get n h key = some VoidPtr.NULL) ∧
      HashMap_next n h = (VoidPtr.NULL, h) ∧
      HashMap_hasNext n h = false ∧
      HashMap_optimum n h = some INVALID_CORD ∧
      HashMap_begin n h = h ∧
      HashMap_size n h = NG ∧ HashMap_maxsize n h = NG ∧ HashMap_empty n h = false) ∧
    (map_is_init n h = true →
      (HashMap_free n h).1 = OK ∧ (HashMap_free n h).2.hdl_id = INVALID_CORD ∧
      ∀ later, map_is_init later (HashMap_free n h).2 = false) := by
  refine ⟨map_is_init_iff n h, ⟨rfl, rfl, rfl⟩, ?_, ?_, ?_⟩
  · intro n0 cellsz tblsz hash_fook h0 n1 hn hmake
    rcases make_cases n0 cellsz tblsz hash_fook _ n1 hmake with
      ⟨hnone, _⟩ | ⟨_, _, hn1, hsome⟩
    · exact absurd hnone (by simp)
    simp only [Option.some.injEq] at hsome
    have hid : h0.hdl_id = n0 := by rw [hsome]
    refine ⟨hid, hn1, ?_⟩
    intro later hl
    rw [map_is_init_iff, hid]
    omega
  · intro hbad
    refine ⟨?_, ?_, ?_, ?_, ?_, ?_, ?_, ?_, ?_, ?_, ?_, ?_⟩
    · unfold HashMap_free; rw [if_pos hbad]
    · intro key data; unfold HashMap_insert; rw [if_pos hbad]
    · intro key; unfold HashMap_erase; rw [if_pos hbad]
    · unfold HashMap_clear; rw [if_pos hbad]
    · intro key; unfold HashMap_get; rw [if_pos hbad]
    · unfold HashMap_next; rw [if_pos hbad]
    · unfold HashMap_hasNext; rw [if_pos hbad]
    · unfold HashMap_optimum; rw [if_pos hbad]
    · unfold HashMap_begin; rw [if_pos hbad]
    · unfold HashMap_size; rw [if_pos hbad]
    · unfold HashMap_maxsize; rw [if_pos hbad]
    · unfold HashMap_empty; rw [if_pos hbad]
  · intro hgood
    have hneg : ¬ (map_is_init n h = false) := by rw [hgood]; simp
    have hfree : HashMap_free n h = (OK, map_cleanup h ECleanUpLevel.FULL_CLEANUP) := by
      unfold HashMap_free; rw [if_neg hneg]
    rw [hfree]
    refine ⟨rfl, rfl, ?_⟩
    intro later
    cases hb : map_is_init later (OK, map_cleanup h ECleanUpLevel.FULL_CLEANUP).2 with
    | false => rfl
    | true =>
      rw [map_is_init_iff] at hb
      have hid : (OK, map_cleanup h ECleanUpLevel.FULL_CLEANUP).2.hdl_id = INVALID_CORD := rfl
      rw [hid] at hb
      exact absurd hb.1 (by decide)

end HashMapC

namespace HashMapC

/-! ## C16: the default hash function -/

theorem getD_nonneg (key : Key) (i : Nat) (hpos : ∀ c, c ∈ key → 0 ≤ c) :
    0 ≤ key.getD i 0 := by
  by_cases hi : i < key.length
  · rw [List.getD_eq_getElem key 0 hi]
    exact hpos _ (List.getElem_mem hi)
  · rw [List.getD_eq_default key 0 (by omega)]

/-- On keys without negative characters (ASCII keys, or any key where `char`
is unsigned) the default hash function returns the index of the formula, in range. -/
theorem hash_func_default_in_range (key : Key) (tblsz : Int) (ht : 0 < tblsz)
    (hpos : ∀ c, c ∈ key → 0 ≤ c) :
    hash_func_default key tblsz =
      ((key.length : Int) + 4 * (key.getD 0 0 + 4 * key.getD (key.length / 2) 0)) % tblsz ∧
    0 ≤ hash_func_default key tblsz ∧ hash_func_default key tblsz < tblsz := by
  have h0 := getD_nonneg key 0 hpos
  have h1 := getD_nonneg key (key.length / 2) hpos
  have hsum : 0 ≤ (key.length : Int) + 4 * (key.getD 0 0 + 4 * key.getD (key.length / 2) 0) := by
    have : (0 : Int) ≤ key.length := Int.natCast_nonneg _
    omega
  have heq : hash_func_default key tblsz =
      ((key.length : Int) + 4 * (key.getD 0 0 + 4 * key.getD (key.length / 2) 0)) % tblsz := by
    unfold hash_func_default
    exact Int.tmod_eq_emod hsum (by omega)
  refine ⟨heq, ?_, ?_⟩
  · rw [heq]; exact Int.emod_nonneg _ (by omega)
  · rw [heq]; exact Int.emod_lt_of_pos _ ht

/-- C16, at the failing input. For the one-character key "\xff", whose `char`
is -1 where `char` is signed, and 4 slots, `hash_func_default` computes
`(1 + 4 * (-1 + 4 * -1)) % 4 = -19 % 4 = -3`: not an index in `[0, 4)`.  With
it `map_find` reads `hash_table[-3]`, outside the table, so `HashMap_get` and
`HashMap_insert` of that key on a fresh table have no defined result. -/
theorem default_hash_negative_index :
    hash_func_default [-1] 4 = -3 ∧
    ¬ (0 ≤ hash_func_default [-1] 4 ∧ hash_func_default [-1] 4 < 4) ∧
    map_find demo_fresh [-1] (hash_func_default [-1] 4) 0 = none ∧
    HashMap_get 56 demo_fresh [-1] = none ∧
    HashMap_insert 56 demo_fresh [-1] [1, 0, 0, 0] = none := by
  refine ⟨by decide, by decide, rfl, rfl, rfl⟩

end HashMapC

namespace HashMapC

/-! ## C17: what `HashMap_erase` changes -/

/-- Emptying an occupied slot takes one off the count. -/
theorem size_upto_set_vacate (h h' : HashMapHandle) (idx : Nat) (x : HashData)
    (ht : h'.hash_table = h.hash_table.set idx x) (hidx : idx < h.hash_table.length)
    (hold : key_at h idx ≠ INIT_KEY) (hnew : x.key = INIT_KEY) (n : Nat) :
    size_upto h' n = size_upto h n - if idx < n then 1 else 0 := by
  induction n with
  | zero => simp [size_upto]
  | succ n ih =>
    unfold size_upto
    by_cases hn : n = idx
    · subst hn
      rw [key_at_set_self h h' n x ht hidx, hnew, if_pos hold, if_neg (by simp), ih]
      simp
    · rw [key_at_set_other h h' idx n x ht hn, ih]
      by_cases h1 : idx < n
      · simp only [h1, show idx < n + 1 by omega, if_true]
        split <;> omega
      · simp only [h1, show ¬ (idx < n + 1) by omega, if_false]
        split <;> omega

/-- C17. On every valid table without duplicate keys (every reachable table is
one), for every non-empty key whose hash index is in range: when slot `i`
holds the key, `HashMap_erase` returns `OK` and changes only the key of slot
`i`, to the empty sentinel: the value bytes of slot `i`, the keys and value
bytes of all other slots, the number of slots, `cellsz`, the hash function,
the handle id and the cursor are unchanged, and `HashMap_size` is one less;
when no slot holds the key, `HashMap_erase` returns `NG` and hands back the
very same table. -/
theorem erase_frame (n : Int) (h : HashMapHandle) (key : Key) (i : Nat)
    (hv : Valid n h) (hnd : NoDuplicates h) (hr : IndexInRange h key)
    (hk : key ≠ INIT_KEY) :
    (i < h.tblsz → key_at h i = key →
      ∃ h', HashMap_erase n h key = some (OK, h') ∧
        key_at h' i = INIT_KEY ∧ container_at h' i = container_at h i ∧
        (∀ j, j ≠ i → key_at h' j = key_at h j ∧ container_at h' j = container_at h j) ∧
        h'.tblsz = h.tblsz ∧ h'.hash_table.length = h.hash_table.length ∧
        h'.cellsz = h.cellsz ∧ h'.hash = h.hash ∧ h'.hdl_id = h.hdl_id ∧
        h'.iterator_pos = h.iterator_pos ∧
        HashMap_size n h' = HashMap_size n h - 1) ∧
    (¬ Stored h key → HashMap_erase n h key = some (NG, h)) := by
  refine ⟨?_, fun hns => erase_not_stored n h key hv hr hns⟩
  intro hi hki
  obtain ⟨j, hj, hkj, hers⟩ := erase_stored n h key hv hk hr ⟨i, hi, hki⟩
  have hji : j = i := hnd j hj i hi (by rw [hkj]; exact hk) (by rw [hkj, hki])
  subst hji
  have hlen : j < h.hash_table.length := by rw [hv.2.2]; exact hj
  have hv' := valid_set n h _ j ⟨INIT_KEY, container_at h j⟩ hv rfl
  have htbl : ({ h with hash_table :=
      (h.hash_table.set j ⟨INIT_KEY, container_at h j⟩) } : HashMapHandle).hash_table
      = h.hash_table.set j ⟨INIT_KEY, container_at h j⟩ := rfl
  refine ⟨_, hers, ?_, ?_, ?_, rfl, ?_, rfl, rfl, rfl, rfl, ?_⟩
  · exact key_at_set_self h _ j ⟨INIT_KEY, container_at h j⟩ htbl hlen
  · exact container_at_set_self h _ j ⟨INIT_KEY, container_at h j⟩ htbl hlen
  · intro t ht
    exact ⟨key_at_set_other h _ j t ⟨INIT_KEY, container_at h j⟩ htbl ht,
      container_at_set_other h _ j t ⟨INIT_KEY, container_at h j⟩ htbl ht⟩
  · simp only [List.length_set]
  · rw [size_eq n _ hv', size_eq n h hv]
    have := size_upto_set_vacate h _ j ⟨INIT_KEY, container_at h j⟩ htbl hlen
      (by rw [hkj]; exact hk) rfl h.tblsz
    rw [if_pos hj] at this
    exact this

theorem demo_ab_no_duplicates : NoDuplicates demo_ab := by decide

theorem erase_frame_witness :
    ∃ h', HashMap_erase 56 demo_ab [97] = some (OK, h') ∧
      key_at h' 1 = INIT_KEY ∧ container_at h' 1 = container_at demo_ab 1 ∧
      (∀ j, j ≠ 1 → key_at h' j = key_at demo_ab j ∧
        container_at h' j = container_at demo_ab j) ∧
      h'.tblsz = demo_ab.tblsz ∧ h'.hash_table.length = demo_ab.hash_table.length ∧
      h'.cellsz = demo_ab.cellsz ∧ h'.hash = demo_ab.hash ∧ h'.hdl_id = demo_ab.hdl_id ∧
      h'.iterator_pos = demo_ab.iterator_pos ∧
      HashMap_size 56 h' = HashMap_size 56 demo_ab - 1 :=
  (erase_frame 56 demo_ab [97] 1 demo_ab_valid demo_ab_no_duplicates
    ⟨by decide, by decide⟩ (by decide)).1 (by decide) rfl

/-! ## C18: where `HashMap_insert` puts a new key -/

/-- C18. On every valid table, for every non-empty key shorter than 32
characters whose hash index `s` is in range, that no slot holds, with at
least `cellsz` bytes of data, while some slot is empty: `HashMap_insert`
returns `OK`; the slot written is the first empty slot in the circular order
`s, s+1, ..., tblsz-1, 0, ..., s-1`; it receives the key and exactly the first
`cellsz` bytes of the data; no other slot's key or value bytes change, nor
the number of slots, `cellsz`, the hash function, the handle id or the
cursor; and `HashMap_size` is one more. -/
theorem insert_placement (n : Int) (h : HashMapHandle) (key : Key) (data : List Nat)
    (hv : Valid n h) (hr : IndexInRange h key) (hk : key ≠ INIT_KEY)
    (hlen : key.length < KEY_MAX_LEN) (hdata : h.cellsz ≤ data.length)
    (hns : ¬ Stored h key) (hempty : Stored h INIT_KEY) :
    ∃ h' d, HashMap_insert n h key data = some (OK, h') ∧ d < h.tblsz ∧
      key_at h (circ h.tblsz (h.hash key h.tblsz).toNat d) = INIT_KEY ∧
      (∀ d', d' < d → key_at h (circ h.tblsz (h.hash key h.tblsz).toNat d') ≠ INIT_KEY) ∧
      key_at h' (circ h.tblsz (h.hash key h.tblsz).toNat d) = key ∧
      (container_at h' (circ h.tblsz (h.hash key h.tblsz).toNat d)).take h.cellsz
        = data.take h.cellsz ∧
      (container_at h' (circ h.tblsz (h.hash key h.tblsz).toNat d)).drop h.cellsz
        = (container_at h (circ h.tblsz (h.hash key h.tblsz).toNat d)).drop h.cellsz ∧
      (∀ j, j ≠ circ h.tblsz (h.hash key h.tblsz).toNat d →
        key_at h' j = key_at h j ∧ container_at h' j = container_at h j) ∧
      h'.tblsz = h.tblsz ∧ h'.hash_table.length = h.hash_table.length ∧
      h'.cellsz = h.cellsz ∧ h'.hash = h.hash ∧ h'.hdl_id = h.hdl_id ∧
      h'.iterator_pos = h.iterator_pos ∧
      HashMap_size n h' = HashMap_size n h + 1 := by
  obtain ⟨h', hins⟩ := insert_ok n h key data hv hk hr hns hempty hlen hdata
  rcases insert_cases n h key data OK h' hv.2 hins with
    ⟨hng, _⟩ | ⟨_, _, _, _, _, _, _, d, hd, hke, hfirst, ht⟩
  · exact absurd hng ok_ne_ng
  have hidx : circ h.tblsz (h.hash key h.tblsz).toNat d < h.hash_table.length := by
    rw [hv.2.2]; exact circ_lt _ _ _ hv.2.1
  have htbl : h'.hash_table = h.hash_table.set (circ h.tblsz (h.hash key h.tblsz).toNat d)
      ⟨key, data.take h.cellsz ++
        (container_at h (circ h.tblsz (h.hash key h.tblsz).toNat d)).drop h.cellsz⟩ := by
    rw [ht]
  have hv' : Valid n h' := valid_set n h h' _ _ hv ht
  have hsz : h'.tblsz = h.tblsz := by rw [ht]
  have hcont := container_at_set_self h h' _ _ htbl hidx
  have htake : (data.take h.cellsz).length = h.cellsz := by
    rw [List.length_take]; omega
  refine ⟨h', d, hins, hd, hke, hfirst, key_at_set_self h h' _ _ htbl hidx, ?_, ?_, ?_, hsz,
    by rw [htbl, List.length_set], by rw [ht], by rw [ht], by rw [ht], by rw [ht], ?_⟩
  · rw [hcont]
    simp only
    rw [List.take_append_of_le_length (by omega), List.take_of_length_le (by omega)]
  · rw [hcont]
    simp only
    rw [List.drop_append_of_le_length (by omega), List.drop_of_length_le (by omega)]
    simp
  · intro j hj
    exact ⟨key_at_set_other h h' _ j _ htbl hj, container_at_set_other h h' _ j _ htbl hj⟩
  · rw [size_eq n h' hv', size_eq n h hv, hsz,
      size_upto_set_occupy h h' _ _ htbl hidx hke hk h.tblsz,
      if_pos (circ_lt _ _ _ hv.2.1)]

theorem demo_a_stored_empty : Stored demo_a INIT_KEY := ⟨0, by decide, rfl⟩

theorem insert_placement_witness :
    ∃ h' d, HashMap_insert 56 demo_a [98] [2, 0, 0, 0] = some (OK, h') ∧ d < demo_a.tblsz ∧
      key_at demo_a (circ demo_a.tblsz (demo_a.hash [98] demo_a.tblsz).toNat d) = INIT_KEY ∧
      (∀ d', d' < d →
        key_at demo_a (circ demo_a.tblsz (demo_a.hash [98] demo_a.tblsz).toNat d') ≠ INIT_KEY) ∧
      key_at h' (circ demo_a.tblsz (demo_a.hash [98] demo_a.tblsz).toNat d) = [98] ∧
      (container_at h' (circ demo_a.tblsz (demo_a.hash [98] demo_a.tblsz).toNat d)).take
        demo_a.cellsz = [2, 0, 0, 0].take demo_a.cellsz ∧
      (container_at h' (circ demo_a.tblsz (demo_a.hash [98] demo_a.tblsz).toNat d)).drop
        demo_a.cellsz
        = (container_at demo_a
            (circ demo_a.tblsz (demo_a.hash [98] demo_a.tblsz).toNat d)).drop demo_a.cellsz ∧
      (∀ j, j ≠ circ demo_a.tblsz (demo_a.hash [98] demo_a.tblsz).toNat d →
        key_at h' j = key_at demo_a j ∧ container_at h' j = container_at demo_a j) ∧
      h'.tblsz = demo_a.tblsz ∧ h'.hash_table.length = demo_a.hash_table.length ∧
      h'.cellsz = demo_a.cellsz ∧ h'.hash = demo_a.hash ∧ h'.hdl_id = demo_a.hdl_id ∧
      h'.iterator_pos = demo_a.iterator_pos ∧
      HashMap_size 56 h' = HashMap_size 56 demo_a + 1 :=
  insert_placement 56 demo_a [98] [2, 0, 0, 0] demo_a_valid ⟨by decide, by decide⟩
    (by decide) (by decide) (by decide) demo_a_not_stored_b demo_a_stored_empty

end HashMapC

namespace HashMapC

/-! ## C19: `HashMap_hasNext` and `HashMap_next` -/

/-- C19. On every valid table and for every value of the cursor:
`HashMap_hasNext` (which only reads the table, hence returns nothing but its
boolean) is true exactly when some slot with index in `[cursor, tblsz)` is
occupied, and exactly when the `HashMap_next` called in its place returns a
non-NULL pointer; when `HashMap_next` returns the value buffer of slot `i`,
that slot is the first occupied one at or after the cursor and the new cursor
is `i + 1`; `HashMap_next` changes nothing but the cursor. -/
theorem hasNext_iff_next (n : Int) (h : HashMapHandle) (hv : Valid n h) :
    (HashMap_hasNext n h = true ↔
      ∃ i, h.iterator_pos ≤ i ∧ i < h.tblsz ∧ Occupied h i) ∧
    (HashMap_hasNext n h = true ↔ (HashMap_next n h).1 ≠ VoidPtr.NULL) ∧
    (∀ i, (HashMap_next n h).1 = VoidPtr.container i →
      (HashMap_next n h).2.iterator_pos = i + 1 ∧ h.iterator_pos ≤ i ∧ i < h.tblsz ∧
      Occupied h i ∧ ∀ t, h.iterator_pos ≤ t → t < i → ¬ Occupied h t) ∧
    (HashMap_next n h).2.hash_table = h.hash_table ∧
    (HashMap_next n h).2.tblsz = h.tblsz ∧ (HashMap_next n h).2.cellsz = h.cellsz ∧
    (HashMap_next n h).2.hash = h.hash ∧ (HashMap_next n h).2.hdl_id = h.hdl_id := by
  by_cases hlt : h.tblsz > h.iterator_pos
  · have hnext := next_eq n h hv hlt
    have hhas := hasNext_eq n h hv
    rw [if_pos hlt] at hhas
    rcases scan_occupied_spec h (h.tblsz - h.iterator_pos) h.iterator_pos with
      ⟨a1, a2, a3, a4, a5⟩ | ⟨b1, b2, b3⟩
    · rw [a1] at hnext hhas
      simp only [if_true] at hnext
      rw [hnext, hhas]
      refine ⟨?_, ?_, ?_, rfl, rfl, rfl, rfl, rfl⟩
      · constructor
        · intro _
          exact ⟨_, a2, by omega, a4⟩
        · intro _; rfl
      · constructor
        · intro _; simp
        · intro _; rfl
      · intro i hi
        simp only [VoidPtr.container.injEq] at hi
        subst hi
        refine ⟨rfl, a2, by omega, a4, ?_⟩
        intro t ht1 ht2 hocc
        exact hocc (a5 t ht1 ht2)
    · rw [b1] at hnext hhas
      simp only [Bool.false_eq_true, if_false] at hnext
      rw [hnext, hhas]
      refine ⟨?_, ?_, ?_, rfl, rfl, rfl, rfl, rfl⟩
      · constructor
        · intro hf; exact absurd hf (by simp)
        · rintro ⟨i, hi1, hi2, hocc⟩
          exact absurd (b3 i hi1 (by omega)) hocc
      · constructor
        · intro hf; exact absurd hf (by simp)
        · intro hne; exact absurd rfl hne
      · intro i hi
        simp at hi
  · have hnext : HashMap_next n h = (VoidPtr.NULL, h) := by
      unfold HashMap_next
      rw [if_neg (map_is_init_ne_false n h hv), if_neg hlt]
    have hhas : HashMap_hasNext n h = false := by
      rw [hasNext_eq n h hv, if_neg hlt]
    rw [hnext, hhas]
    refine ⟨?_, ?_, ?_, rfl, rfl, rfl, rfl, rfl⟩
    · constructor
      · intro hf; exact absurd hf (by simp)
      · rintro ⟨i, hi1, hi2, _⟩
        omega
    · constructor
      · intro hf; exact absurd hf (by simp)
      · intro hne; exact absurd rfl hne
    · intro i hi
      simp at hi

theorem hasNext_iff_next_witness :
    (HashMap_hasNext 56 demo_ab = true ↔
      ∃ i, demo_ab.iterator_pos ≤ i ∧ i < demo_ab.tblsz ∧ Occupied demo_ab i) ∧
    (HashMap_hasNext 56 demo_ab = true ↔ (HashMap_next 56 demo_ab).1 ≠ VoidPtr.NULL) ∧
    (∀ i, (HashMap_next 56 demo_ab).1 = VoidPtr.container i →
      (HashMap_next 56 demo_ab).2.iterator_pos = i + 1 ∧ demo_ab.iterator_pos ≤ i ∧
      i < demo_ab.tblsz ∧ Occupied demo_ab i ∧
      ∀ t, demo_ab.iterator_pos ≤ t → t < i → ¬ Occupied demo_ab t) ∧
    (HashMap_next 56 demo_ab).2.hash_table = demo_ab.hash_table ∧
    (HashMap_next 56 demo_ab).2.tblsz = demo_ab.tblsz ∧
    (HashMap_next 56 demo_ab).2.cellsz = demo_ab.cellsz ∧
    (HashMap_next 56 demo_ab).2.hash = demo_ab.hash ∧
    (HashMap_next 56 demo_ab).2.hdl_id = demo_ab.hdl_id :=
  hasNext_iff_next 56 demo_ab demo_ab_valid

end HashMapC

namespace HashMapC

/-! ## C20: the table refines a bounded finite map -/

theorem abstract_get_none_iff (M : AbstractMap) (key : Key) :
    abstract_get M key = none ↔ key ∉ M.map Prod.fst := by
  induction M with
  | nil => simp [abstract_get]
  | cons e rest ih =>
    obtain ⟨k, v⟩ := e
    unfold abstract_get
    by_cases hk : key = k
    · simp [hk]
    · simp [hk, ih]

theorem abstract_get_filter (M : AbstractMap) (key k : Key) :
    abstract_get (M.filter (fun e => decide (e.1 ≠ key))) k =
      if k = key then none else abstract_get M k := by
  induction M with
  | nil => simp [abstract_get]
  | cons e rest ih =>
    obtain ⟨k0, v⟩ := e
    by_cases h0 : k0 = key
    · rw [List.filter_cons_of_neg (by simp [h0]), ih]
      by_cases hk : k = key
      · simp [hk]
      · have : ¬ (k = k0) := by rw [h0]; exact hk
        simp [hk, abstract_get, this]
    · rw [List.filter_cons_of_pos (by simp [h0])]
      unfold abstract_get
      by_cases hk : k = k0
      · have : ¬ (k = key) := by rw [hk]; exact h0
        simp [hk, h0]
      · simp only [hk, if_false, ih]

theorem filter_length_of_nodup (M : AbstractMap) (key : Key)
    (hnd : (M.map Prod.fst).Nodup) (hmem : key ∈ M.map Prod.fst) :
    (M.filter (fun e => decide (e.1 ≠ key))).length + 1 = M.length := by
  induction M with
  | nil => simp at hmem
  | cons e rest ih =>
    obtain ⟨k0, v⟩ := e
    simp only [List.map_cons, List.nodup_cons] at hnd
    by_cases h0 : k0 = key
    · rw [List.filter_cons_of_neg (by simp [h0])]
      have hall : rest.filter (fun e => decide (e.1 ≠ key)) = rest := by
        rw [List.filter_eq_self]
        intro e he
        have : e.1 ∈ rest.map Prod.fst := List.mem_map_of_mem _ he
        have hne : e.1 ≠ key := by
          intro heq
          rw [heq, ← h0] at this
          exact hnd.1 this
        simpa using hne
      rw [hall]
      simp
    · rw [List.filter_cons_of_pos (by simp [h0])]
      simp only [List.map_cons, List.mem_cons] at hmem
      rcases hmem with heq | hmem
      · exact absurd heq.symm h0
      · simp only [List.length_cons]
        have := ih hnd.2 hmem
        omega

theorem filter_keys_nodup (M : AbstractMap) (key : Key) (hnd : (M.map Prod.fst).Nodup) :
    ((M.filter (fun e => decide (e.1 ≠ key))).map Prod.fst).Nodup :=
  List.Nodup.sublist (List.Sublist.map _ (List.filter_sublist _)) hnd

end HashMapC

namespace HashMapC

theorem size_upto_lt_of_empty (h : HashMapHandle) (n : Nat)
    (hex : ∃ i, i < n ∧ key_at h i = INIT_KEY) : size_upto h n < n := by
  obtain ⟨i, hi, hki⟩ := hex
  have hb := (size_upto_bounds h n).2
  by_contra hge
  have heq : size_upto h n = n := by omega
  exact no_empty_of_size_eq h n heq i hi hki

theorem size_upto_eq_of_full (h : HashMapHandle) (n : Nat)
    (hfull : ∀ i, i < n → key_at h i ≠ INIT_KEY) : size_upto h n = n := by
  have hb := (size_upto_bounds h n).2
  by_contra hne
  obtain ⟨i, hi, hki⟩ := exists_empty_of_size_lt h n (by omega)
  exact hfull i hi hki

/-- An insert on the table and on the abstract map return the same code and
leave the table holding the entries of the map. -/
theorem refines_insert (n : Int) (h : HashMapHandle) (M : AbstractMap) (key : Key)
    (data : List Nat) (hR : Refines n h M) (hr : IndexInRange h key)
    (hlen : key.length < KEY_MAX_LEN) (hdata : h.cellsz ≤ data.length) :
    ∃ h', HashMap_insert n h key data
        = some ((abstract_step h.tblsz h.cellsz M (Op.insert key data)).1, h') ∧
      Refines n h' (abstract_step h.tblsz h.cellsz M (Op.insert key data)).2 ∧
      h'.hash = h.hash ∧ h'.tblsz = h.tblsz ∧ h'.cellsz = h.cellsz := by
  obtain ⟨hinv, hA, hB, hC, hD⟩ := hR
  have hv := hinv.1
  by_cases hk : key = INIT_KEY
  · have habs : abstract_step h.tblsz h.cellsz M (Op.insert key data) = (NG, M) := by
      simp only [abstract_step]
      rw [if_neg (by simp [hk])]
    rw [habs]
    refine ⟨h, ?_, ⟨hinv, hA, hB, hC, hD⟩, rfl, rfl, rfl⟩
    unfold HashMap_insert
    rw [if_neg (map_is_init_ne_false n h hv), if_pos hk]
  by_cases hs : Stored h key
  · have hin : abstract_get M key ≠ none := by
      obtain ⟨i, hi, hki⟩ := hs
      have := hA i hi (by rw [hki]; exact hk)
      rw [hki] at this
      rw [this]; simp
    have habs : abstract_step h.tblsz h.cellsz M (Op.insert key data) = (NG, M) := by
      simp only [abstract_step]
      rw [if_neg (by simp [hin])]
    rw [habs]
    exact ⟨h, insert_dup n h key data hv hk hr hs, ⟨hinv, hA, hB, hC, hD⟩, rfl, rfl, rfl⟩
  have hnotin : abstract_get M key = none := by
    by_contra hne
    exact hs (hB key hne).2
  by_cases hempty : Stored h INIT_KEY
  · obtain ⟨h', hins⟩ := insert_ok n h key data hv hk hr hs hempty hlen hdata
    have hlt : abstract_size M < h.tblsz := by
      have := size_upto_lt_of_empty h h.tblsz hempty
      rw [hC] at this
      exact_mod_cast this
    have habs : abstract_step h.tblsz h.cellsz M (Op.insert key data)
        = (OK, (key, data.take h.cellsz) :: M) := by
      simp only [abstract_step]
      rw [if_pos ⟨hk, hnotin, hlt⟩]
    rw [habs]
    rcases insert_cases n h key data OK h' hv.2 hins with
      ⟨hng, _⟩ | ⟨_, _, _, _, _, _, hnot, d, hd, hke, _, ht⟩
    · exact absurd hng ok_ne_ng
    have hidx : circ h.tblsz (h.hash key h.tblsz).toNat d < h.hash_table.length := by
      rw [hv.2.2]; exact circ_lt _ _ _ hv.2.1
    have htbl : h'.hash_table = h.hash_table.set (circ h.tblsz (h.hash key h.tblsz).toNat d)
        ⟨key, data.take h.cellsz ++
          (container_at h (circ h.tblsz (h.hash key h.tblsz).toNat d)).drop h.cellsz⟩ := by
      rw [ht]
    have hsz : h'.tblsz = h.tblsz := by rw [ht]
    have hcell : h'.cellsz = h.cellsz := by rw [ht]
    have hself : key_at h' (circ h.tblsz (h.hash key h.tblsz).toNat d) = key :=
      key_at_set_self h h' _ _ htbl hidx
    have hcont : container_at h' (circ h.tblsz (h.hash key h.tblsz).toNat d)
        = data.take h.cellsz ++
          (container_at h (circ h.tblsz (h.hash key h.tblsz).toNat d)).drop h.cellsz :=
      container_at_set_self h h' _ _ htbl hidx
    have htake : (data.take h.cellsz).length = h.cellsz := by
      rw [List.length_take]; omega
    have hother : ∀ j, j ≠ circ h.tblsz (h.hash key h.tblsz).toNat d →
        key_at h' j = key_at h j ∧ container_at h' j = container_at h j := fun j hj =>
      ⟨key_at_set_other h h' _ j _ htbl hj, container_at_set_other h h' _ j _ htbl hj⟩
    refine ⟨h', hins, ⟨inv_insert n h key data OK h' hinv hins, ?_, ?_, ?_, ?_⟩,
      by rw [ht], hsz, hcell⟩
    · intro i hi hki
      rw [hsz] at hi
      rw [hcell]
      by_cases hieq : i = circ h.tblsz (h.hash key h.tblsz).toNat d
      · rw [hieq, hself, hcont]
        simp only [abstract_get, if_true]
        rw [List.take_append_of_le_length (by omega)]
        simp [List.take_take]
      · rw [(hother i hieq).1] at hki ⊢
        rw [(hother i hieq).2]
        have hne : key_at h i ≠ key := hnot i hi
        simp only [abstract_get, hne, if_false]
        exact hA i hi hki
    · intro k hkin
      by_cases hkk : k = key
      · rw [hkk]
        exact ⟨hk, _, by rw [hsz]; exact circ_lt _ _ _ hv.2.1, hself⟩
      · simp only [abstract_get, hkk, if_false] at hkin
        obtain ⟨hk0, i, hi, hki⟩ := hB k hkin
        refine ⟨hk0, i, by rw [hsz]; exact hi, ?_⟩
        have hieq : i ≠ circ h.tblsz (h.hash key h.tblsz).toNat d := by
          intro heq
          rw [heq, hke] at hki
          exact hk0 hki.symm
        rw [(hother i hieq).1]; exact hki
    · rw [hsz, size_upto_set_occupy h h' _ _ htbl hidx hke hk h.tblsz,
        if_pos (circ_lt _ _ _ hv.2.1), hC]
      simp [abstract_size]
    · simp only [List.map_cons, List.nodup_cons]
      exact ⟨(abstract_get_none_iff M key).1 hnotin, hD⟩
  · have hfull : ¬ (abstract_size M < h.tblsz) := by
      have := size_upto_eq_of_full h h.tblsz (fun i hi hki => hempty ⟨i, hi, hki⟩)
      rw [hC] at this
      have : abstract_size M = h.tblsz := by exact_mod_cast this
      omega
    have habs : abstract_step h.tblsz h.cellsz M (Op.insert key data) = (NG, M) := by
      simp only [abstract_step]
      rw [if_neg (by simp [hfull])]
    rw [habs]
    exact ⟨h, insert_full n h key data hv hk hr hs hempty, ⟨hinv, hA, hB, hC, hD⟩,
      rfl, rfl, rfl⟩

end HashMapC

namespace HashMapC

/-- An erase on the table and on the abstract map return the same code and
leave the table holding the entries of the map. -/
theorem refines_erase (n : Int) (h : HashMapHandle) (M : AbstractMap) (key : Key)
    (hR : Refines n h M) (hr : IndexInRange h key) :
    ∃ h', HashMap_erase n h key
        = some ((abstract_step h.tblsz h.cellsz M (Op.erase key)).1, h') ∧
      Refines n h' (abstract_step h.tblsz h.cellsz M (Op.erase key)).2 ∧
      h'.hash = h.hash ∧ h'.tblsz = h.tblsz ∧ h'.cellsz = h.cellsz := by
  obtain ⟨hinv, hA, hB, hC, hD⟩ := hR
  have hv := hinv.1
  by_cases hs : key ≠ INIT_KEY ∧ Stored h key
  · obtain ⟨hk, hst⟩ := hs
    obtain ⟨i, hi, hki, hers⟩ := erase_stored n h key hv hk hr hst
    have hin : abstract_get M key ≠ none := by
      have := hA i hi (by rw [hki]; exact hk)
      rw [hki] at this
      rw [this]; simp
    have habs : abstract_step h.tblsz h.cellsz M (Op.erase key)
        = (OK, M.filter (fun e => decide (e.1 ≠ key))) := by
      simp only [abstract_step]
      rw [if_pos hin]
    rw [habs]
    have hlen : i < h.hash_table.length := by rw [hv.2.2]; exact hi
    have htbl : ({ h with hash_table :=
        (h.hash_table.set i ⟨INIT_KEY, container_at h i⟩) } : HashMapHandle).hash_table
        = h.hash_table.set i ⟨INIT_KEY, container_at h i⟩ := rfl
    have hself : key_at { h with hash_table :=
        (h.hash_table.set i ⟨INIT_KEY, container_at h i⟩) } i = INIT_KEY :=
      key_at_set_self h _ i ⟨INIT_KEY, container_at h i⟩ htbl hlen
    have hother : ∀ j, j ≠ i →
        key_at { h with hash_table :=
          (h.hash_table.set i ⟨INIT_KEY, container_at h i⟩) } j = key_at h j ∧
        container_at { h with hash_table :=
          (h.hash_table.set i ⟨INIT_KEY, container_at h i⟩) } j = container_at h j :=
      fun j hj => ⟨key_at_set_other h _ i j ⟨INIT_KEY, container_at h i⟩ htbl hj,
        container_at_set_other h _ i j ⟨INIT_KEY, container_at h i⟩ htbl hj⟩
    refine ⟨_, hers, ⟨inv_erase n h key OK _ hinv hers, ?_, ?_, ?_, ?_⟩, rfl, rfl, rfl⟩
    · intro j hj hkj
      have hj' : j < h.tblsz := hj
      have hji : j ≠ i := by
        intro heq
        rw [heq, hself] at hkj
        exact hkj rfl
      rw [(hother j hji).1] at hkj ⊢
      rw [(hother j hji).2]
      have hne : key_at h j ≠ key := by
        intro heq
        exact hji (hinv.2.1 j hj' i hi hkj (by rw [heq, hki]))
      rw [abstract_get_filter, if_neg hne]
      exact hA j hj' hkj
    · intro k hkin
      rw [abstract_get_filter] at hkin
      by_cases hkk : k = key
      · rw [if_pos hkk] at hkin
        exact absurd rfl hkin
      · rw [if_neg hkk] at hkin
        obtain ⟨hk0, j, hj, hkj⟩ := hB k hkin
        refine ⟨hk0, j, hj, ?_⟩
        have hji : j ≠ i := by
          intro heq
          rw [heq, hki] at hkj
          exact hkk hkj.symm
        rw [(hother j hji).1]; exact hkj
    · have hsz := size_upto_set_vacate h _ i ⟨INIT_KEY, container_at h i⟩ htbl hlen
        (by rw [hki]; exact hk) rfl h.tblsz
      rw [if_pos hi, hC] at hsz
      have hcount := filter_length_of_nodup M key hD
        (by
          by_contra hnm
          exact hin ((abstract_get_none_iff M key).2 hnm))
      show size_upto _ h.tblsz = _
      rw [hsz]
      simp only [abstract_size]
      omega
    · exact filter_keys_nodup M key hD
  · have hnotin : abstract_get M key = none := by
      by_contra hne
      exact hs (hB key hne)
    have habs : abstract_step h.tblsz h.cellsz M (Op.erase key) = (NG, M) := by
      simp only [abstract_step]
      rw [if_neg (by simp [hnotin])]
    rw [habs]
    refine ⟨h, ?_, ⟨hinv, hA, hB, hC, hD⟩, rfl, rfl, rfl⟩
    by_cases hk : key = INIT_KEY
    · unfold HashMap_erase
      rw [if_neg (map_is_init_ne_false n h hv), if_pos hk]
    · exact erase_not_stored n h key hv hr (fun hst => hs ⟨hk, hst⟩)

/-- A clear on the table and on the abstract map return the same code and
leave the table holding the entries of the map. -/
theorem refines_clear (n : Int) (h : HashMapHandle) (M : AbstractMap)
    (hR : Refines n h M) :
    HashMap_clear n h = ((abstract_step h.tblsz h.cellsz M Op.clear).1, (HashMap_clear n h).2) ∧
      Refines n (HashMap_clear n h).2 (abstract_step h.tblsz h.cellsz M Op.clear).2 ∧
      (HashMap_clear n h).2.hash = h.hash ∧ (HashMap_clear n h).2.tblsz = h.tblsz ∧
      (HashMap_clear n h).2.cellsz = h.cellsz := by
  obtain ⟨hinv, _, _, _, _⟩ := hR
  have hv := hinv.1
  have hkeys := key_at_clear n h hv
  have hneg := map_is_init_ne_false n h hv
  have hfields : (HashMap_clear n h).1 = OK ∧ (HashMap_clear n h).2.hash = h.hash ∧
      (HashMap_clear n h).2.tblsz = h.tblsz ∧ (HashMap_clear n h).2.cellsz = h.cellsz := by
    unfold HashMap_clear
    rw [if_neg hneg]
    exact ⟨rfl, rfl, rfl, rfl⟩
  obtain ⟨f1, f2, f3, f4⟩ := hfields
  have habs : abstract_step h.tblsz h.cellsz M Op.clear = (OK, []) := rfl
  rw [habs]
  refine ⟨?_, ⟨inv_clear n h hinv, ?_, ?_, ?_, ?_⟩, f2, f3, f4⟩
  · rw [← f1]
  · intro i _ hki
    exact absurd (hkeys i) hki
  · intro k hk
    exact absurd rfl hk
  · rw [size_upto_all_empty _ _ (fun i _ => hkeys i)]
    rfl
  · exact List.nodup_nil

theorem op_ok_congr (h h' : HashMapHandle) (op : Op) (h1 : h'.hash = h.hash)
    (h2 : h'.tblsz = h.tblsz) (h3 : h'.cellsz = h.cellsz) (hop : op_ok h op) :
    op_ok h' op := by
  cases op with
  | insert key data =>
    obtain ⟨a, b, c⟩ := hop
    refine ⟨?_, b, by rw [h3]; exact c⟩
    unfold IndexInRange; rw [h1, h2]; exact a
  | erase key =>
    show IndexInRange h' key
    unfold IndexInRange; rw [h1, h2]; exact hop
  | clear => trivial

/-- One operation on the table and on the abstract map. -/
theorem refines_step (n : Int) (h : HashMapHandle) (M : AbstractMap) (op : Op)
    (hR : Refines n h M) (hop : op_ok h op) :
    ∃ h', concrete_step n h op = some ((abstract_step h.tblsz h.cellsz M op).1, h') ∧
      Refines n h' (abstract_step h.tblsz h.cellsz M op).2 ∧
      h'.hash = h.hash ∧ h'.tblsz = h.tblsz ∧ h'.cellsz = h.cellsz := by
  cases op with
  | insert key data =>
    obtain ⟨a, b, c⟩ := hop
    exact refines_insert n h M key data hR a b c
  | erase key => exact refines_erase n h M key hR hop
  | clear =>
    obtain ⟨c1, c2, c3, c4, c5⟩ := refines_clear n h M hR
    exact ⟨_, by rw [concrete_step, c1], c2, c3, c4, c5⟩

/-- A sequence of operations on the table and on the abstract map. -/
theorem refines_run (n : Int) :
    ∀ (ops : List Op) (h : HashMapHandle) (M : AbstractMap),
      Refines n h M → (∀ op, op ∈ ops → op_ok h op) →
      ∃ h', concrete_run n h ops = some ((abstract_run h.tblsz h.cellsz M ops).1, h') ∧
        Refines n h' (abstract_run h.tblsz h.cellsz M ops).2 ∧
        h'.hash = h.hash ∧ h'.tblsz = h.tblsz ∧ h'.cellsz = h.cellsz := by
  intro ops
  induction ops with
  | nil =>
    intro h M hR _
    exact ⟨h, rfl, hR, rfl, rfl, rfl⟩
  | cons op rest ih =>
    intro h M hR hops
    obtain ⟨h1, hstep, hR1, e1, e2, e3⟩ :=
      refines_step n h M op hR (hops op (List.mem_cons_self _ _))
    obtain ⟨h2, hrun, hR2, g1, g2, g3⟩ := ih h1 _ hR1
      (fun o ho => op_ok_congr h h1 o e1 e2 e3 (hops o (List.mem_cons_of_mem _ ho)))
    rw [e2, e3] at hrun hR2
    refine ⟨h2, ?_, hR2, by rw [g1, e1], by rw [g2, e2], by rw [g3, e3]⟩
    simp only [concrete_run, hstep, hrun, abstract_run]

end HashMapC

namespace HashMapC

/-- What the queries of a table return, read off the abstract map it holds. -/
theorem refines_observe (n : Int) (h : HashMapHandle) (M : AbstractMap)
    (hR : Refines n h M) :
    HashMap_size n h = (abstract_size M : Int) ∧ abstract_size M ≤ h.tblsz ∧
    ∀ key, IndexInRange h key → get_bytes n h key = some (abstract_get M key) := by
  obtain ⟨hinv, hA, hB, hC, _⟩ := hR
  have hv := hinv.1
  refine ⟨by rw [size_eq n h hv, hC], ?_, ?_⟩
  · have := (size_upto_bounds h h.tblsz).2
    rw [hC] at this
    exact_mod_cast this
  · intro key hr
    by_cases hs : key ≠ INIT_KEY ∧ Stored h key
    · obtain ⟨hk, hst⟩ := hs
      obtain ⟨i, hget, hi, hki⟩ := get_stored n h key hv hk hr hst
      have := hA i hi (by rw [hki]; exact hk)
      rw [hki] at this
      unfold get_bytes
      rw [hget, this]
      rfl
    · have hnotin : abstract_get M key = none := by
        by_contra hne
        exact hs (hB key hne)
      have hget : HashMap_get n h key = some VoidPtr.NULL := by
        by_cases hk : key = INIT_KEY
        · unfold HashMap_get
          rw [if_neg (map_is_init_ne_false n h hv), if_pos hk]
        · exact get_not_stored n h key hv hr (fun hst => hs ⟨hk, hst⟩)
      unfold get_bytes
      rw [hget, hnotin]
      rfl

theorem refines_fresh (n0 : Int) (cellsz : Nat) (tblsz : Int)
    (hash_fook : Option (Key → Int → Int)) (h0 : HashMapHandle) (n : Int)
    (hn : HANDLE_START_ID ≤ n0)
    (hmake : HashMap_make n0 cellsz tblsz hash_fook = (some h0, n)) :
    Refines n h0 [] := by
  obtain ⟨_, _, _, hkeys, _⟩ := fresh_facts n0 cellsz tblsz hash_fook h0 n hmake
  refine ⟨inv_make n0 cellsz tblsz hash_fook h0 n hn hmake, ?_, ?_, ?_, List.nodup_nil⟩
  · intro i _ hki
    exact absurd (hkeys i) hki
  · intro k hk
    exact absurd rfl hk
  · rw [size_upto_all_empty _ _ (fun i _ => hkeys i)]
    rfl

/-- C20. For every sequence of insert/erase/clear calls on a fresh table of
`tblsz` slots whose arguments meet the interface (hash indices in range, keys
of an insert shorter than 32 characters, at least `cellsz` bytes of data),
and at every point `k` of the sequence: the calls so far returned exactly the
codes that the abstract map of at most `tblsz` entries returns (insert `OK`
iff the key is non-empty, not in `M` and `|M| < tblsz`; erase `OK` iff the key
is in `M`; clear empties `M`), `HashMap_size` is `|M|`, and `HashMap_get` of
any key with hash index in range gives the `cellsz` bytes `M` has for the key,
or `NULL` when `M` has none.  The abstract map does not mention the hash
function, so none of this depends on it, and an erase loses no other key. -/
theorem refines_bounded_map (n0 : Int) (cellsz : Nat) (tblsz : Int)
    (hash_fook : Option (Key → Int → Int)) (h0 : HashMapHandle) (n : Int) (ops : List Op)
    (hn : HANDLE_START_ID ≤ n0)
    (hmake : HashMap_make n0 cellsz tblsz hash_fook = (some h0, n))
    (hops : ∀ op, op ∈ ops → op_ok h0 op) :
    ∀ k, ∃ h,
      concrete_run n h0 (ops.take k)
        = some ((abstract_run tblsz.toNat cellsz [] (ops.take k)).1, h) ∧
      HashMap_size n h = (abstract_size (abstract_run tblsz.toNat cellsz [] (ops.take k)).2 : Int) ∧
      (abstract_size (abstract_run tblsz.toNat cellsz [] (ops.take k)).2 : Int) ≤ tblsz ∧
      ∀ key, IndexInRange h0 key →
        get_bytes n h key
          = some (abstract_get (abstract_run tblsz.toNat cellsz [] (ops.take k)).2 key) := by
  intro k
  obtain ⟨hsz, hcell, _, _, _⟩ := fresh_facts n0 cellsz tblsz hash_fook h0 n hmake
  have hc : h0.tblsz = tblsz.toNat := by omega
  obtain ⟨h, hrun, hR, e1, e2, _⟩ := refines_run n (ops.take k) h0 []
    (refines_fresh n0 cellsz tblsz hash_fook h0 n hn hmake)
    (fun op hop => hops op (List.mem_of_mem_take hop))
  rw [hc, hcell] at hrun hR
  obtain ⟨o1, o2, o3⟩ := refines_observe n h _ hR
  refine ⟨h, hrun, o1, ?_, ?_⟩
  · rw [e2] at o2
    omega
  · intro key hr
    apply o3 key
    unfold IndexInRange
    rw [e1, e2]
    exact hr

theorem refines_bounded_map_witness :
    ∃ h,
      concrete_run 56 demo_fresh (demo_ops.take 8)
        = some ((abstract_run (4 : Int).toNat 4 [] (demo_ops.take 8)).1, h) ∧
      HashMap_size 56 h
        = (abstract_size (abstract_run (4 : Int).toNat 4 [] (demo_ops.take 8)).2 : Int) ∧
      (abstract_size (abstract_run (4 : Int).toNat 4 [] (demo_ops.take 8)).2 : Int) ≤ 4 ∧
      ∀ key, IndexInRange demo_fresh key →
        get_bytes 56 h key
          = some (abstract_get (abstract_run (4 : Int).toNat 4 [] (demo_ops.take 8)).2 key) :=
  refines_bounded_map 55 4 4 none demo_fresh 56 demo_ops (by decide) demo_fresh_make
    (by decide) 8

end HashMapC

namespace HashMapC

/-! ## C21: `HashMap_optimum` is the sum of the displacements -/

/-- The offset at which the circular order from `s` meets `i` is `(i - s) mod c`. -/
theorem circ_displacement (c s d i : Nat) (hs : s < c) (hd : d < c)
    (h : circ c s d = i) : ((i : Int) - (s : Int)) % (c : Int) = (d : Int) := by
  unfold circ at h
  rw [mod_wrap _ _ (by omega)] at h
  by_cases hlt : s + d < c
  · rw [if_pos hlt] at h
    have : (i : Int) - (s : Int) = (d : Int) := by omega
    rw [this]
    exact Int.emod_eq_of_lt (by omega) (by omega)
  · rw [if_neg hlt] at h
    have : (i : Int) - (s : Int) = (d : Int) + (-1) * (c : Int) := by omega
    rw [this, Int.add_mul_emod_self]
    exact Int.emod_eq_of_lt (by omega) (by omega)

theorem displacement_nonneg (h : HashMapHandle) (i : Nat) (hc : 0 < h.tblsz) :
    0 ≤ displacement h i := by
  unfold displacement
  exact Int.emod_nonneg _ (by omega)

theorem displacement_sum_nonneg (h : HashMapHandle) (hc : 0 < h.tblsz) (m : Nat) :
    0 ≤ displacement_sum h m := by
  induction m with
  | zero => simp [displacement_sum]
  | succ m ih =>
    unfold displacement_sum
    have := displacement_nonneg h m hc
    split <;> omega

/-- Without duplicate keys, `map_find` started at the hash index of the key of
slot `i` hits slot `i` after as many misses as the displacement of the key. -/
theorem map_find_displacement (h : HashMapHandle) (i : Nat) (hw : WellFormed h)
    (hnd : NoDuplicates h) (hi : i < h.tblsz) (hk : key_at h i ≠ INIT_KEY)
    (hr : IndexInRange h (key_at h i)) :
    ∃ miss : Nat, map_find h (key_at h i) (h.hash (key_at h i) h.tblsz) 0
        = some ((i : Int), miss) ∧ (miss : Int) = displacement h i := by
  rcases map_find_spec h (key_at h i) _ 0 hw hr.1 hr.2 with
    ⟨hall, _⟩ | ⟨d, hd, hkd, _, hres⟩
  · exact absurd rfl (hall i hi)
  · have hs : (h.hash (key_at h i) h.tblsz).toNat < h.tblsz := by
      have := hr.1; have := hr.2; omega
    have hci : circ h.tblsz (h.hash (key_at h i) h.tblsz).toNat d = i :=
      (hnd i hi _ (circ_lt _ _ _ hw.1) hk hkd.symm).symm
    refine ⟨0 + d, by rw [hres, hci], ?_⟩
    have := circ_displacement h.tblsz _ d i hs hd hci
    rw [Int.toNat_of_nonneg hr.1] at this
    unfold displacement
    rw [this]
    simp

/-- The loop of `HashMap_optimum` accumulates the displacements, as long as
the sum fits an `int`. -/
theorem optimum_upto_eq (h : HashMapHandle) (hw : WellFormed h) (hnd : NoDuplicates h)
    (hr : ∀ i, i < h.tblsz → key_at h i ≠ INIT_KEY → IndexInRange h (key_at h i)) :
    ∀ m, m ≤ h.tblsz →
      optimum_upto h m =
        if displacement_sum h m ≤ INT_MAX then some (displacement_sum h m) else none := by
  intro m
  induction m with
  | zero => intro _; simp [optimum_upto, displacement_sum, INT_MAX]
  | succ m ih =>
    intro hm
    have ih := ih (by omega)
    have hnn := displacement_nonneg h m hw.1
    unfold optimum_upto displacement_sum
    by_cases hk : key_at h m = INIT_KEY
    · rw [if_pos hk, ih]
      by_cases hfit : displacement_sum h m ≤ INT_MAX
      · simp only [hfit, if_true, if_pos hk]
      · simp only [hfit, if_false]
    · rw [if_neg hk, ih]
      obtain ⟨miss, hres, hmiss⟩ := map_find_displacement h m hw hnd (by omega) hk
        (hr m (by omega) hk)
      by_cases hfit : displacement_sum h m ≤ INT_MAX
      · simp only [hfit, if_true, if_neg hk, hres, hmiss]
      · have hbig : ¬ (displacement_sum h m + displacement h m ≤ INT_MAX) := by omega
        simp only [hfit, hbig, if_false]

end HashMapC

namespace HashMapC

theorem displacement_zero_iff (h : HashMapHandle) (i : Nat) (hi : i < h.tblsz)
    (hr : IndexInRange h (key_at h i)) :
    displacement h i = 0 ↔ h.hash (key_at h i) h.tblsz = (i : Int) := by
  obtain ⟨h0, h1⟩ := hr
  unfold displacement
  constructor
  · intro hz
    by_cases hle : h.hash (key_at h i) h.tblsz ≤ (i : Int)
    · rw [Int.emod_eq_of_lt (by omega) (by omega)] at hz
      omega
    · have hsplit : (i : Int) - h.hash (key_at h i) h.tblsz
          = ((i : Int) - h.hash (key_at h i) h.tblsz + h.tblsz) + (-1) * (h.tblsz : Int) := by
        omega
      rw [hsplit, Int.add_mul_emod_self, Int.emod_eq_of_lt (by omega) (by omega)] at hz
      omega
  · intro heq
    rw [heq]
    simp

theorem displacement_sum_zero_iff (h : HashMapHandle) (hc : 0 < h.tblsz) (m : Nat) :
    displacement_sum h m = 0 ↔
      ∀ i, i < m → key_at h i ≠ INIT_KEY → displacement h i = 0 := by
  induction m with
  | zero =>
    simp [displacement_sum]
  | succ m ih =>
    have hs := displacement_sum_nonneg h hc m
    have hd := displacement_nonneg h m hc
    unfold displacement_sum
    by_cases hk : key_at h m = INIT_KEY
    · rw [if_pos hk, ih]
      constructor
      · intro hall i hi hki
        by_cases him : i = m
        · rw [him] at hki; exact absurd hk hki
        · exact hall i (by omega) hki
      · intro hall i hi hki
        exact hall i (by omega) hki
    · rw [if_neg hk]
      constructor
      · intro hz i hi hki
        by_cases him : i = m
        · rw [him]; omega
        · exact ih.1 (by omega) i (by omega) hki
      · intro hall
        have h1 := ih.2 (fun i hi hki => hall i (by omega) hki)
        have h2 := hall m (by omega) hk
        omega

/-- What `HashMap_optimum` returns on a valid table without duplicate keys
whose keys hash in range. -/
theorem optimum_eq (n : Int) (h : HashMapHandle) (hv : Valid n h) (hnd : NoDuplicates h)
    (hr : ∀ i, i < h.tblsz → key_at h i ≠ INIT_KEY → IndexInRange h (key_at h i)) :
    HashMap_optimum n h =
      if displacement_sum h h.tblsz ≤ INT_MAX then some (displacement_sum h h.tblsz)
      else none := by
  unfold HashMap_optimum
  rw [if_neg (map_is_init_ne_false n h hv)]
  exact optimum_upto_eq h hv.2 hnd hr h.tblsz (le_refl _)

/-- C21, amended. On every valid table without duplicate non-empty keys whose
occupied keys hash in range: `map_find` started at the hash index of the key
of an occupied slot `i` hits slot `i` after as many misses as the circular
displacement `(i - hash(k_i)) mod tblsz`; `HashMap_optimum` returns the sum of
these displacements over the occupied slots whenever that sum does not exceed
`INT_MAX`, and never returns anything else; it returns 0 if and only if every
occupied slot `i` satisfies `hash(k_i) = i`.  It only reads the table. -/
theorem optimum_is_displacement_sum (n : Int) (h : HashMapHandle) (hv : Valid n h)
    (hnd : NoDuplicates h)
    (hr : ∀ i, i < h.tblsz → key_at h i ≠ INIT_KEY → IndexInRange h (key_at h i)) :
    (∀ i, i < h.tblsz → key_at h i ≠ INIT_KEY →
      ∃ miss : Nat, map_find h (key_at h i) (h.hash (key_at h i) h.tblsz) 0
          = some ((i : Int), miss) ∧ (miss : Int) = displacement h i) ∧
    (displacement_sum h h.tblsz ≤ INT_MAX →
      HashMap_optimum n h = some (displacement_sum h h.tblsz)) ∧
    (∀ v, HashMap_optimum n h = some v → v = displacement_sum h h.tblsz) ∧
    (HashMap_optimum n h = some 0 ↔ AllHome h) := by
  have heq := optimum_eq n h hv hnd hr
  have hzero : displacement_sum h h.tblsz = 0 ↔ AllHome h := by
    rw [displacement_sum_zero_iff h hv.2.1 h.tblsz]
    constructor
    · intro hall i hi hki
      exact (displacement_zero_iff h i hi (hr i hi hki)).1 (hall i hi hki)
    · intro hhome i hi hki
      exact (displacement_zero_iff h i hi (hr i hi hki)).2 (hhome i hi hki)
  refine ⟨fun i hi hki => map_find_displacement h i hv.2 hnd hi hki (hr i hi hki), ?_, ?_, ?_⟩
  · intro hfit
    rw [heq, if_pos hfit]
  · intro v hv'
    rw [heq] at hv'
    by_cases hfit : displacement_sum h h.tblsz ≤ INT_MAX
    · rw [if_pos hfit] at hv'
      simp only [Option.some.injEq] at hv'
      exact hv'.symm
    · rw [if_neg hfit] at hv'
      exact absurd hv' (by simp)
  · rw [heq]
    constructor
    · intro hopt
      by_cases hfit : displacement_sum h h.tblsz ≤ INT_MAX
      · rw [if_pos hfit] at hopt
        simp only [Option.some.injEq] at hopt
        exact hzero.1 hopt
      · rw [if_neg hfit] at hopt
        exact absurd hopt (by simp)
    · intro hhome
      have hz := hzero.2 hhome
      rw [hz, if_pos (by decide)]

theorem demo_bcde_in_range :
    ∀ i, i < demo_bcde.tblsz → key_at demo_bcde i ≠ INIT_KEY →
      IndexInRange demo_bcde (key_at demo_bcde i) := by
  intro i hi _
  have hi' : i < 4 := hi
  interval_cases i <;> exact ⟨by decide, by decide⟩

theorem optimum_is_displacement_sum_witness :
    displacement_sum demo_bcde demo_bcde.tblsz = 6 ∧
    HashMap_optimum 56 demo_bcde = some (displacement_sum demo_bcde demo_bcde.tblsz) ∧
    ¬ AllHome demo_bcde :=
  ⟨by decide,
    (optimum_is_displacement_sum 56 demo_bcde demo_bcde_valid (by decide)
      demo_bcde_in_range).2.1 (by decide),
    by decide⟩

end HashMapC

namespace HashMapC

/-! ## C21 as the claim states it: a table on which the sum does not fit an `int` -/

theorem big_table_key (i : Nat) (hi : i < 65537) : key_at big_table i = big_key i := by
  have hget : big_table.hash_table[i]? = some ⟨big_key i, [0]⟩ := by
    show big_slots[i]? = _
    rw [big_slots, List.getElem?_map, List.getElem?_range hi]
    rfl
  rw [key_at_of_getElem? big_table i _ hget]

theorem big_key_ne_empty (i : Nat) : big_key i ≠ INIT_KEY := by
  intro h
  exact absurd h (by simp [big_key, INIT_KEY])

theorem big_key_injective (i j : Nat) (h : big_key i = big_key j) : i = j := by
  simp only [big_key, List.cons.injEq, and_true] at h
  obtain ⟨h1, h2, h3⟩ := h
  omega

theorem big_table_valid : Valid 56 big_table := by
  refine ⟨rfl, ?_, ?_⟩
  · show 0 < 65537
    decide
  · show big_slots.length = 65537
    rw [big_slots, List.length_map, List.length_range]

theorem big_table_no_duplicates : NoDuplicates big_table := by
  intro i hi j hj _ heq
  have hi' : i < 65537 := hi
  have hj' : j < 65537 := hj
  rw [big_table_key i hi', big_table_key j hj'] at heq
  exact big_key_injective i j heq

theorem big_table_in_range (key : Key) : IndexInRange big_table key := by
  refine ⟨le_refl _, ?_⟩
  show (0 : Int) < ((65537 : Nat) : Int)
  decide

theorem big_table_displacement (i : Nat) (hi : i < 65537) :
    displacement big_table i = (i : Int) := by
  show ((i : Int) - 0) % ((65537 : Nat) : Int) = (i : Int)
  rw [Int.sub_zero]
  exact Int.emod_eq_of_lt (by omega) (by omega)

theorem big_table_sum (m : Nat) (hm : m ≤ 65537) :
    2 * displacement_sum big_table m = (m : Int) * ((m : Int) - 1) := by
  induction m with
  | zero => simp [displacement_sum]
  | succ m ih =>
    have ih := ih (by omega)
    unfold displacement_sum
    rw [if_neg (by rw [big_table_key m (by omega)]; exact big_key_ne_empty m),
      big_table_displacement m (by omega), Int.mul_add, ih]
    push_cast
    ring

end HashMapC

namespace HashMapC

theorem big_first_getElem? (m i : Nat) (hi : i < 65537) :
    (big_first m).hash_table[i]? =
      some (if i < m then ⟨big_key i, [0]⟩ else ⟨INIT_KEY, [0]⟩) := by
  show (big_first_slots m)[i]? = _
  rw [big_first_slots, List.getElem?_map, List.getElem?_range hi]
  rfl

theorem big_first_length (m : Nat) : (big_first m).hash_table.length = 65537 := by
  show (big_first_slots m).length = 65537
  rw [big_first_slots, List.length_map, List.length_range]

theorem big_first_key (m i : Nat) (hi : i < 65537) :
    key_at (big_first m) i = if i < m then big_key i else INIT_KEY := by
  rw [key_at_of_getElem? (big_first m) i _ (big_first_getElem? m i hi)]
  split <;> rfl

theorem big_first_container (m i : Nat) (hi : i < 65537) :
    container_at (big_first m) i = [0] := by
  obtain ⟨d, hd, _, hc⟩ := getElem?_of_lt (big_first m) i (by rw [big_first_length]; exact hi)
  rw [big_first_getElem? m i hi] at hd
  simp only [Option.some.injEq] at hd
  rw [hc, ← hd]
  split <;> rfl

theorem big_first_valid (m : Nat) : Valid 56 (big_first m) :=
  ⟨rfl, by show 0 < 65537; decide, big_first_length m⟩

end HashMapC

namespace HashMapC

theorem big_first_make :
    HashMap_make 55 1 65537 (some (fun _ _ => 0)) = (some (big_first 0), 56) := by
  have hslots : big_first_slots 0 = List.replicate 65537 ⟨INIT_KEY, [0]⟩ := by
    apply List.ext_getElem?
    intro i
    rw [big_first_slots, List.getElem?_map, List.getElem?_replicate]
    by_cases hi : i < 65537
    · rw [List.getElem?_range hi, if_pos hi]
      rfl
    · rw [List.getElem?_eq_none (by rw [List.length_range]; omega), if_neg hi]
      rfl
  unfold HashMap_make
  rw [if_neg (by decide), if_neg (by decide)]
  unfold big_first
  rw [hslots]
  rfl

/-- One more insert into the table holding the first `m` keys. -/
theorem big_first_insert (m : Nat) (hm : m < 65537) :
    HashMap_insert 56 (big_first m) (big_key m) [0] = some (OK, big_first (m + 1)) := by
  have hv := big_first_valid m
  have hr : IndexInRange (big_first m) (big_key m) :=
    ⟨le_refl _, by show (0 : Int) < ((65537 : Nat) : Int); decide⟩
  have hns : ¬ Stored (big_first m) (big_key m) := by
    rintro ⟨i, hi, hki⟩
    have hi' : i < 65537 := hi
    rw [big_first_key m i hi'] at hki
    by_cases him : i < m
    · rw [if_pos him] at hki
      have := big_key_injective i m hki
      omega
    · rw [if_neg him] at hki
      exact big_key_ne_empty m hki.symm
  have hempty : Stored (big_first m) INIT_KEY :=
    ⟨m, hm, by rw [big_first_key m m hm, if_neg (by omega)]⟩
  obtain ⟨h', hins⟩ := insert_ok 56 (big_first m) (big_key m) [0] hv (big_key_ne_empty m)
    hr hns hempty (by show (3 : Nat) < 32; decide) (by show (1 : Nat) ≤ 1; decide)
  rcases insert_cases 56 (big_first m) (big_key m) [0] OK h' hv.2 hins with
    ⟨hng, _⟩ | ⟨_, _, _, _, _, _, _, d, hd, hke, hfirst, ht⟩
  · exact absurd hng ok_ne_ng
  have hd' : d < 65537 := hd
  have hcirc : ∀ e, e < 65537 →
      circ (big_first m).tblsz
        ((big_first m).hash (big_key m) (big_first m).tblsz).toNat e = e := by
    intro e he
    show (0 + e) % 65537 = e
    rw [Nat.zero_add]
    exact Nat.mod_eq_of_lt he
  rw [hcirc d hd'] at hke ht
  have hdm : d = m := by
    rw [big_first_key m d hd'] at hke
    by_cases hlt : d < m
    · rw [if_pos hlt] at hke
      exact absurd hke (big_key_ne_empty d)
    · by_contra hne
      have hmd : m < d := by omega
      have := hfirst m hmd
      rw [hcirc m hm, big_first_key m m hm, if_neg (by omega)] at this
      exact this rfl
  rw [hdm, big_first_container m m hm] at ht
  rw [hins, ht]
  have hslots : (big_first m).hash_table.set m
      ⟨big_key m, List.take (big_first m).cellsz [0] ++ List.drop (big_first m).cellsz [0]⟩
      = big_first_slots (m + 1) := by
    apply List.ext_getElem?
    intro i
    rw [List.getElem?_set, big_first_length]
    by_cases hi : i < 65537
    · have hnew : (big_first_slots (m + 1))[i]? =
          some (if i < m + 1 then ⟨big_key i, [0]⟩ else ⟨INIT_KEY, [0]⟩) :=
        big_first_getElem? (m + 1) i hi
      rw [hnew]
      by_cases him : m = i
      · rw [if_pos him, if_pos hm, if_pos (by omega), ← him]
        rfl
      · rw [if_neg him, big_first_getElem? m i hi]
        by_cases hlt : i < m
        · rw [if_pos hlt, if_pos (by omega)]
        · rw [if_neg hlt, if_neg (by omega)]
    · have hnone : (big_first_slots (m + 1))[i]? = none := by
        apply List.getElem?_eq_none
        have := big_first_length (m + 1)
        have hl : (big_first_slots (m + 1)).length = 65537 := this
        omega
      rw [hnone, if_neg (by omega)]
      apply List.getElem?_eq_none
      rw [big_first_length]
      omega
  rw [hslots]
  rfl

theorem big_first_reachable (m : Nat) (hm : m ≤ 65537) : Reachable 56 (big_first m) := by
  induction m with
  | zero =>
    exact Reachable.make 55 1 65537 (some (fun _ _ => 0)) (big_first 0) 56 (by decide)
      big_first_make
  | succ m ih =>
    exact Reachable.insert 56 (big_first m) (big_key m) [0] OK (big_first (m + 1))
      (ih (by omega)) (big_first_insert m (by omega))

theorem big_table_eq : big_table = big_first 65537 := by
  have hslots : big_slots = big_first_slots 65537 := by
    apply List.ext_getElem?
    intro i
    rw [big_slots, big_first_slots, List.getElem?_map, List.getElem?_map]
    by_cases hi : i < 65537
    · rw [List.getElem?_range hi]
      simp only [Option.map_some', hi, if_true]
    · rw [List.getElem?_eq_none (by rw [List.length_range]; omega)]
      rfl
  unfold big_table big_first
  rw [hslots]

theorem big_table_reachable : Reachable 56 big_table := by
  rw [big_table_eq]
  exact big_first_reachable 65537 (le_refl _)

end HashMapC

namespace HashMapC

/-- C21, as the claim states it, fails: take 65537 slots, a hash function that
sends every key to index 0 (in range), and insert the 65537 distinct keys
`big_key 0`, ..., `big_key 65536`: `big_key i` lands in slot `i`.  The table
is valid and holds no key twice; the displacement of slot `i` is `i`, so the
sum of the miss counts is `0 + 1 + ... + 65536 = 2147516416`, more than
`INT_MAX = 2147483647`: the `int` accumulator of `HashMap_optimum` overflows
and the sum is not returned. -/
theorem optimum_sum_overflows :
    Reachable 56 big_table ∧ Valid 56 big_table ∧ NoDuplicates big_table ∧
    (∀ key, IndexInRange big_table key) ∧
    displacement_sum big_table big_table.tblsz = 2147516416 ∧
    HashMap_optimum 56 big_table = none ∧
    ¬ (HashMap_optimum 56 big_table = some (displacement_sum big_table big_table.tblsz)) := by
  have hsum : displacement_sum big_table big_table.tblsz = 2147516416 := by
    have h2 := big_table_sum 65537 (le_refl _)
    have : displacement_sum big_table big_table.tblsz = displacement_sum big_table 65537 := rfl
    rw [this]
    push_cast at h2
    omega
  have hopt : HashMap_optimum 56 big_table = none := by
    rw [optimum_eq 56 big_table big_table_valid big_table_no_duplicates
      (fun i _ _ => big_table_in_range _), hsum, if_neg (by decide)]
  refine ⟨big_table_reachable, big_table_valid, big_table_no_duplicates, big_table_in_range,
    hsum, hopt, ?_⟩
  rw [hopt]
  simp

end HashMapC
